import Mathlib

/-!
take4: a shallow embedding of the connect-four engine in `main.go`

Go values are modelled as follows.

* `int` and `Piece` are `Int`.  The only arithmetic that can leave the 64-bit
  range is the accumulation `results[firstMove] += score`, which is wrapped
  explicitly by `wrapInt`.
* `Board` (a slice of `Piece`) is a `List Piece`; an index expression that Go
  would reject with a run-time panic yields `Run.fault Fault.indexOutOfRange`.
* `string` is a `List Char`.
* `map[int]T` is an association list with unique keys (`GoMap`); the order in
  which `range` visits a map is a parameter of the function that ranges.
* `rand.Intn` draws from an explicit stream of numbers (`Rng`): the call
  `rand.Intn(n)` yields the next number of the stream modulo `n`, so that
  every stream is a sequence of random choices and every choice in `[0, n)`
  is made by some stream.
* The loop `for len(nextMoves) > 0` of a trial runs on fuel; `trial` supplies
  43 iterations and `trial_spec` shows that the fuel is never exhausted on a
  42-cell board.
* `getBestNextMoveN` is getBestNextMove with the constant numSimulations as a
  parameter; `getBestNextMove` is its instance at 1000.
* Of the input layer, `validInput` and the part of `readInput` after the line
  has been read and trimmed are modelled; reading and printing are not.
* Where aliasing matters (`getBestNextMoveMem`), a board is the address of a
  backing array in a `Heap`; `getBestNextMove_frame` relates this to the
  functions on values.
-/

namespace Take4

/-! ## Run-time results -/

/-- Ways in which an execution can stop without a value. -/
inductive Fault where
  | indexOutOfRange
  | invalidArgument
  | fuelExhausted
  deriving DecidableEq, Repr

/-- Result of running a piece of Go code: a value, or a fault. -/
inductive Run (α : Type) where
  | ok (a : α)
  | fault (f : Fault)
  deriving DecidableEq, Repr

/-- Sequencing of runs: a fault stops the computation. -/
def Run.bind {α β : Type} (r : Run α) (f : α → Run β) : Run β :=
  match r with
  | .ok a => f a
  | .fault e => .fault e

instance : Monad Run where
  pure := Run.ok
  bind := Run.bind

/-! ## Types and constants (`main.go` lines 13-43) -/

/-- Piece is encoded as an int. -/
abbrev Piece := Int

/-- Board is a slice of Pieces. -/
abbrev Board := List Piece

/-- Go strings, as sequences of characters. -/
abbrev GoString := List Char

def boardWidth : Int := 7
def boardHeight : Int := 6
def numSimulations : Nat := 1000

def EMPTY : Piece := 0
def P1 : Piece := 1
def P2 : Piece := 2

/-- The constant `MaxInt` of a 64-bit platform. -/
def MaxInt : Int := 2 ^ 63 - 1
/-- The constant `MinInt`, that is `-MaxInt - 1`. -/
def MinInt : Int := -MaxInt - 1

/-- Two's complement wrap-around of a 64-bit signed addition result. -/
def wrapInt (z : Int) : Int := (z + 2 ^ 63) % 2 ^ 64 - 2 ^ 63

/-- A Go map from int to int (or to Piece), as an association list. -/
abbrev GoMap := List (Int × Int)

/-- The expression `m[k]`: the stored value, or the zero value. -/
def GoMap.get (m : GoMap) (k : Int) : Int :=
  match m with
  | [] => 0
  | (k', v) :: rest => if k' = k then v else GoMap.get rest k

/-- Whether `k` is a key of `m`. -/
def GoMap.hasKey (m : GoMap) (k : Int) : Bool :=
  match m with
  | [] => false
  | (k', _) :: rest => if k' = k then true else GoMap.hasKey rest k

/-- The assignment `m[k] = v`. -/
def GoMap.put (m : GoMap) (k v : Int) : GoMap :=
  match m with
  | [] => [(k, v)]
  | (k', v') :: rest => if k' = k then (k, v) :: rest else (k', v') :: GoMap.put rest k v

/-- The index expression `s[i]` on a slice, with Go's bounds check. -/
def getIdx {α : Type} (s : List α) (i : Int) : Run α :=
  if i < 0 then .fault .indexOutOfRange
  else
    match s[i.toNat]? with
    | some a => .ok a
    | none => .fault .indexOutOfRange

/-- The assignment `s[i] = v` on a slice, with Go's bounds check. -/
def setIdx {α : Type} (s : List α) (i : Int) (v : α) : Run (List α) :=
  if i < 0 then .fault .indexOutOfRange
  else if i.toNat < s.length then .ok (s.set i.toNat v)
  else .fault .indexOutOfRange

/-! ## Board model (`main.go` lines 45-70) -/

/-- The loop `for idx := range board` of initBoard, from `idx` on, with
`len(board) - idx` iterations left. -/
def initBoardLoop (defs : GoMap) : Nat → Int → Board → Board
  | 0, _, board => board
  | left + 1, idx, board =>
    initBoardLoop defs left (idx + 1)
      (if defs.get idx ≠ EMPTY then board.set idx.toNat (defs.get idx)
       else board.set idx.toNat EMPTY)

/-- initBoard sets up the initial board state.
Cells that are not empty are supplied via defs with the key
representing the 1d index and the value representing the piece encoding. -/
def initBoard (defs : GoMap) : Board :=
  initBoardLoop defs (boardWidth * boardHeight).toNat 0
    (List.replicate (boardWidth * boardHeight).toNat 0)

/-- coordToIdx converts a cartesian coordinate to a 1d index. -/
def coordToIdx (x y : Int) : Int := x + (y * boardWidth)

/-- idxToCoord converts a 1d index to a pair of cartesian coordinates
(Go's `%` and `/` truncate towards zero). -/
def idxToCoord (idx : Int) : Int × Int :=
  (Int.tmod idx boardWidth, Int.tdiv idx boardWidth)

/-! ## Rule engine (`main.go` lines 72-164) -/

/-- One decimal digit as a character. -/
def digitChar (d : Nat) : Char := Char.ofNat (48 + d)

/-- Decimal digits of a natural number, most significant first. -/
def natDigits : Nat → Nat → List Char
  | 0, _ => []
  | fuel + 1, n =>
    if n < 10 then [digitChar n] else natDigits fuel (n / 10) ++ [digitChar (n % 10)]

/-- The text that the verb `%v` and `strconv.Itoa` produce for an int. -/
def itoa (z : Int) : GoString :=
  if z < 0 then '-' :: natDigits (z.natAbs + 1) z.natAbs
  else natDigits (z.natAbs + 1) z.natAbs

/-- The call `fmt.Sprintf("%v%v%v%v", a, b, c, d)`. -/
def sprintf4 (a b c d : Piece) : GoString := itoa a ++ itoa b ++ itoa c ++ itoa d

/-- The call `strings.Repeat(s, n)` for a count that is not negative. -/
def strRepeat (s : GoString) : Nat → GoString
  | 0 => []
  | n + 1 => s ++ strRepeat s n

/-- Body of the loop of collectFour for one start index. -/
def collectFourStep (board : Board) (vals : List GoString) (idx : Int) :
    Run (List GoString) := do
  let (x, y) := idxToCoord idx
  -- Scan x-axis to the right.
  let vals ←
    if x + 3 < boardWidth then do
      let a ← getIdx board idx
      let b ← getIdx board (idx + 1)
      let c ← getIdx board (idx + 2)
      let d ← getIdx board (idx + 3)
      pure (vals ++ [sprintf4 a b c d])
    else pure vals
  -- Scan y-axis down.
  let vals ←
    if y + 3 < boardHeight then do
      let a ← getIdx board idx
      let b ← getIdx board (coordToIdx x (y + 1))
      let c ← getIdx board (coordToIdx x (y + 2))
      let d ← getIdx board (coordToIdx x (y + 3))
      pure (vals ++ [sprintf4 a b c d])
    else pure vals
  -- Scan diagonal down and right.
  let vals ←
    if x + 3 < boardWidth ∧ y + 3 < boardHeight then do
      let a ← getIdx board idx
      let b ← getIdx board (coordToIdx (x + 1) (y + 1))
      let c ← getIdx board (coordToIdx (x + 2) (y + 2))
      let d ← getIdx board (coordToIdx (x + 3) (y + 3))
      pure (vals ++ [sprintf4 a b c d])
    else pure vals
  -- Scan diagonal up and right.
  if x + 3 < boardWidth ∧ y - 3 ≥ 0 then do
    let a ← getIdx board idx
    let b ← getIdx board (coordToIdx (x + 1) (y - 1))
    let c ← getIdx board (coordToIdx (x + 2) (y - 2))
    let d ← getIdx board (coordToIdx (x + 3) (y - 3))
    pure (vals ++ [sprintf4 a b c d])
  else pure vals

/-- The loop `for idx := 0; idx < n; idx++` of collectFour, from `idx` on,
with `n - idx` iterations left. -/
def collectFourLoop (board : Board) : Nat → Int → List GoString → Run (List GoString)
  | 0, _, vals => pure vals
  | left + 1, idx, vals => do
    let vals ← collectFourStep board vals idx
    collectFourLoop board left (idx + 1) vals

/-- collectFour scans the board on the x, y, and x+y axis returning all
valid combinations of adjacent cells as a slice of strings. -/
def collectFour (board : Board) : Run (List GoString) :=
  collectFourLoop board (boardWidth * boardHeight).toNat 0 []

/-- The loop over the groups in gameOver. -/
def gameOverLoop (p1Str p2Str : GoString) : List GoString → Piece
  | [] => EMPTY
  | group :: groups =>
    if group = strRepeat p1Str 4 then P1
    else if group = strRepeat p2Str 4 then P2
    else gameOverLoop p1Str p2Str groups

/-- gameOver specifies if the game is over and who won (P1 or P2).
If Piece is EMPTY, the game is ongoing. -/
def gameOver (board : Board) : Run Piece := do
  let groups ← collectFour board
  let p1Str := itoa P1
  let p2Str := itoa P2
  pure (gameOverLoop p1Str p2Str groups)

/-- The loop `for col := 0; col < n; col++` of validMoves, from `col` on,
with `n - col` iterations left. -/
def validMovesLoop (board : Board) : Nat → Int → List Bool → Run (List Bool)
  | 0, _, valid => pure valid
  | left + 1, col, valid => do
    let cell ← getIdx board col
    let valid ← if cell = EMPTY then setIdx valid col true else pure valid
    validMovesLoop board left (col + 1) valid

/-- validMoves returns a slice of valid moves. -/
def validMoves (board : Board) : Run (List Bool) :=
  validMovesLoop board boardWidth.toNat 0 (List.replicate boardWidth.toNat false)

/-- The two errors that move can return. -/
inductive MoveError where
  | invalidMove
  | invalidCodePath
  deriving DecidableEq, Repr

/-- The loop `for row := boardHeight - 1; row >= 0; row--` of move, with
`n` rows left, so that the current row is `n - 1`. -/
def moveLoop (board : Board) (mv : Int) (piece : Piece) :
    Nat → Run (Board × Option MoveError)
  | 0 => pure (board, some .invalidCodePath)
  | n + 1 => do
    let row : Int := n
    let idx := coordToIdx mv row
    let cell ← getIdx board idx
    if cell = EMPTY then do
      let board ← setIdx board idx piece
      pure (board, none)
    else moveLoop board mv piece n

/-- move places a piece on the board if the position is valid. -/
def move (board : Board) (mv : Int) (piece : Piece) : Run (Board × Option MoveError) := do
  let valid ← validMoves board
  let ok ← getIdx valid mv
  if !ok then pure (board, some .invalidMove)
  else moveLoop board mv piece boardHeight.toNat

/-- nextTurn specifies who goes next. -/
def nextTurn (currPlayer : Piece) : Piece :=
  if currPlayer = P1 then P2 else P1

/-! ## Move selection (`main.go` lines 253-318) -/

/-- The source of `rand.Intn`: a stream of numbers and the position of the
next one to be drawn. -/
structure Rng where
  seq : Nat → Nat
  pos : Nat

/-- The call `rand.Intn(n)`: a number in `[0, n)`; it panics when `n <= 0`. -/
def Rng.intn (r : Rng) (n : Int) : Run (Int × Rng) :=
  if n ≤ 0 then .fault .invalidArgument
  else .ok ((r.seq r.pos : Int) % n, { r with pos := r.pos + 1 })

/-- The loop `for i, v := range moves` of filterValid, from index `i` on. -/
def filterValidLoop : List Bool → Int → List Int → List Int
  | [], _, ret => ret
  | v :: moves, i, ret => filterValidLoop moves (i + 1) (if v then ret ++ [i] else ret)

/-- The indices of the true entries of `moves`, ascending. -/
def filterValid (moves : List Bool) : List Int := filterValidLoop moves 0 []

/-- Variables of one trial of getBestNextMove.  The fields `winner` (the
piece reported by gameOver when the trial left its loop through `break`,
EMPTY otherwise) and `errors` (how often the branch `err != nil` was taken)
are not variables of the program; they record what happened. -/
structure Sim where
  boardCopy : Board
  player : Piece
  score : Int
  nextMoves : List Int
  firstMove : Int
  moveCnt : Int
  winner : Piece
  errors : Nat
  rng : Rng

/-- The loop `for len(nextMoves) > 0` of one trial, for at most `fuel`
iterations.  The inner declaration `boardCopy, err := move(...)` names the
slice that move has updated in place, so the board that the next iteration
sees is the one returned by move. -/
def simLoop : Nat → Sim → Run Sim
  | 0, s => if (s.nextMoves.length : Int) > 0 then .fault .fuelExhausted else pure s
  | fuel + 1, s =>
    if (s.nextMoves.length : Int) > 0 then do
      let moveCnt := s.moveCnt + 1
      let (r, rng) ← s.rng.intn s.nextMoves.length
      let randMove ← getIdx s.nextMoves r
      let (boardCopy, err) ← move s.boardCopy randMove s.player
      let errors := if err ≠ none then s.errors + 1 else s.errors
      -- This move starts the tree.
      let firstMove := if s.firstMove = -1 then randMove else s.firstMove
      let piece ← gameOver boardCopy
      if piece ≠ EMPTY then
        -- P1 is the human, so a win deducts points
        let score := if piece = P1 then s.score * -1 else s.score
        pure { s with boardCopy := boardCopy, score := score, firstMove := firstMove,
                      moveCnt := moveCnt, winner := piece, errors := errors, rng := rng }
      else do
        let score := s.score - 1
        let player := nextTurn s.player
        let valid ← validMoves boardCopy
        let nextMoves := filterValid valid
        simLoop fuel { s with boardCopy := boardCopy, player := player, score := score,
                              nextMoves := nextMoves, firstMove := firstMove,
                              moveCnt := moveCnt, errors := errors, rng := rng }
    else pure s

/-- One trial of getBestNextMove: the body of the loop over `i` up to the
end of the inner loop.  `boardCopy` is a fresh slice with the cells of
`board`. -/
def trial (board : Board) (currPlayer : Piece) (rng : Rng) : Run Sim := do
  let player := currPlayer
  let boardCopy : Board := board
  let score := boardWidth * boardHeight
  let valid ← validMoves boardCopy
  let nextMoves := filterValid valid
  simLoop ((boardWidth * boardHeight).toNat + 1)
    { boardCopy := boardCopy, player := player, score := score, nextMoves := nextMoves,
      firstMove := -1, moveCnt := 1, winner := EMPTY, errors := 0, rng := rng }

/-- State of the loop over the trials: the map `results`, the random source,
and a record `log` of the pair (firstMove, score) of every trial so far. -/
structure Trials where
  results : GoMap
  log : List (Int × Int)
  rng : Rng

/-- The loop `for i := 0; i < n; i++` of getBestNextMove with `left`
iterations to go. -/
def trialsLoop (board : Board) (currPlayer : Piece) : Nat → Trials → Run Trials
  | 0, t => pure t
  | left + 1, t => do
    let s ← trial board currPlayer t.rng
    let results :=
      if s.firstMove ≥ 0 then
        t.results.put s.firstMove (wrapInt (t.results.get s.firstMove + s.score))
      else t.results
    trialsLoop board currPlayer left
      { results := results, log := t.log ++ [(s.firstMove, s.score)], rng := s.rng }

/-- The loop `for move, score := range results`, over the entries in the
order in which the map yields them. -/
def bestLoop : List (Int × Int) → Int → Int → Int
  | [], bestMove, _ => bestMove
  | (mv, score) :: rest, bestMove, highScore =>
    if score > highScore then bestLoop rest mv score
    else bestLoop rest bestMove highScore

/-- An iteration order for maps: each map is enumerated as some
rearrangement of its entries. -/
def IterationOrder (order : GoMap → List (Int × Int)) : Prop :=
  ∀ m : GoMap, (order m).Perm m

/-- getBestNextMove with the number of trials as a parameter. -/
def getBestNextMoveN (n : Nat) (board : Board) (currPlayer : Piece) (rng : Rng)
    (order : GoMap → List (Int × Int)) : Run Int := do
  let bestMove := -1
  let highScore := MinInt
  let t ← trialsLoop board currPlayer n { results := [], log := [], rng := rng }
  pure (bestLoop (order t.results) bestMove highScore)

/-- The function getBestNextMove of the program: numSimulations trials. -/
def getBestNextMove (board : Board) (currPlayer : Piece) (rng : Rng)
    (order : GoMap → List (Int × Int)) : Run Int :=
  getBestNextMoveN numSimulations board currPlayer rng order

/-! ## Notions used to state the properties -/

/-- The cell of `board` at index `i`, EMPTY outside the slice. -/
def cellAt (board : Board) (i : Int) : Piece := board.getD i.toNat EMPTY

/-- The eight compass directions as steps (dx, dy): left, right, up, down and
the four diagonals. -/
def compass8 : List (Int × Int) :=
  [(-1, 0), (1, 0), (0, -1), (0, 1), (-1, -1), (1, -1), (-1, 1), (1, 1)]

/-- The four cells starting at (x, y) and going in direction (dx, dy) all lie
inside the 7x6 grid and all hold `p`. -/
def fourInLine (board : Board) (p : Piece) (x y dx dy : Int) : Prop :=
  ∀ k ∈ [(0 : Int), 1, 2, 3],
    0 ≤ x + k * dx ∧ x + k * dx < 7 ∧ 0 ≤ y + k * dy ∧ y + k * dy < 6 ∧
    getIdx board (coordToIdx (x + k * dx) (y + k * dy)) = Run.ok p

instance (board : Board) (p : Piece) (x y dx dy : Int) :
    Decidable (fourInLine board p x y dx dy) := by
  unfold fourInLine; infer_instance

/-- Player `p` has four in a line somewhere on the board. -/
def hasLine (board : Board) (p : Piece) : Prop :=
  ∃ x y dx dy : Int, (dx, dy) ∈ compass8 ∧ fourInLine board p x y dx dy

/-- The groups that one iteration of collectFour appends on a board whose
cells are read with `cellAt`. -/
def stepGroups (board : Board) (idx : Int) : List GoString :=
  let x := (idxToCoord idx).1
  let y := (idxToCoord idx).2
  (if x + 3 < boardWidth then
    [sprintf4 (cellAt board idx) (cellAt board (idx + 1)) (cellAt board (idx + 2))
      (cellAt board (idx + 3))] else []) ++
  (if y + 3 < boardHeight then
    [sprintf4 (cellAt board idx) (cellAt board (coordToIdx x (y + 1)))
      (cellAt board (coordToIdx x (y + 2))) (cellAt board (coordToIdx x (y + 3)))] else []) ++
  (if x + 3 < boardWidth ∧ y + 3 < boardHeight then
    [sprintf4 (cellAt board idx) (cellAt board (coordToIdx (x + 1) (y + 1)))
      (cellAt board (coordToIdx (x + 2) (y + 2))) (cellAt board (coordToIdx (x + 3) (y + 3)))]
    else []) ++
  (if x + 3 < boardWidth ∧ y - 3 ≥ 0 then
    [sprintf4 (cellAt board idx) (cellAt board (coordToIdx (x + 1) (y - 1)))
      (cellAt board (coordToIdx (x + 2) (y - 2))) (cellAt board (coordToIdx (x + 3) (y - 3)))]
    else [])

/-- The groups appended by `left` iterations of collectFour from `idx` on. -/
def groupsFrom (board : Board) : Nat → Int → List GoString
  | 0, _ => []
  | left + 1, idx => stepGroups board idx ++ groupsFrom board left (idx + 1)

/-- The number of EMPTY cells of a board. -/
def emptyCount (board : Board) : Nat := board.count EMPTY

/-- The slice that validMoves returns on a board of at least 7 cells. -/
def topRow (board : Board) : List Bool :=
  [decide (cellAt board 0 = EMPTY), decide (cellAt board 1 = EMPTY),
   decide (cellAt board 2 = EMPTY), decide (cellAt board 3 = EMPTY),
   decide (cellAt board 4 = EMPTY), decide (cellAt board 5 = EMPTY),
   decide (cellAt board 6 = EMPTY)]

/-- The sum of the scores of the trials of `log` whose first move is `c`. -/
def logTotal (log : List (Int × Int)) (c : Int) : Int :=
  ((log.filter (fun e => e.1 = c)).map Prod.snd).sum

/-- State of a trial whose board has 42 cells and whose list of next moves
is the one computed from its board. -/
def SimInv (s : Sim) : Prop :=
  s.boardCopy.length = 42 ∧ s.nextMoves = filterValid (topRow s.boardCopy)

/-- The number of iterations that a trial can still make. -/
def simMeasure (s : Sim) : Nat :=
  emptyCount s.boardCopy + (if s.player = EMPTY then 1 else 0)

/-- What holds of the map `results` and of the log between two trials: the
keys are distinct, a column is a key exactly when it is the first move of a
logged trial, its value is the sum of the scores of those trials, every
logged score is within `B` and every logged first move satisfies `Q`. -/
def TrialsInv (B : Int) (Q : Int → Prop) (t : Trials) : Prop :=
  (t.results.map Prod.fst).Nodup ∧
  (∀ c : Int, t.results.hasKey c = true ↔ 0 ≤ c ∧ ∃ e ∈ t.log, e.1 = c) ∧
  (∀ c : Int, 0 ≤ c → t.results.get c = logTotal t.log c) ∧
  (∀ e ∈ t.log, -B ≤ e.2 ∧ e.2 ≤ B ∧ Q e.1)

/-- A position with 21 pieces of P1 and 20 of P2 and no four in a line, in
which only column 0 is legal and P2 completes the column 0, 7, 14, 21 by
playing there. -/
def oneColumnBoard : Board :=
  [0, 1, 2, 2, 1, 1, 2,
   2, 2, 1, 2, 2, 1, 1,
   2, 1, 2, 2, 1, 2, 1,
   2, 1, 2, 1, 1, 2, 1,
   1, 1, 2, 1, 2, 1, 2,
   1, 2, 1, 2, 2, 1, 1]

/-! ## Input layer (`main.go` lines 193-241) -/

/-- validInput returns a bool indicating whether the input is valid. -/
def validInput (input : GoString) : Bool :=
  let valid : List GoString :=
    ["1".toList, "2".toList, "3".toList, "4".toList, "5".toList, "6".toList, "7".toList,
     "8".toList, "9".toList]
  valid.any (fun entry => input = entry)

/-- The range that promptInput announces in its text `Enter a move (1-7): `. -/
def promptRange : List GoString :=
  ["1".toList, "2".toList, "3".toList, "4".toList, "5".toList, "6".toList, "7".toList]

/-- The value of one decimal digit, if the character is one. -/
def digitVal (ch : Char) : Option Nat :=
  if 48 ≤ ch.toNat ∧ ch.toNat ≤ 57 then some (ch.toNat - 48) else none

/-- The number written by a string of decimal digits, after `acc`. -/
def parseDigits : List Char → Nat → Option Nat
  | [], acc => some acc
  | ch :: rest, acc =>
    match digitVal ch with
    | some d => parseDigits rest (10 * acc + d)
    | none => none

/-- The call `strconv.Atoi(s)`: an optional sign and decimal digits that
denote a 64-bit int; `none` stands for a returned error. -/
def atoi (s : GoString) : Option Int :=
  let (neg, digits) :=
    match s with
    | '-' :: rest => (true, rest)
    | '+' :: rest => (false, rest)
    | _ => (false, s)
  if digits = [] then none
  else
    match parseDigits digits 0 with
    | none => none
    | some n =>
      let v : Int := if neg then -(n : Int) else n
      if MinInt ≤ v ∧ v ≤ MaxInt then some v else none

/-- readInput from the point at which the line has been read and trimmed:
`input` is the trimmed line, the result is the move. -/
def readInput (input : GoString) : Int :=
  if validInput input then
    match atoi input with
    -- Should not be possible post-validation.
    | none => -1
    -- Subtract one to convert to idx value.
    | some mv => mv - 1
  else -1

/-- What the loop of main does with the input of P1 on `board`: `none` when
it prints `Invalid move.`, otherwise the result of the call to move. -/
def mainMove (board : Board) (moveInput : Int) (activePlayer : Piece) :
    Option (Run (Board × Option MoveError)) :=
  if moveInput ≥ 0 then some (move board moveInput activePlayer) else none

/-! ## Notions used to state the properties of sequences of moves -/

/-- The board has 42 cells, the lowest `k` cells of column `c` hold the
pieces given by `f` (by row) and all other cells are EMPTY. -/
def ColumnFilled (b : Board) (c k : Int) (f : Int → Piece) : Prop :=
  b.length = 42 ∧
  ∀ i : Int, 0 ≤ i → i < 42 →
    cellAt b i = if i % 7 = c ∧ 6 - k ≤ i / 7 then f (i / 7) else EMPTY

/-- The pieces of a column by row when `p1`, ..., `p6` are dropped in this
order: `p1` comes to lie in row 5 and `p6` in row 0. -/
def sixPieces (p1 p2 p3 p4 p5 p6 : Piece) (row : Int) : Piece :=
  if row = 5 then p1 else if row = 4 then p2 else if row = 3 then p3
  else if row = 2 then p4 else if row = 1 then p5 else p6

/-- The rows of the grid, top first. -/
def gridRows : List Int := [0, 1, 2, 3, 4, 5]

/-- The columns of the grid. -/
def gridCols : List Int := [0, 1, 2, 3, 4, 5, 6]

/-- A board is settled when in every column no EMPTY cell lies below a
non-EMPTY cell (a greater row index is further down). -/
def settled (b : Board) : Prop :=
  ∀ c ∈ gridCols, ∀ r ∈ gridRows, ∀ r' ∈ gridRows, r < r' →
    cellAt b (coordToIdx c r) ≠ EMPTY → cellAt b (coordToIdx c r') ≠ EMPTY

instance (b : Board) : Decidable (settled b) := by
  unfold settled; infer_instance

/-- All six cells of column `c` are read without panic and are not EMPTY. -/
def columnFull (b : Board) (c : Int) : Prop :=
  ∀ r ∈ gridRows, ∃ cell, getIdx b (coordToIdx c r) = Run.ok cell ∧ cell ≠ EMPTY

/-! ## The windows of collectFour as the specification lists them -/

/-- The four directions in which windows are taken, in the order in which
the groups of one start cell come. -/
inductive Direction where
  | right
  | down
  | downRight
  | upRight
  deriving DecidableEq, Repr

/-- The step of a direction along x. -/
def Direction.dx : Direction → Int
  | .right => 1
  | .down => 0
  | .downRight => 1
  | .upRight => 1

/-- The step of a direction along y (a greater y is further down). -/
def Direction.dy : Direction → Int
  | .right => 0
  | .down => 1
  | .downRight => 1
  | .upRight => -1

/-- The place of a direction in the order rightward, downward, down-right,
up-right. -/
def Direction.rank : Direction → Nat
  | .right => 0
  | .down => 1
  | .downRight => 2
  | .upRight => 3

/-- The index of the `k`-th cell of the window that starts at index `idx`
and goes in direction `d`. -/
def windowIdx (idx : Int) (d : Direction) (k : Int) : Int :=
  coordToIdx (idx % 7 + k * d.dx) (idx / 7 + k * d.dy)

/-- The four cells of the window lie inside the 7x6 grid. -/
def windowInGrid (idx : Int) (d : Direction) : Bool :=
  [(0 : Int), 1, 2, 3].all (fun k =>
    decide (0 ≤ idx % 7 + k * d.dx ∧ idx % 7 + k * d.dx < 7 ∧
            0 ≤ idx / 7 + k * d.dy ∧ idx / 7 + k * d.dy < 6))

/-- The windows that start at one cell, in the order of the directions. -/
def stepWindows (idx : Int) : List (Int × Direction) :=
  ([Direction.right, Direction.down, Direction.downRight, Direction.upRight].filter
    (windowInGrid idx)).map (fun d => (idx, d))

/-- The windows of `left` start cells from `idx` on, by ascending start. -/
def windowsFrom : Nat → Int → List (Int × Direction)
  | 0, _ => []
  | left + 1, idx => stepWindows idx ++ windowsFrom left (idx + 1)

/-- All windows of the board: by ascending start index and, for one start
cell, in the order rightward, downward, down-right, up-right. -/
def specWindows : List (Int × Direction) := windowsFrom 42 0

/-- The group of a window: the decimal digits of its four cells from the
start cell outward. -/
def specGroup (board : Board) (w : Int × Direction) : GoString :=
  [(0 : Int), 1, 2, 3].map (fun k => digitChar (cellAt board (windowIdx w.1 w.2 k)).toNat)

/-! ## getBestNextMove on memory

The functions above treat a board as a value. Here a board is a Go slice,
that is a reference to a backing array in memory, so that a write through
one slice is seen through every slice with the same backing array. -/

/-- The memory that holds the backing arrays of the boards, by address. -/
abbrev Heap := List Board

/-- A board as a slice: the address of its backing array (every board slice
of the program spans its whole array). -/
abbrev BoardRef := Nat

/-- The cells that the slice at address `a` shows. -/
def Heap.load (h : Heap) (a : BoardRef) : Run Board :=
  match h[a]? with
  | some cells => .ok cells
  | none => .fault .indexOutOfRange

/-- move on memory: the cells are read through the slice `board`, the
assignment `board[idx] = piece` changes the backing array in place, and the
slice that is returned is `board` itself. -/
def moveMem (h : Heap) (board : BoardRef) (mv : Int) (piece : Piece) :
    Run (Heap × BoardRef × Option MoveError) := do
  let cells ← h.load board
  let (cells', err) ← move cells mv piece
  pure (h.set board cells', board, err)

/-- Variables of one trial of getBestNextMove, with the memory. -/
structure SimMem where
  heap : Heap
  boardCopy : BoardRef
  player : Piece
  score : Int
  nextMoves : List Int
  firstMove : Int
  moveCnt : Int
  rng : Rng

/-- The loop `for len(nextMoves) > 0` of one trial on memory. -/
def simLoopMem : Nat → SimMem → Run SimMem
  | 0, s => if (s.nextMoves.length : Int) > 0 then .fault .fuelExhausted else pure s
  | fuel + 1, s =>
    if (s.nextMoves.length : Int) > 0 then do
      let moveCnt := s.moveCnt + 1
      let (r, rng) ← s.rng.intn s.nextMoves.length
      let randMove ← getIdx s.nextMoves r
      let (heap, boardCopy, _) ← moveMem s.heap s.boardCopy randMove s.player
      let firstMove := if s.firstMove = -1 then randMove else s.firstMove
      let piece ← gameOver (← heap.load boardCopy)
      if piece ≠ EMPTY then
        let score := if piece = P1 then s.score * -1 else s.score
        pure { s with heap := heap, boardCopy := boardCopy, score := score,
                      firstMove := firstMove, moveCnt := moveCnt, rng := rng }
      else do
        let score := s.score - 1
        let player := nextTurn s.player
        let valid ← validMoves (← heap.load boardCopy)
        let nextMoves := filterValid valid
        simLoopMem fuel { s with heap := heap, boardCopy := boardCopy, player := player,
                                 score := score, nextMoves := nextMoves,
                                 firstMove := firstMove, moveCnt := moveCnt, rng := rng }
    else pure s

/-- One trial on memory. The statements `boardCopy := make(Board, len(board))`
and `copy(boardCopy, board)` put a new backing array with the cells of
`board` at a fresh address. -/
def trialMem (h : Heap) (board : BoardRef) (currPlayer : Piece) (rng : Rng) : Run SimMem := do
  let player := currPlayer
  let cells ← h.load board
  let boardCopy : BoardRef := h.length
  let heap : Heap := h ++ [cells]
  let score := boardWidth * boardHeight
  let valid ← validMoves (← heap.load boardCopy)
  let nextMoves := filterValid valid
  simLoopMem ((boardWidth * boardHeight).toNat + 1)
    { heap := heap, boardCopy := boardCopy, player := player, score := score,
      nextMoves := nextMoves, firstMove := -1, moveCnt := 1, rng := rng }

/-- State of the loop over the trials on memory. The field `starts` is not a
variable of the program: it records the cells of boardCopy at the start of
the rollout of every trial so far. -/
structure TrialsMem where
  heap : Heap
  results : GoMap
  starts : List Board
  rng : Rng

/-- The loop `for i := 0; i < n; i++` of getBestNextMove on memory. -/
def trialsLoopMem (board : BoardRef) (currPlayer : Piece) : Nat → TrialsMem → Run TrialsMem
  | 0, t => pure t
  | left + 1, t => do
    let start ← t.heap.load board
    let s ← trialMem t.heap board currPlayer t.rng
    let results :=
      if s.firstMove ≥ 0 then
        t.results.put s.firstMove (wrapInt (t.results.get s.firstMove + s.score))
      else t.results
    trialsLoopMem board currPlayer left
      { heap := s.heap, results := results, starts := t.starts ++ [start], rng := s.rng }

/-- What getBestNextMove leaves behind: the memory, the move it returns and
the record of the boards from which its trials started. -/
structure Selection where
  heap : Heap
  bestMove : Int
  starts : List Board

/-- getBestNextMove on memory, with the number of trials as a parameter. -/
def getBestNextMoveMemN (n : Nat) (h : Heap) (board : BoardRef) (currPlayer : Piece)
    (rng : Rng) (order : GoMap → List (Int × Int)) : Run Selection := do
  let bestMove := -1
  let highScore := MinInt
  let t ← trialsLoopMem board currPlayer n
    { heap := h, results := [], starts := [], rng := rng }
  pure { heap := t.heap, bestMove := bestLoop (order t.results) bestMove highScore,
         starts := t.starts }

/-- getBestNextMove on memory. -/
def getBestNextMoveMem (h : Heap) (board : BoardRef) (currPlayer : Piece) (rng : Rng)
    (order : GoMap → List (Int × Int)) : Run Selection :=
  getBestNextMoveMemN numSimulations h board currPlayer rng order

/-- The state on memory that corresponds to the state `s` of a trial whose
board lies at address `a` of `h`. -/
def SimMem.ofSim (h : Heap) (a : BoardRef) (s : Sim) : SimMem :=
  { heap := h.set a s.boardCopy, boardCopy := a, player := s.player, score := s.score,
    nextMoves := s.nextMoves, firstMove := s.firstMove, moveCnt := s.moveCnt, rng := s.rng }

/-! ## Basic facts about runs, slices and maps -/

@[simp] theorem Run.pure_def {α : Type} (a : α) : (pure a : Run α) = Run.ok a := rfl

@[simp] theorem Run.ok_bind {α β : Type} (a : α) (f : α → Run β) :
    (Run.ok a >>= f) = f a := rfl

@[simp] theorem Run.fault_bind {α β : Type} (e : Fault) (f : α → Run β) :
    (Run.fault e >>= f) = Run.fault e := rfl

theorem getIdx_eq_cellAt (board : Board) (i : Int) (h0 : 0 ≤ i) (h1 : i < board.length) :
    getIdx board i = Run.ok (cellAt board i) := by
  have hlt : i.toNat < board.length := by omega
  have hneg : ¬ i < 0 := by omega
  simp [getIdx, cellAt, hneg, List.getD_eq_getElem?_getD, List.getElem?_eq_getElem hlt]

theorem getIdx_ok_iff (board : Board) (i : Int) (p : Piece) :
    getIdx board i = Run.ok p ↔ 0 ≤ i ∧ i < board.length ∧ cellAt board i = p := by
  constructor
  · intro h
    unfold getIdx at h
    by_cases hneg : i < 0
    · simp [hneg] at h
    · simp only [hneg, if_false] at h
      cases hq : board[i.toNat]? with
      | none => simp [hq] at h
      | some a =>
        simp only [hq, Run.ok.injEq] at h
        have hlt : i.toNat < board.length := by
          by_contra hge
          have : board[i.toNat]? = none := List.getElem?_eq_none (by omega)
          simp [this] at hq
        refine ⟨by omega, by omega, ?_⟩
        simp [cellAt, List.getD_eq_getElem?_getD, hq, h]
  · rintro ⟨h0, h1, h2⟩
    rw [getIdx_eq_cellAt board i h0 h1, h2]

theorem cellAt_set (board : Board) (i j : Int) (v : Piece) (hi0 : 0 ≤ i)
    (hi : i < board.length) (hj0 : 0 ≤ j) :
    cellAt (board.set i.toNat v) j = if j = i then v else cellAt board j := by
  have hlt : i.toNat < board.length := by omega
  unfold cellAt
  rw [List.getD_eq_getElem?_getD, List.getD_eq_getElem?_getD, List.getElem?_set]
  by_cases hji : j = i
  · subst hji; simp [hlt]
  · have : i.toNat ≠ j.toNat := by omega
    simp [hji, this]

theorem setIdx_eq (board : Board) (i : Int) (v : Piece) (h0 : 0 ≤ i) (h1 : i < board.length) :
    setIdx board i v = Run.ok (board.set i.toNat v) := by
  have hlt : i.toNat < board.length := by omega
  have hneg : ¬ i < 0 := by omega
  simp [setIdx, hneg, hlt]

/-! ## Coordinates -/

theorem idxToCoord_nonneg (idx : Int) (h : 0 ≤ idx) : idxToCoord idx = (idx % 7, idx / 7) := by
  unfold idxToCoord boardWidth
  rw [Int.tmod_eq_emod h (by decide), Int.tdiv_eq_ediv h (by decide)]

/-- C6: coordToIdx and idxToCoord are mutually inverse bijections between the
coordinates (x, y) with 0 <= x < 7, 0 <= y < 6 and the indices 0..41, and
coordToIdx x y is x + 7 * y. -/
theorem coord_bijection :
    (∀ x y : Int, 0 ≤ x → x < 7 → 0 ≤ y → y < 6 →
      coordToIdx x y = x + 7 * y ∧ 0 ≤ coordToIdx x y ∧ coordToIdx x y < 42 ∧
      idxToCoord (coordToIdx x y) = (x, y)) ∧
    (∀ idx : Int, 0 ≤ idx → idx < 42 →
      0 ≤ (idxToCoord idx).1 ∧ (idxToCoord idx).1 < 7 ∧
      0 ≤ (idxToCoord idx).2 ∧ (idxToCoord idx).2 < 6 ∧
      coordToIdx (idxToCoord idx).1 (idxToCoord idx).2 = idx) := by
  constructor
  · intro x y hx0 hx hy0 hy
    have e : coordToIdx x y = x + 7 * y := by unfold coordToIdx boardWidth; ring
    refine ⟨e, by omega, by omega, ?_⟩
    rw [idxToCoord_nonneg _ (by omega), e]
    ext <;> simp <;> omega
  · intro idx h0 h1
    rw [idxToCoord_nonneg _ h0]
    simp only [coordToIdx, boardWidth]
    omega

/-- C6 at the coordinate (3, 4) and the index 31. -/
theorem coord_bijection_witness :
    idxToCoord (coordToIdx 3 4) = (3, 4) ∧
    coordToIdx (idxToCoord 31).1 (idxToCoord 31).2 = 31 :=
  ⟨(coord_bijection.1 3 4 (by decide) (by decide) (by decide) (by decide)).2.2.2,
   (coord_bijection.2 31 (by decide) (by decide)).2.2.2.2⟩

/-! ## validMoves -/

theorem validMoves_cons7 (a0 a1 a2 a3 a4 a5 a6 : Int) (rest : List Int) :
    validMoves (a0 :: a1 :: a2 :: a3 :: a4 :: a5 :: a6 :: rest) =
      Run.ok [decide (a0 = 0), decide (a1 = 0), decide (a2 = 0), decide (a3 = 0),
              decide (a4 = 0), decide (a5 = 0), decide (a6 = 0)] := by
  have e : boardWidth.toNat = 7 := rfl
  simp only [validMoves, e, validMovesLoop, List.replicate]
  simp [getIdx, setIdx, EMPTY]
  by_cases h0 : a0 = 0 <;> by_cases h1 : a1 = 0 <;> by_cases h2 : a2 = 0 <;>
  by_cases h3 : a3 = 0 <;> by_cases h4 : a4 = 0 <;> by_cases h5 : a5 = 0 <;>
  by_cases h6 : a6 = 0 <;> simp [h0, h1, h2, h3, h4, h5, h6]

theorem validMoves_eq (board : Board) (h : 7 ≤ board.length) :
    validMoves board = Run.ok
      [decide (cellAt board 0 = EMPTY), decide (cellAt board 1 = EMPTY),
       decide (cellAt board 2 = EMPTY), decide (cellAt board 3 = EMPTY),
       decide (cellAt board 4 = EMPTY), decide (cellAt board 5 = EMPTY),
       decide (cellAt board 6 = EMPTY)] := by
  match board, h with
  | a0 :: a1 :: a2 :: a3 :: a4 :: a5 :: a6 :: rest, _ =>
    rw [validMoves_cons7]
    simp [cellAt, EMPTY]

theorem validMoves_at (board : Board) (h : 7 ≤ board.length) (c : Int) (h0 : 0 ≤ c)
    (h1 : c < 7) :
    ∃ valid, validMoves board = Run.ok valid ∧ valid.length = 7 ∧
      getIdx valid c = Run.ok (decide (cellAt board c = EMPTY)) := by
  refine ⟨_, validMoves_eq board h, rfl, ?_⟩
  interval_cases c <;> simp [getIdx]

/-- C5: on a board of at least 7 cells validMoves returns 7 entries, and the
entry of column c is true exactly when the top-row cell board[c], which is
the cell at coordinate (c, 0), is EMPTY. -/
theorem validMoves_spec (board : Board) (h : 7 ≤ board.length) :
    ∃ valid, validMoves board = Run.ok valid ∧ valid.length = 7 ∧
      ∀ c : Int, 0 ≤ c → c < 7 →
        ∃ v cell, getIdx valid c = Run.ok v ∧ getIdx board c = Run.ok cell ∧
          coordToIdx c 0 = c ∧ (v = true ↔ cell = EMPTY) := by
  refine ⟨_, validMoves_eq board h, rfl, ?_⟩
  intro c h0 h1
  obtain ⟨valid, hv, _, hc⟩ := validMoves_at board h c h0 h1
  rw [validMoves_eq board h] at hv
  cases hv
  refine ⟨_, _, hc, getIdx_eq_cellAt board c h0 (by omega), by simp [coordToIdx], by simp⟩

/-- C5 on the board of TestValidMoves. -/
theorem validMoves_spec_witness :
    ∃ valid, validMoves (initBoard [(1, P1), (2, P2), (5, P1), (6, P1)]) = Run.ok valid ∧
      valid.length = 7 ∧
      ∀ c : Int, 0 ≤ c → c < 7 →
        ∃ v cell, getIdx valid c = Run.ok v ∧
          getIdx (initBoard [(1, P1), (2, P2), (5, P1), (6, P1)]) c = Run.ok cell ∧
          coordToIdx c 0 = c ∧ (v = true ↔ cell = EMPTY) :=
  validMoves_spec (initBoard [(1, P1), (2, P2), (5, P1), (6, P1)]) (by decide)

/-! ## initBoard -/

theorem GoMap.get_of_not_hasKey (m : GoMap) (k : Int) (h : m.hasKey k = false) :
    m.get k = 0 := by
  induction m with
  | nil => rfl
  | cons e rest ih =>
    obtain ⟨k', v⟩ := e
    unfold GoMap.hasKey at h
    unfold GoMap.get
    by_cases hk : k' = k
    · simp [hk] at h
    · simp only [hk, if_false] at h ⊢
      exact ih h

theorem initBoardLoop_spec (defs : GoMap) (left idx : Nat) (board : Board)
    (h : idx + left ≤ board.length) :
    (initBoardLoop defs left idx board).length = board.length ∧
    ∀ j : Nat, (initBoardLoop defs left idx board)[j]? =
      if idx ≤ j ∧ j < idx + left then some (defs.get j) else board[j]? := by
  induction left generalizing idx board with
  | zero =>
    refine ⟨rfl, fun j => ?_⟩
    have : ¬ (idx ≤ j ∧ j < idx) := by omega
    simp [initBoardLoop, this]
  | succ n ih =>
    have hset : (if defs.get (idx : Int) ≠ EMPTY then board.set (idx : Int).toNat (defs.get idx)
        else board.set (idx : Int).toNat EMPTY) = board.set idx (defs.get idx) := by
      by_cases hz : defs.get (idx : Int) = EMPTY
      · simp [hz]
      · simp [hz]
    have hcast : ((idx : Int) + 1) = ((idx + 1 : Nat) : Int) := by push_cast; rfl
    unfold initBoardLoop
    rw [hset, hcast]
    obtain ⟨hl, hg⟩ := ih (idx + 1) (board.set idx (defs.get idx)) (by simp; omega)
    refine ⟨by simpa using hl, fun j => ?_⟩
    rw [hg j, List.getElem?_set]
    by_cases hj : idx = j
    · subst hj
      have h1 : ¬ (idx + 1 ≤ idx ∧ idx < idx + 1 + n) := by omega
      have h2 : idx ≤ idx ∧ idx < idx + (n + 1) := by omega
      have h3 : idx < board.length := by omega
      simp [h1, h2, h3]
    · by_cases hr : idx + 1 ≤ j ∧ j < idx + 1 + n
      · have h2 : idx ≤ j ∧ j < idx + (n + 1) := by omega
        simp [hr, h2]
      · have h2 : ¬ (idx ≤ j ∧ j < idx + (n + 1)) := by omega
        simp [hr, h2, hj]

theorem initBoard_length (defs : GoMap) : (initBoard defs).length = 42 := by
  have h := (initBoardLoop_spec defs 42 0 (List.replicate 42 0) (by simp)).1
  simpa [initBoard, boardWidth, boardHeight] using h

theorem initBoard_cellAt (defs : GoMap) (idx : Int) (h0 : 0 ≤ idx) (h1 : idx < 42) :
    cellAt (initBoard defs) idx = defs.get idx := by
  have h := (initBoardLoop_spec defs 42 0 (List.replicate 42 0) (by simp)).2 idx.toNat
  have hr : 0 ≤ idx.toNat ∧ idx.toNat < 0 + 42 := by omega
  rw [if_pos hr] at h
  have e : ((idx.toNat : Nat) : Int) = idx := by omega
  have hb : initBoard defs = initBoardLoop defs 42 (0 : Nat) (List.replicate 42 0) := rfl
  rw [cellAt, List.getD_eq_getElem?_getD, hb, h, e]
  rfl

/-- C7: initBoard returns 42 cells; the cell at idx in [0, 42) is defs[idx]
when idx is a key of defs and EMPTY otherwise; two maps that agree on the
keys in [0, 42) give the same board, so keys outside that range have no
effect; the empty map gives the all-EMPTY board. -/
theorem initBoard_spec :
    (∀ defs : GoMap, (initBoard defs).length = 42 ∧
      ∀ idx : Int, 0 ≤ idx → idx < 42 →
        getIdx (initBoard defs) idx =
          Run.ok (if defs.hasKey idx then defs.get idx else EMPTY)) ∧
    (∀ defs defs' : GoMap,
      (∀ idx : Int, 0 ≤ idx → idx < 42 →
        defs.hasKey idx = defs'.hasKey idx ∧ defs.get idx = defs'.get idx) →
      initBoard defs = initBoard defs') ∧
    (∀ (defs : GoMap) (k v : Int), (k < 0 ∨ 42 ≤ k) →
      initBoard (defs.put k v) = initBoard defs) ∧
    initBoard [] = List.replicate 42 EMPTY := by
  have cells : ∀ defs defs' : GoMap,
      (∀ idx : Int, 0 ≤ idx → idx < 42 → defs.get idx = defs'.get idx) →
      initBoard defs = initBoard defs' := by
    intro defs defs' h
    apply List.ext_getElem?
    intro j
    have a := (initBoardLoop_spec defs 42 0 (List.replicate 42 0) (by simp)).2 j
    have b := (initBoardLoop_spec defs' 42 0 (List.replicate 42 0) (by simp)).2 j
    have ha : initBoard defs = initBoardLoop defs 42 (0 : Nat) (List.replicate 42 0) := rfl
    have hb : initBoard defs' = initBoardLoop defs' 42 (0 : Nat) (List.replicate 42 0) := rfl
    rw [ha, hb, a, b]
    by_cases hr : 0 ≤ j ∧ j < 0 + 42
    · rw [if_pos hr, if_pos hr, h j (by omega) (by omega)]
    · rw [if_neg hr, if_neg hr]
  refine ⟨fun defs => ⟨initBoard_length defs, fun idx h0 h1 => ?_⟩, ?_, ?_, by decide⟩
  · rw [getIdx_eq_cellAt _ _ h0 (by rw [initBoard_length]; exact_mod_cast h1),
      initBoard_cellAt defs idx h0 h1]
    cases hk : defs.hasKey idx with
    | true => simp
    | false => simp [GoMap.get_of_not_hasKey defs idx hk, EMPTY]
  · intro defs defs' h
    exact cells defs defs' (fun idx h0 h1 => (h idx h0 h1).2)
  · intro defs k v hk
    apply cells
    intro idx h0 h1
    have hne : k ≠ idx := by omega
    induction defs with
    | nil => simp [GoMap.put, GoMap.get, hne]
    | cons e rest ih =>
      obtain ⟨k', v'⟩ := e
      unfold GoMap.put
      by_cases hk' : k' = k
      · rw [if_pos hk']
        have hne' : k' ≠ idx := by omega
        simp [GoMap.get, hne, hne']
      · rw [if_neg hk']
        by_cases hi : k' = idx
        · simp [GoMap.get, hi]
        · simp [GoMap.get, hi, ih]

/-- C7 on the map of TestInitBoard, at index 2. -/
theorem initBoard_spec_witness :
    getIdx (initBoard [(1, P1), (2, P2)]) 2 = Run.ok P2 :=
  (initBoard_spec.1 [(1, P1), (2, P2)]).2 2 (by decide) (by decide)

/-! ## move -/

theorem coordToIdx_eq (x y : Int) : coordToIdx x y = x + 7 * y := by
  unfold coordToIdx boardWidth; ring

theorem move_eq (board : Board) (c : Int) (piece : Piece) (h : 7 ≤ board.length)
    (h0 : 0 ≤ c) (h1 : c < 7) :
    move board c piece =
      if cellAt board c = EMPTY then moveLoop board c piece 6
      else Run.ok (board, some MoveError.invalidMove) := by
  obtain ⟨valid, hv, _, hc⟩ := validMoves_at board h c h0 h1
  have e : boardHeight.toNat = 6 := rfl
  unfold move
  rw [hv, Run.ok_bind, hc, Run.ok_bind, e]
  by_cases hz : cellAt board c = EMPTY <;> simp [hz]

theorem moveLoop_spec (board : Board) (c : Int) (piece : Piece) (hlen : board.length = 42)
    (h0 : 0 ≤ c) (h1 : c < 7) (n : Nat) (hn : n ≤ 6)
    (hex : ∃ r : Nat, r < n ∧ cellAt board (coordToIdx c r) = EMPTY) :
    ∃ r : Nat, r < n ∧ cellAt board (coordToIdx c r) = EMPTY ∧
      (∀ r' : Nat, r < r' → r' < n → cellAt board (coordToIdx c r') ≠ EMPTY) ∧
      moveLoop board c piece n =
        Run.ok (board.set (coordToIdx c r).toNat piece, none) := by
  induction n with
  | zero => obtain ⟨r, hr, _⟩ := hex; omega
  | succ n ih =>
    have hidx0 : 0 ≤ coordToIdx c (n : Int) := by rw [coordToIdx_eq]; omega
    have hidx1 : coordToIdx c (n : Int) < board.length := by rw [coordToIdx_eq, hlen]; omega
    by_cases hz : cellAt board (coordToIdx c n) = EMPTY
    · refine ⟨n, by omega, hz, fun r' a b => by omega, ?_⟩
      unfold moveLoop
      simp only [getIdx_eq_cellAt board _ hidx0 hidx1, Run.ok_bind, hz, if_true,
        setIdx_eq board _ piece hidx0 hidx1, Run.pure_def]
    · obtain ⟨r, hr, hre⟩ := hex
      have hrn : r ≠ n := fun e => hz (e ▸ hre)
      obtain ⟨r2, hr2, he2, hall, hm⟩ := ih (by omega) ⟨r, by omega, hre⟩
      refine ⟨r2, by omega, he2, ?_, ?_⟩
      · intro r' a b
        by_cases hrn' : r' = n
        · subst hrn'; exact hz
        · exact hall r' a (by omega)
      · unfold moveLoop
        simp only [getIdx_eq_cellAt board _ hidx0 hidx1, Run.ok_bind, hz, if_false]
        exact hm

/-- C1: on a 42-cell board and for a column c in [0, 7), move returns an
error exactly when validMoves(board)[c] is false, that is when the top cell
(c, 0) is not EMPTY; the board returned with an error is the input board;
and the error is never the one of the final 'invalid code path' return. -/
theorem move_error_iff (board : Board) (c : Int) (piece : Piece)
    (hlen : board.length = 42) (h0 : 0 ≤ c) (h1 : c < 7) :
    ∃ valid v res, validMoves board = Run.ok valid ∧ getIdx valid c = Run.ok v ∧
      move board c piece = Run.ok res ∧
      (res.2 ≠ none ↔ v = false) ∧
      (v = false ↔ getIdx board (coordToIdx c 0) ≠ Run.ok EMPTY) ∧
      (res.2 ≠ none → res.1 = board) ∧
      res.2 ≠ some MoveError.invalidCodePath := by
  obtain ⟨valid, hv, _, hc⟩ := validMoves_at board (by omega) c h0 h1
  have htop : getIdx board (coordToIdx c 0) = Run.ok (cellAt board c) := by
    have e : coordToIdx c 0 = c := by simp [coordToIdx]
    rw [e]; exact getIdx_eq_cellAt board c h0 (by omega)
  by_cases hz : cellAt board c = EMPTY
  · have hex : ∃ r : Nat, r < 6 ∧ cellAt board (coordToIdx c r) = EMPTY :=
      ⟨0, by omega, by simpa [coordToIdx] using hz⟩
    obtain ⟨r, _, _, _, hm⟩ := moveLoop_spec board c piece hlen h0 h1 6 (by omega) hex
    refine ⟨valid, _, (board.set (coordToIdx c r).toNat piece, none), hv, hc, ?_, ?_, ?_, ?_, ?_⟩
    · rw [move_eq board c piece (by omega) h0 h1, if_pos hz]; exact hm
    · simp [hz]
    · simp [hz, htop]
    · simp
    · simp
  · refine ⟨valid, _, (board, some MoveError.invalidMove), hv, hc, ?_, ?_, ?_, ?_, ?_⟩
    · rw [move_eq board c piece (by omega) h0 h1, if_neg hz]
    · simp [hz]
    · simp [hz, htop]
    · simp
    · simp

/-- C1 on the all-EMPTY board, column 0 and piece P1. -/
theorem move_error_iff_witness :
    ∃ valid v res, validMoves (List.replicate 42 EMPTY) = Run.ok valid ∧
      getIdx valid 0 = Run.ok v ∧
      move (List.replicate 42 EMPTY) 0 P1 = Run.ok res ∧
      (res.2 ≠ none ↔ v = false) ∧
      (v = false ↔ getIdx (List.replicate 42 EMPTY) (coordToIdx 0 0) ≠ Run.ok EMPTY) ∧
      (res.2 ≠ none → res.1 = List.replicate 42 EMPTY) ∧
      res.2 ≠ some MoveError.invalidCodePath :=
  move_error_iff (List.replicate 42 EMPTY) 0 P1 (by decide) (by decide) (by decide)

/-- C2: on a 42-cell board, for a column c in [0, 7) that validMoves reports
as legal, move succeeds and returns the input board with one cell
overwritten: with r the greatest row whose cell in column c is EMPTY, the
cell (c, r) holds the piece, every other cell is as before, the length is
still 42, and so every cell that was not EMPTY keeps its value. -/
theorem move_places_lowest (board : Board) (c : Int) (piece : Piece)
    (hlen : board.length = 42) (h0 : 0 ≤ c) (h1 : c < 7)
    (hvalid : ∃ valid, validMoves board = Run.ok valid ∧ getIdx valid c = Run.ok true) :
    ∃ (r : Int) (board' : Board), 0 ≤ r ∧ r < 6 ∧
      getIdx board (coordToIdx c r) = Run.ok EMPTY ∧
      (∀ r' : Int, r < r' → r' < 6 → getIdx board (coordToIdx c r') ≠ Run.ok EMPTY) ∧
      move board c piece = Run.ok (board', none) ∧
      board'.length = 42 ∧
      getIdx board' (coordToIdx c r) = Run.ok piece ∧
      (∀ i : Int, i ≠ coordToIdx c r → getIdx board' i = getIdx board i) ∧
      (∀ (i : Int) (cell : Piece), getIdx board i = Run.ok cell → cell ≠ EMPTY →
        getIdx board' i = Run.ok cell) := by
  obtain ⟨valid, hv, hc⟩ := hvalid
  obtain ⟨valid', hv', _, hc'⟩ := validMoves_at board (by omega) c h0 h1
  rw [hv] at hv'
  cases hv'
  rw [hc] at hc'
  have hz : cellAt board c = EMPTY := by
    have := Run.ok.inj hc'
    simpa using this.symm
  have hex : ∃ r : Nat, r < 6 ∧ cellAt board (coordToIdx c r) = EMPTY :=
    ⟨0, by omega, by simpa [coordToIdx] using hz⟩
  obtain ⟨r, hr, hre, hall, hm⟩ := moveLoop_spec board c piece hlen h0 h1 6 (by omega) hex
  have hi0 : 0 ≤ coordToIdx c (r : Int) := by rw [coordToIdx_eq]; omega
  have hi1 : coordToIdx c (r : Int) < board.length := by rw [coordToIdx_eq, hlen]; omega
  have hother : ∀ i : Int, i ≠ coordToIdx c r →
      getIdx (board.set (coordToIdx c r).toNat piece) i = getIdx board i := by
    intro i hi
    by_cases hin : 0 ≤ i ∧ i < 42
    · rw [getIdx_eq_cellAt _ _ hin.1 (by simp [hlen]; omega),
        getIdx_eq_cellAt _ _ hin.1 (by rw [hlen]; exact_mod_cast hin.2),
        cellAt_set board _ i piece hi0 hi1 hin.1, if_neg hi]
    · have a : ∀ (b : Board) (p : Piece), b.length = 42 → getIdx b i ≠ Run.ok p := by
        intro b p hb hp
        have := (getIdx_ok_iff b i p).1 hp
        omega
      cases hq : getIdx (board.set (coordToIdx c r).toNat piece) i with
      | ok p => exact absurd hq (a _ p (by simp [hlen]))
      | fault f =>
        cases hq2 : getIdx board i with
        | ok p => exact absurd hq2 (a _ p hlen)
        | fault g =>
          unfold getIdx at hq hq2
          by_cases hneg : i < 0
          · simp [hneg] at hq hq2; rw [← hq, ← hq2]
          · simp only [hneg, if_false] at hq hq2
            have n1 : board[i.toNat]? = none := List.getElem?_eq_none (by omega)
            have n2 : (board.set (coordToIdx c r).toNat piece)[i.toNat]? = none :=
              List.getElem?_eq_none (by simp; omega)
            simp only [n1] at hq2
            simp only [n2] at hq
            rw [← hq, ← hq2]
  refine ⟨r, board.set (coordToIdx c r).toNat piece, by omega, by omega, ?_, ?_, ?_, ?_, ?_,
    hother, ?_⟩
  · rw [getIdx_eq_cellAt board _ hi0 hi1, hre]
  · intro r' a b hcontra
    have hr0 : 0 ≤ r' := by omega
    have := (getIdx_ok_iff board _ EMPTY).1 hcontra
    have e : r' = ((r'.toNat : Nat) : Int) := by omega
    rw [e] at this
    exact hall r'.toNat (by omega) (by omega) this.2.2
  · rw [move_eq board c piece (by omega) h0 h1, if_pos hz]; exact hm
  · simp [hlen]
  · rw [getIdx_eq_cellAt _ _ hi0 (by simp; exact hi1), cellAt_set board _ _ piece hi0 hi1 hi0]
    simp
  · intro i cell hcell hne
    have hi : i ≠ coordToIdx c r := by
      intro e
      rw [e, getIdx_eq_cellAt board _ hi0 hi1, hre] at hcell
      exact hne (Run.ok.inj hcell).symm
    rw [hother i hi, hcell]

/-- C2 on the all-EMPTY board, column 0 and piece P1. -/
theorem move_places_lowest_witness :
    ∃ (r : Int) (board' : Board), 0 ≤ r ∧ r < 6 ∧
      getIdx (List.replicate 42 EMPTY) (coordToIdx 0 r) = Run.ok EMPTY ∧
      (∀ r' : Int, r < r' → r' < 6 →
        getIdx (List.replicate 42 EMPTY) (coordToIdx 0 r') ≠ Run.ok EMPTY) ∧
      move (List.replicate 42 EMPTY) 0 P1 = Run.ok (board', none) ∧
      board'.length = 42 ∧
      getIdx board' (coordToIdx 0 r) = Run.ok P1 ∧
      (∀ i : Int, i ≠ coordToIdx 0 r → getIdx board' i = getIdx (List.replicate 42 EMPTY) i) ∧
      (∀ (i : Int) (cell : Piece), getIdx (List.replicate 42 EMPTY) i = Run.ok cell →
        cell ≠ EMPTY → getIdx board' i = Run.ok cell) :=
  move_places_lowest (List.replicate 42 EMPTY) 0 P1 (by decide) (by decide) (by decide)
    ⟨[true, true, true, true, true, true, true], by decide, by decide⟩

/-! ## Formatting of pieces -/

theorem natDigits_ne_nil (fuel n : Nat) : natDigits (fuel + 1) n ≠ [] := by
  unfold natDigits
  by_cases h : n < 10 <;> simp [h]

theorem natDigits_length_one (n : Nat) (h : (natDigits (n + 1) n).length = 1) : n < 10 := by
  by_contra hn
  unfold natDigits at h
  simp only [hn, if_false, List.length_append, List.length_singleton] at h
  obtain ⟨m, rfl⟩ : ∃ m, n = m + 1 := ⟨n - 1, by omega⟩
  have := natDigits_ne_nil m ((m + 1) / 10)
  have : (natDigits (m + 1) ((m + 1) / 10)).length ≠ 0 := by
    simpa [List.length_eq_zero] using this
  omega

theorem itoa_ne_nil (z : Int) : itoa z ≠ [] := by
  unfold itoa
  by_cases h : z < 0
  · simp [h]
  · simp only [h, if_false]; exact natDigits_ne_nil _ _

theorem itoa_length_pos (z : Int) : 1 ≤ (itoa z).length := by
  have := itoa_ne_nil z
  cases h : itoa z with
  | nil => exact absurd h this
  | cons a l => simp

theorem itoa_eq_digit (z : Int) (d : Nat) (hd : d < 10) :
    itoa z = [digitChar d] ↔ z = d := by
  constructor
  · intro h
    have hlen : (itoa z).length = 1 := by rw [h]; rfl
    unfold itoa at h hlen
    by_cases hz : z < 0
    · simp only [hz, if_true, List.length_cons] at hlen
      have := natDigits_ne_nil z.natAbs z.natAbs
      have : (natDigits (z.natAbs + 1) z.natAbs).length ≠ 0 := by
        simpa [List.length_eq_zero] using this
      omega
    · simp only [hz, if_false] at h hlen
      have hlt := natDigits_length_one _ hlen
      unfold natDigits at h
      simp only [hlt, if_true, List.cons.injEq, and_true] at h
      have hz' : z = (z.natAbs : Int) := by omega
      have key : ∀ a b : Nat, a < 10 → b < 10 → digitChar a = digitChar b → a = b := by
        intro a b ha hb hab
        interval_cases a <;> interval_cases b <;>
          first | rfl | exact absurd hab (by decide)
      rw [hz', key _ _ hlt hd h]
  · intro h
    subst h
    have : ¬ ((d : Int) < 0) := by omega
    simp only [itoa, this, if_false, Int.natAbs_ofNat, natDigits, hd, if_true]

theorem four_singletons {α : Type} (a b c d : List α) (x : α)
    (ha : 1 ≤ a.length) (hb : 1 ≤ b.length) (hc : 1 ≤ c.length) (hd : 1 ≤ d.length)
    (h : a ++ b ++ c ++ d = [x, x, x, x]) : a = [x] ∧ b = [x] ∧ c = [x] ∧ d = [x] := by
  have hlen := congrArg List.length h
  simp only [List.length_append, List.length_cons, List.length_nil] at hlen
  have la : a.length = 1 := by omega
  have lb : b.length = 1 := by omega
  have lc : c.length = 1 := by omega
  have ld : d.length = 1 := by omega
  obtain ⟨a0, rfl⟩ := List.length_eq_one.1 la
  obtain ⟨b0, rfl⟩ := List.length_eq_one.1 lb
  obtain ⟨c0, rfl⟩ := List.length_eq_one.1 lc
  obtain ⟨d0, rfl⟩ := List.length_eq_one.1 ld
  simp at h
  obtain ⟨rfl, rfl, rfl, rfl⟩ := h
  simp

theorem sprintf4_eq_repeat (a b c d : Piece) (n : Nat) (hn : n < 10) :
    sprintf4 a b c d = strRepeat (itoa (n : Int)) 4 ↔ a = n ∧ b = n ∧ c = n ∧ d = n := by
  have hrep : strRepeat (itoa (n : Int)) 4 =
      [digitChar n, digitChar n, digitChar n, digitChar n] := by
    rw [(itoa_eq_digit n n hn).2 rfl]; rfl
  rw [hrep]
  constructor
  · intro h
    obtain ⟨h1, h2, h3, h4⟩ := four_singletons _ _ _ _ _ (itoa_length_pos a)
      (itoa_length_pos b) (itoa_length_pos c) (itoa_length_pos d) h
    exact ⟨(itoa_eq_digit a n hn).1 h1, (itoa_eq_digit b n hn).1 h2,
      (itoa_eq_digit c n hn).1 h3, (itoa_eq_digit d n hn).1 h4⟩
  · rintro ⟨rfl, rfl, rfl, rfl⟩
    simp [sprintf4, (itoa_eq_digit n n hn).2 rfl]

theorem sprintf4_eq_P1 (a b c d : Piece) :
    sprintf4 a b c d = strRepeat (itoa P1) 4 ↔ a = P1 ∧ b = P1 ∧ c = P1 ∧ d = P1 :=
  sprintf4_eq_repeat a b c d 1 (by decide)

theorem sprintf4_eq_P2 (a b c d : Piece) :
    sprintf4 a b c d = strRepeat (itoa P2) 4 ↔ a = P2 ∧ b = P2 ∧ c = P2 ∧ d = P2 :=
  sprintf4_eq_repeat a b c d 2 (by decide)

/-! ## collectFour and gameOver -/

theorem collectFourStep_eq (board : Board) (hlen : board.length = 42) (vals : List GoString)
    (idx : Int) (h0 : 0 ≤ idx) (h1 : idx < 42) :
    collectFourStep board vals idx = Run.ok (vals ++ stepGroups board idx) := by
  have hget : ∀ i : Int, 0 ≤ i → i < 42 → getIdx board i = Run.ok (cellAt board i) :=
    fun i a b => getIdx_eq_cellAt board i a (by rw [hlen]; exact_mod_cast b)
  have hx0 : 0 ≤ idx % 7 := by omega
  have hx1 : idx % 7 < 7 := by omega
  have hy0 : 0 ≤ idx / 7 := by omega
  have hy1 : idx / 7 < 6 := by omega
  have hxy : idx = idx % 7 + 7 * (idx / 7) := by omega
  simp only [collectFourStep, stepGroups, idxToCoord_nonneg idx h0, coordToIdx_eq, boardWidth,
    boardHeight]
  generalize idx % 7 = x at *
  generalize idx / 7 = y at *
  subst hxy
  by_cases hx : x + 3 < 7 <;> by_cases hy : y + 3 < 6 <;> by_cases hu : y - 3 ≥ 0
  all_goals simp only [hx, hy, hu, if_true, if_false, and_true, and_false, true_and, false_and,
    Run.pure_def, Run.ok_bind, List.append_nil, List.append_assoc]
  all_goals first
    | omega
    | simp (disch := omega) only [hget, Run.ok_bind, List.nil_append, List.append_nil]

theorem collectFourLoop_eq (board : Board) (hlen : board.length = 42) (left : Nat) :
    ∀ (idx : Nat) (vals : List GoString), idx + left ≤ 42 →
      collectFourLoop board left idx vals = Run.ok (vals ++ groupsFrom board left idx) := by
  induction left with
  | zero => intro idx vals _; simp [collectFourLoop, groupsFrom]
  | succ n ih =>
    intro idx vals h
    have hcast : ((idx : Int) + 1) = ((idx + 1 : Nat) : Int) := by push_cast; rfl
    unfold collectFourLoop groupsFrom
    rw [collectFourStep_eq board hlen vals idx (by omega) (by omega), Run.ok_bind, hcast,
      ih (idx + 1) _ (by omega), List.append_assoc]

theorem collectFour_eq (board : Board) (hlen : board.length = 42) :
    collectFour board = Run.ok (groupsFrom board 42 0) := by
  have h := collectFourLoop_eq board hlen 42 0 [] (by omega)
  simpa [collectFour, boardWidth, boardHeight] using h

theorem mem_groupsFrom (board : Board) (g : GoString) (left : Nat) :
    ∀ idx : Nat, g ∈ groupsFrom board left idx ↔
      ∃ i : Nat, idx ≤ i ∧ i < idx + left ∧ g ∈ stepGroups board i := by
  induction left with
  | zero => intro idx; simp [groupsFrom]; intro i h1 h2; omega
  | succ n ih =>
    intro idx
    have hcast : ((idx : Int) + 1) = ((idx + 1 : Nat) : Int) := by push_cast; rfl
    unfold groupsFrom
    rw [List.mem_append, hcast, ih (idx + 1)]
    constructor
    · rintro (h | ⟨i, h1, h2, h3⟩)
      · exact ⟨idx, le_refl _, by omega, h⟩
      · exact ⟨i, by omega, by omega, h3⟩
    · rintro ⟨i, h1, h2, h3⟩
      by_cases hi : i = idx
      · subst hi; exact Or.inl h3
      · exact Or.inr ⟨i, by omega, by omega, h3⟩

theorem gameOverLoop_empty_iff (s1 s2 : GoString) (groups : List GoString) :
    gameOverLoop s1 s2 groups = EMPTY ↔
      ∀ g ∈ groups, g ≠ strRepeat s1 4 ∧ g ≠ strRepeat s2 4 := by
  induction groups with
  | nil => simp [gameOverLoop]
  | cons g gs ih =>
    unfold gameOverLoop
    by_cases h1 : g = strRepeat s1 4
    · rw [if_pos h1]
      constructor
      · intro h; exact absurd h (by decide)
      · intro h; exact absurd h1 (h g (List.mem_cons_self _ _)).1
    · rw [if_neg h1]
      by_cases h2 : g = strRepeat s2 4
      · rw [if_pos h2]
        constructor
        · intro h; exact absurd h (by decide)
        · intro h; exact absurd h2 (h g (List.mem_cons_self _ _)).2
      · rw [if_neg h2]
        simp [h1, h2, ih]

theorem gameOverLoop_cases (s1 s2 : GoString) (groups : List GoString) :
    (gameOverLoop s1 s2 groups = EMPTY) ∨
    (gameOverLoop s1 s2 groups = P1 ∧ strRepeat s1 4 ∈ groups) ∨
    (gameOverLoop s1 s2 groups = P2 ∧ strRepeat s2 4 ∈ groups) := by
  induction groups with
  | nil => simp [gameOverLoop]
  | cons g gs ih =>
    unfold gameOverLoop
    by_cases h1 : g = strRepeat s1 4
    · rw [if_pos h1]
      exact Or.inr (Or.inl ⟨rfl, h1 ▸ List.mem_cons_self _ _⟩)
    · rw [if_neg h1]
      by_cases h2 : g = strRepeat s2 4
      · rw [if_pos h2]
        exact Or.inr (Or.inr ⟨rfl, h2 ▸ List.mem_cons_self _ _⟩)
      · rw [if_neg h2]
        rcases ih with h | ⟨h, hm⟩ | ⟨h, hm⟩
        · exact Or.inl h
        · exact Or.inr (Or.inl ⟨h, List.mem_cons_of_mem _ hm⟩)
        · exact Or.inr (Or.inr ⟨h, List.mem_cons_of_mem _ hm⟩)

theorem gameOver_eq (board : Board) (hlen : board.length = 42) :
    gameOver board = Run.ok (gameOverLoop (itoa P1) (itoa P2) (groupsFrom board 42 0)) := by
  unfold gameOver
  rw [collectFour_eq board hlen]
  rfl

theorem fourInLine_iff (board : Board) (hlen : board.length = 42) (p : Piece)
    (x y dx dy : Int) :
    fourInLine board p x y dx dy ↔
      (0 ≤ x ∧ x < 7 ∧ 0 ≤ y ∧ y < 6 ∧
        0 ≤ x + 3 * dx ∧ x + 3 * dx < 7 ∧ 0 ≤ y + 3 * dy ∧ y + 3 * dy < 6) ∧
      cellAt board (x + 7 * y) = p ∧
      cellAt board (x + dx + 7 * (y + dy)) = p ∧
      cellAt board (x + 2 * dx + 7 * (y + 2 * dy)) = p ∧
      cellAt board (x + 3 * dx + 7 * (y + 3 * dy)) = p := by
  unfold fourInLine
  simp only [List.mem_cons, List.mem_singleton, forall_eq_or_imp, forall_eq, List.not_mem_nil,
    false_imp_iff, implies_true, and_true, getIdx_ok_iff, coordToIdx_eq, hlen, zero_mul,
    one_mul, add_zero]
  constructor
  · rintro ⟨⟨a1, a2, a3, a4, _, _, a5⟩, ⟨_, _, _, _, _, _, b5⟩, ⟨_, _, _, _, _, _, c5⟩,
      ⟨d1, d2, d3, d4, _, _, d5⟩⟩
    exact ⟨⟨a1, a2, a3, a4, d1, d2, d3, d4⟩, a5, b5, c5, d5⟩
  · rintro ⟨⟨a1, a2, a3, a4, d1, d2, d3, d4⟩, a5, b5, c5, d5⟩
    refine ⟨⟨a1, a2, a3, a4, ?_, ?_, a5⟩, ⟨?_, ?_, ?_, ?_, ?_, ?_, b5⟩,
      ⟨?_, ?_, ?_, ?_, ?_, ?_, c5⟩, ⟨d1, d2, d3, d4, ?_, ?_, d5⟩⟩ <;>
    omega

theorem repeat_mem_stepGroups_iff (board : Board) (n : Nat) (hn : n < 10) (x y : Int)
    (hx0 : 0 ≤ x) (hx1 : x < 7) (hy0 : 0 ≤ y) (hy1 : y < 6) :
    strRepeat (itoa (n : Int)) 4 ∈ stepGroups board (x + 7 * y) ↔
      (x + 3 < 7 ∧ cellAt board (x + 7 * y) = n ∧ cellAt board (x + 7 * y + 1) = n ∧
        cellAt board (x + 7 * y + 2) = n ∧ cellAt board (x + 7 * y + 3) = n) ∨
      (y + 3 < 6 ∧ cellAt board (x + 7 * y) = n ∧ cellAt board (x + 7 * (y + 1)) = n ∧
        cellAt board (x + 7 * (y + 2)) = n ∧ cellAt board (x + 7 * (y + 3)) = n) ∨
      ((x + 3 < 7 ∧ y + 3 < 6) ∧ cellAt board (x + 7 * y) = n ∧
        cellAt board (x + 1 + 7 * (y + 1)) = n ∧ cellAt board (x + 2 + 7 * (y + 2)) = n ∧
        cellAt board (x + 3 + 7 * (y + 3)) = n) ∨
      ((x + 3 < 7 ∧ y - 3 ≥ 0) ∧ cellAt board (x + 7 * y) = n ∧
        cellAt board (x + 1 + 7 * (y - 1)) = n ∧ cellAt board (x + 2 + 7 * (y - 2)) = n ∧
        cellAt board (x + 3 + 7 * (y - 3)) = n) := by
  have e1 : (x + 7 * y) % 7 = x := by omega
  have e2 : (x + 7 * y) / 7 = y := by omega
  have sw : ∀ a b c d : Piece, strRepeat (itoa (n : Int)) 4 = sprintf4 a b c d ↔
      a = n ∧ b = n ∧ c = n ∧ d = n := by
    intro a b c d
    rw [eq_comm]; exact sprintf4_eq_repeat a b c d n hn
  simp only [stepGroups, idxToCoord_nonneg _ (show (0 : Int) ≤ x + 7 * y by omega), e1, e2,
    coordToIdx_eq, boardWidth, boardHeight, List.mem_append, List.mem_ite_nil_right,
    List.mem_singleton, sw, or_assoc]

theorem repeat_mem_groups_iff (board : Board) (n : Nat) :
    strRepeat (itoa (n : Int)) 4 ∈ groupsFrom board 42 0 ↔
      ∃ x y : Int, 0 ≤ x ∧ x < 7 ∧ 0 ≤ y ∧ y < 6 ∧
        strRepeat (itoa (n : Int)) 4 ∈ stepGroups board (x + 7 * y) := by
  have h := mem_groupsFrom board (strRepeat (itoa (n : Int)) 4) 42 0
  simp only [Nat.cast_zero] at h
  rw [h]
  constructor
  · rintro ⟨i, _, hi, hm⟩
    refine ⟨(i : Int) % 7, (i : Int) / 7, by omega, by omega, by omega, by omega, ?_⟩
    have e : (i : Int) % 7 + 7 * ((i : Int) / 7) = i := by omega
    rw [e]; exact hm
  · rintro ⟨x, y, hx0, hx1, hy0, hy1, hm⟩
    refine ⟨(x + 7 * y).toNat, by omega, by omega, ?_⟩
    have e : (((x + 7 * y).toNat : Nat) : Int) = x + 7 * y := by omega
    rw [e]; exact hm

theorem hasLine_iff_group (board : Board) (hlen : board.length = 42) (n : Nat) (hn : n < 10) :
    hasLine board (n : Int) ↔ strRepeat (itoa (n : Int)) 4 ∈ groupsFrom board 42 0 := by
  rw [repeat_mem_groups_iff]
  constructor
  · rintro ⟨x, y, dx, dy, hd, hl⟩
    rw [fourInLine_iff board hlen] at hl
    obtain ⟨⟨a1, a2, a3, a4, d1, d2, d3, d4⟩, c0, c1, c2, c3⟩ := hl
    simp only [compass8, List.mem_cons, List.mem_singleton, Prod.mk.injEq, List.not_mem_nil,
      or_false] at hd
    rcases hd with ⟨rfl, rfl⟩ | ⟨rfl, rfl⟩ | ⟨rfl, rfl⟩ | ⟨rfl, rfl⟩ | ⟨rfl, rfl⟩ | ⟨rfl, rfl⟩ |
      ⟨rfl, rfl⟩ | ⟨rfl, rfl⟩
    -- left
    · refine ⟨x - 3, y, by omega, by omega, a3, a4, ?_⟩
      rw [repeat_mem_stepGroups_iff board n hn _ _ (by omega) (by omega) a3 a4]
      refine Or.inl ⟨by omega, ?_, ?_, ?_, ?_⟩
      · convert c3 using 2; omega
      · convert c2 using 2; omega
      · convert c1 using 2; omega
      · convert c0 using 2; omega
    -- right
    · refine ⟨x, y, a1, a2, a3, a4, ?_⟩
      rw [repeat_mem_stepGroups_iff board n hn _ _ a1 a2 a3 a4]
      refine Or.inl ⟨by omega, ?_, ?_, ?_, ?_⟩
      · convert c0 using 2
      · convert c1 using 2; omega
      · convert c2 using 2; omega
      · convert c3 using 2; omega
    -- up
    · refine ⟨x, y - 3, a1, a2, by omega, by omega, ?_⟩
      rw [repeat_mem_stepGroups_iff board n hn _ _ a1 a2 (by omega) (by omega)]
      refine Or.inr (Or.inl ⟨by omega, ?_, ?_, ?_, ?_⟩)
      · convert c3 using 2; omega
      · convert c2 using 2; omega
      · convert c1 using 2; omega
      · convert c0 using 2; omega
    -- down
    · refine ⟨x, y, a1, a2, a3, a4, ?_⟩
      rw [repeat_mem_stepGroups_iff board n hn _ _ a1 a2 a3 a4]
      refine Or.inr (Or.inl ⟨by omega, ?_, ?_, ?_, ?_⟩)
      · convert c0 using 2
      · convert c1 using 2; omega
      · convert c2 using 2; omega
      · convert c3 using 2; omega
    -- up and left
    · refine ⟨x - 3, y - 3, by omega, by omega, by omega, by omega, ?_⟩
      rw [repeat_mem_stepGroups_iff board n hn _ _ (by omega) (by omega) (by omega) (by omega)]
      refine Or.inr (Or.inr (Or.inl ⟨⟨by omega, by omega⟩, ?_, ?_, ?_, ?_⟩))
      · convert c3 using 2
      · convert c2 using 2; omega
      · convert c1 using 2; omega
      · convert c0 using 2; omega
    -- up and right
    · refine ⟨x, y, a1, a2, a3, a4, ?_⟩
      rw [repeat_mem_stepGroups_iff board n hn _ _ a1 a2 a3 a4]
      refine Or.inr (Or.inr (Or.inr ⟨⟨by omega, by omega⟩, ?_, ?_, ?_, ?_⟩))
      · convert c0 using 2
      · convert c1 using 2
      · convert c2 using 2
      · convert c3 using 2
    -- down and left
    · refine ⟨x - 3, y + 3, by omega, by omega, by omega, by omega, ?_⟩
      rw [repeat_mem_stepGroups_iff board n hn _ _ (by omega) (by omega) (by omega) (by omega)]
      refine Or.inr (Or.inr (Or.inr ⟨⟨by omega, by omega⟩, ?_, ?_, ?_, ?_⟩))
      · convert c3 using 2
      · convert c2 using 2; omega
      · convert c1 using 2; omega
      · convert c0 using 2; omega
    -- down and right
    · refine ⟨x, y, a1, a2, a3, a4, ?_⟩
      rw [repeat_mem_stepGroups_iff board n hn _ _ a1 a2 a3 a4]
      refine Or.inr (Or.inr (Or.inl ⟨⟨by omega, by omega⟩, ?_, ?_, ?_, ?_⟩))
      · convert c0 using 2
      · convert c1 using 2
      · convert c2 using 2
      · convert c3 using 2
  · rintro ⟨x, y, hx0, hx1, hy0, hy1, hm⟩
    rw [repeat_mem_stepGroups_iff board n hn _ _ hx0 hx1 hy0 hy1] at hm
    rcases hm with ⟨g, c0, c1, c2, c3⟩ | ⟨g, c0, c1, c2, c3⟩ | ⟨⟨g, g'⟩, c0, c1, c2, c3⟩ |
      ⟨⟨g, g'⟩, c0, c1, c2, c3⟩
    · refine ⟨x, y, 1, 0, by simp [compass8], ?_⟩
      rw [fourInLine_iff board hlen]
      refine ⟨⟨hx0, hx1, hy0, hy1, by omega, by omega, by omega, by omega⟩, ?_, ?_, ?_, ?_⟩
      · convert c0 using 2
      · convert c1 using 2; omega
      · convert c2 using 2; omega
      · convert c3 using 2; omega
    · refine ⟨x, y, 0, 1, by simp [compass8], ?_⟩
      rw [fourInLine_iff board hlen]
      refine ⟨⟨hx0, hx1, hy0, hy1, by omega, by omega, by omega, by omega⟩, ?_, ?_, ?_, ?_⟩
      · convert c0 using 2
      · convert c1 using 2; omega
      · convert c2 using 2; omega
      · convert c3 using 2; omega
    · refine ⟨x, y, 1, 1, by simp [compass8], ?_⟩
      rw [fourInLine_iff board hlen]
      refine ⟨⟨hx0, hx1, hy0, hy1, by omega, by omega, by omega, by omega⟩, ?_, ?_, ?_, ?_⟩
      · convert c0 using 2
      · convert c1 using 2
      · convert c2 using 2
      · convert c3 using 2
    · refine ⟨x, y, 1, -1, by simp [compass8], ?_⟩
      rw [fourInLine_iff board hlen]
      refine ⟨⟨hx0, hx1, hy0, hy1, by omega, by omega, by omega, by omega⟩, ?_, ?_, ?_, ?_⟩
      · convert c0 using 2
      · convert c1 using 2
      · convert c2 using 2
      · convert c3 using 2

theorem gameOver_cases (board : Board) (hlen : board.length = 42) :
    (gameOver board = Run.ok EMPTY ∧ ¬ hasLine board P1 ∧ ¬ hasLine board P2) ∨
    (gameOver board = Run.ok P1 ∧ hasLine board P1) ∨
    (gameOver board = Run.ok P2 ∧ hasLine board P2) := by
  have l1 := hasLine_iff_group board hlen 1 (by decide)
  have l2 := hasLine_iff_group board hlen 2 (by decide)
  rw [gameOver_eq board hlen]
  rcases gameOverLoop_cases (itoa P1) (itoa P2) (groupsFrom board 42 0) with h | ⟨h, hm⟩ | ⟨h, hm⟩
  · left
    have hall := (gameOverLoop_empty_iff _ _ _).1 h
    refine ⟨by rw [h], ?_, ?_⟩
    · intro hl
      exact (hall _ (l1.1 hl)).1 rfl
    · intro hl
      exact (hall _ (l2.1 hl)).2 rfl
  · right; left
    exact ⟨by rw [h], l1.2 hm⟩
  · right; right
    exact ⟨by rw [h], l2.2 hm⟩

/-- C3: on a 42-cell board gameOver returns a piece, and it returns EMPTY
exactly when there is no player p among P1 and P2, no cell (x, y) and no
direction among the eight compass directions such that the four cells from
(x, y) on in that direction lie inside the 7x6 grid and all equal p; on the
all-EMPTY board it returns EMPTY. -/
theorem gameOver_empty_iff (board : Board) (hlen : board.length = 42) :
    (∃ p, gameOver board = Run.ok p) ∧
    (gameOver board = Run.ok EMPTY ↔
      ¬ ∃ p : Piece, (p = P1 ∨ p = P2) ∧
        ∃ x y dx dy : Int, (dx, dy) ∈ compass8 ∧ fourInLine board p x y dx dy) ∧
    (board = List.replicate 42 EMPTY → gameOver board = Run.ok EMPTY) := by
  have hc := gameOver_cases board hlen
  refine ⟨?_, ?_, ?_⟩
  · rcases hc with ⟨h, _⟩ | ⟨h, _⟩ | ⟨h, _⟩ <;> exact ⟨_, h⟩
  · constructor
    · intro h0
      rintro ⟨p, hp, hl⟩
      rcases hc with ⟨_, n1, n2⟩ | ⟨h, _⟩ | ⟨h, _⟩
      · rcases hp with rfl | rfl
        · exact n1 hl
        · exact n2 hl
      · rw [h0] at h; exact absurd (Run.ok.inj h) (by decide)
      · rw [h0] at h; exact absurd (Run.ok.inj h) (by decide)
    · intro hno
      rcases hc with ⟨h, _⟩ | ⟨_, hl⟩ | ⟨_, hl⟩
      · exact h
      · exact absurd ⟨P1, Or.inl rfl, hl⟩ hno
      · exact absurd ⟨P2, Or.inr rfl, hl⟩ hno
  · rintro rfl
    decide

/-- C3 on the all-EMPTY board. -/
theorem gameOver_empty_iff_witness :
    gameOver (List.replicate 42 EMPTY) = Run.ok EMPTY :=
  (gameOver_empty_iff (List.replicate 42 EMPTY) (by decide)).2.2 rfl

/-- C4: on a 42-cell board with arbitrary integer cells, a piece other than
EMPTY that gameOver returns is P1 or P2 and has four in a line (horizontal,
vertical or diagonal, inside the grid); and when one of the two players has
such a line and the other has none, gameOver returns that player. -/
theorem gameOver_winner (board : Board) (hlen : board.length = 42) :
    (∀ p : Piece, gameOver board = Run.ok p → p ≠ EMPTY →
      (p = P1 ∨ p = P2) ∧
      ∃ x y dx dy : Int, (dx, dy) ∈ compass8 ∧ fourInLine board p x y dx dy) ∧
    (∀ p q : Piece, (p = P1 ∧ q = P2) ∨ (p = P2 ∧ q = P1) →
      hasLine board p → ¬ hasLine board q → gameOver board = Run.ok p) := by
  have hc := gameOver_cases board hlen
  constructor
  · intro p hp hne
    rcases hc with ⟨h, _⟩ | ⟨h, hl⟩ | ⟨h, hl⟩
    · rw [h] at hp; exact absurd (Run.ok.inj hp).symm hne
    · rw [h] at hp; cases hp; exact ⟨Or.inl rfl, hl⟩
    · rw [h] at hp; cases hp; exact ⟨Or.inr rfl, hl⟩
  · intro p q hpq hp hq
    rcases hpq with ⟨rfl, rfl⟩ | ⟨rfl, rfl⟩
    · rcases hc with ⟨_, n1, _⟩ | ⟨h, _⟩ | ⟨_, hl⟩
      · exact absurd hp n1
      · exact h
      · exact absurd hl hq
    · rcases hc with ⟨_, _, n2⟩ | ⟨_, hl⟩ | ⟨h, _⟩
      · exact absurd hp n2
      · exact absurd hl hq
      · exact h

/-- C4 on the board of TestGameOver after four moves of P1 into column 0. -/
theorem gameOver_winner_witness :
    (P1 = P1 ∨ P1 = P2) ∧
    ∃ x y dx dy : Int, (dx, dy) ∈ compass8 ∧
      fourInLine (initBoard [(14, P1), (21, P1), (28, P1), (35, P1)]) P1 x y dx dy :=
  (gameOver_winner (initBoard [(14, P1), (21, P1), (28, P1), (35, P1)]) (by decide)).1 P1
    (by decide) (by decide)

/-! ## Legal columns and the number of EMPTY cells -/

theorem validMoves_topRow (board : Board) (h : 7 ≤ board.length) :
    validMoves board = Run.ok (topRow board) :=
  validMoves_eq board h

theorem mem_filterValidLoop (moves : List Bool) :
    ∀ (i : Int) (ret : List Int) (x : Int),
      x ∈ filterValidLoop moves i ret ↔
        x ∈ ret ∨ ∃ k : Nat, k < moves.length ∧ x = i + k ∧ moves[k]? = some true := by
  induction moves with
  | nil => intro i ret x; simp [filterValidLoop]
  | cons v vs ih =>
    intro i ret x
    unfold filterValidLoop
    rw [ih]
    constructor
    · rintro (h | ⟨k, hk, hx, hv⟩)
      · cases v with
        | true =>
          simp only [if_true, List.mem_append, List.mem_singleton] at h
          rcases h with h | h
          · exact Or.inl h
          · exact Or.inr ⟨0, by simp, by simp [h], by simp⟩
        | false => exact Or.inl (by simpa using h)
      · exact Or.inr ⟨k + 1, by simp; omega, by push_cast; omega, by simpa using hv⟩
    · rintro (h | ⟨k, hk, hx, hv⟩)
      · left
        cases v <;> simp [h]
      · cases k with
        | zero =>
          left
          simp only [List.getElem?_cons_zero, Option.some.injEq] at hv
          subst hv
          simp [hx]
        | succ k =>
          right
          exact ⟨k, by simpa using hk, by push_cast at hx; omega, by simpa using hv⟩

theorem mem_filterValid_topRow (board : Board) (c : Int) :
    c ∈ filterValid (topRow board) ↔ 0 ≤ c ∧ c < 7 ∧ cellAt board c = EMPTY := by
  unfold filterValid
  rw [mem_filterValidLoop]
  simp only [List.not_mem_nil, false_or, zero_add]
  constructor
  · rintro ⟨k, hk, rfl, hv⟩
    have hk7 : k < 7 := by simpa [topRow] using hk
    refine ⟨by omega, by omega, ?_⟩
    interval_cases k <;> simpa [topRow] using hv
  · rintro ⟨h0, h1, hc⟩
    refine ⟨c.toNat, by simp [topRow]; omega, by omega, ?_⟩
    interval_cases c <;> simpa [topRow] using hc

theorem emptyCount_set (board : Board) (i : Int) (v : Piece) (h0 : 0 ≤ i)
    (h1 : i < board.length) (hc : cellAt board i = EMPTY) :
    emptyCount (board.set i.toNat v) + (if v = EMPTY then 0 else 1) = emptyCount board := by
  have hlt : i.toNat < board.length := by omega
  have hcell : board[i.toNat] = EMPTY := by
    simpa [cellAt, List.getD_eq_getElem?_getD, List.getElem?_eq_getElem hlt] using hc
  have hmem : EMPTY ∈ board := hcell ▸ List.getElem_mem hlt
  have hpos : 0 < board.count EMPTY := List.count_pos_iff.2 hmem
  unfold emptyCount
  rw [List.count_set _ _ _ _ hlt]
  by_cases hv : v = EMPTY
  · simp [hv, hcell]; omega
  · simp [hv, hcell]; omega

theorem emptyCount_pos (board : Board) (i : Int) (h0 : 0 ≤ i) (h1 : i < board.length)
    (hc : cellAt board i = EMPTY) : 0 < emptyCount board := by
  have hlt : i.toNat < board.length := by omega
  have hcell : board[i.toNat] = EMPTY := by
    simpa [cellAt, List.getD_eq_getElem?_getD, List.getElem?_eq_getElem hlt] using hc
  exact List.count_pos_iff.2 (hcell ▸ List.getElem_mem hlt)

theorem emptyCount_le (board : Board) : emptyCount board ≤ board.length :=
  List.count_le_length _ _

theorem getIdx_mem {α : Type} (l : List α) (i : Int) (h0 : 0 ≤ i) (h1 : i < l.length) :
    ∃ a, getIdx l i = Run.ok a ∧ a ∈ l := by
  have hlt : i.toNat < l.length := by omega
  have hneg : ¬ i < 0 := by omega
  refine ⟨l[i.toNat], ?_, List.getElem_mem hlt⟩
  simp [getIdx, hneg, List.getElem?_eq_getElem hlt]

/-! ## One trial of getBestNextMove -/

theorem move_legal (board : Board) (c : Int) (piece : Piece) (hlen : board.length = 42)
    (hc : c ∈ filterValid (topRow board)) :
    ∃ r : Nat, r < 6 ∧ cellAt board (coordToIdx c r) = EMPTY ∧
      0 ≤ coordToIdx c r ∧ coordToIdx c r < 42 ∧
      move board c piece = Run.ok (board.set (coordToIdx c r).toNat piece, none) := by
  obtain ⟨h0, h1, hz⟩ := (mem_filterValid_topRow board c).1 hc
  have hex : ∃ r : Nat, r < 6 ∧ cellAt board (coordToIdx c r) = EMPTY :=
    ⟨0, by omega, by simpa [coordToIdx] using hz⟩
  obtain ⟨r, hr, hre, _, hm⟩ := moveLoop_spec board c piece hlen h0 h1 6 (by omega) hex
  refine ⟨r, hr, hre, by rw [coordToIdx_eq]; omega, by rw [coordToIdx_eq]; omega, ?_⟩
  rw [move_eq board c piece (by omega) h0 h1, if_pos hz]; exact hm

theorem simLoop_step (s : Sim) (hinv : SimInv s) (hne : s.nextMoves ≠ []) :
    ∃ (c : Int) (board' : Board) (piece : Piece) (rng' : Rng),
      c ∈ s.nextMoves ∧
      move s.boardCopy c s.player = Run.ok (board', none) ∧
      board'.length = 42 ∧
      emptyCount board' + (if s.player = EMPTY then 0 else 1) = emptyCount s.boardCopy ∧
      0 < emptyCount s.boardCopy ∧
      gameOver board' = Run.ok piece ∧ (piece = EMPTY ∨ piece = P1 ∨ piece = P2) ∧
      ∀ fuel : Nat, simLoop (fuel + 1) s =
        if piece ≠ EMPTY then
          Run.ok { s with boardCopy := board',
                          score := if piece = P1 then s.score * -1 else s.score,
                          firstMove := if s.firstMove = -1 then c else s.firstMove,
                          moveCnt := s.moveCnt + 1, winner := piece, rng := rng' }
        else
          simLoop fuel { s with boardCopy := board', player := nextTurn s.player,
                                score := s.score - 1,
                                nextMoves := filterValid (topRow board'),
                                firstMove := if s.firstMove = -1 then c else s.firstMove,
                                moveCnt := s.moveCnt + 1, rng := rng' } := by
  obtain ⟨hlen, hnext⟩ := hinv
  have hpos : (0 : Int) < (s.nextMoves.length : Int) := by
    have : s.nextMoves.length ≠ 0 := fun h => hne (List.length_eq_zero.1 h)
    omega
  have hr0 : 0 ≤ (s.rng.seq s.rng.pos : Int) % (s.nextMoves.length : Int) :=
    Int.emod_nonneg _ (by omega)
  have hr1 : (s.rng.seq s.rng.pos : Int) % (s.nextMoves.length : Int) < s.nextMoves.length :=
    Int.emod_lt_of_pos _ hpos
  obtain ⟨c, hget, hmem⟩ := getIdx_mem s.nextMoves _ hr0 hr1
  have hc : c ∈ filterValid (topRow s.boardCopy) := hnext ▸ hmem
  obtain ⟨r, _, hre, hi0, hi1, hmove⟩ := move_legal s.boardCopy c s.player hlen hc
  have hlen' : (s.boardCopy.set (coordToIdx c r).toNat s.player).length = 42 := by simp [hlen]
  have hcount := emptyCount_set s.boardCopy _ s.player hi0 (by rw [hlen]; exact_mod_cast hi1) hre
  have hposc := emptyCount_pos s.boardCopy _ hi0 (by rw [hlen]; exact_mod_cast hi1) hre
  have hgo : ∃ piece, gameOver (s.boardCopy.set (coordToIdx c r).toNat s.player) = Run.ok piece ∧
      (piece = EMPTY ∨ piece = P1 ∨ piece = P2) := by
    rcases gameOver_cases _ hlen' with ⟨h, _⟩ | ⟨h, _⟩ | ⟨h, _⟩
    · exact ⟨_, h, Or.inl rfl⟩
    · exact ⟨_, h, Or.inr (Or.inl rfl)⟩
    · exact ⟨_, h, Or.inr (Or.inr rfl)⟩
  obtain ⟨piece, hpiece, hcases⟩ := hgo
  refine ⟨c, _, piece, { s.rng with pos := s.rng.pos + 1 }, hmem, hmove, hlen', ?_, hposc, hpiece,
    hcases, ?_⟩
  · by_cases hp : s.player = EMPTY
    · simp [hp] at hcount ⊢; omega
    · simp [hp] at hcount ⊢; omega
  · intro fuel
    have hnp : ¬ ((s.nextMoves.length : Int) ≤ 0) := by omega
    conv_lhs => unfold simLoop
    simp only [gt_iff_lt, hpos, if_true, Rng.intn, hnp, if_false, Run.ok_bind, hget, hmove,
      hpiece, validMoves_topRow _ (by rw [hlen']; omega : 7 ≤ _), Run.pure_def, ne_eq,
      not_true_eq_false]

theorem simLoop_spec (d : Int) (hd0 : 0 ≤ d) (hd1 : d ≤ 1) :
    ∀ (fuel : Nat) (s : Sim), SimInv s → simMeasure s ≤ fuel →
      (simMeasure s : Int) ≤ s.score + d → s.score ≤ 42 →
      ∃ s', simLoop fuel s = Run.ok s' ∧ -42 ≤ s'.score ∧ s'.score ≤ 42 ∧
        s'.errors = s.errors ∧
        (s.firstMove ≠ -1 → s'.firstMove = s.firstMove) ∧
        (s.firstMove = -1 → s.nextMoves = [] → s'.firstMove = -1) ∧
        (s.firstMove = -1 → s.nextMoves ≠ [] → s'.firstMove ∈ s.nextMoves) := by
  intro fuel
  induction fuel with
  | zero =>
    intro s hinv hfuel hscore h42
    have hempty : s.nextMoves = [] := by
      by_contra hne
      obtain ⟨_, _, _, _, _, _, _, hpos, _⟩ := simLoop_step s hinv hne
      unfold simMeasure at hfuel
      omega
    refine ⟨s, by simp [simLoop, hempty], by omega, h42, rfl, fun _ => rfl, fun h _ => h,
      fun _ h => absurd hempty h⟩
  | succ n ih =>
    intro s hinv hfuel hscore h42
    by_cases hne : s.nextMoves = []
    · refine ⟨s, by simp [simLoop, hne], by omega, h42, rfl, fun _ => rfl, fun h _ => h,
        fun _ h => absurd hne h⟩
    · obtain ⟨c, board', piece, rng', hmem, _, hlen', hcount, hpos, _, hcases, hstep⟩ :=
        simLoop_step s hinv hne
      have hc0 : c ≠ -1 := by
        have := (mem_filterValid_topRow s.boardCopy c).1 (hinv.2 ▸ hmem)
        omega
      have hmeas : (simMeasure s : Int) =
          emptyCount board' + 1 := by
        unfold simMeasure
        by_cases hp : s.player = EMPTY
        · simp [hp] at hcount ⊢; omega
        · simp [hp] at hcount ⊢; omega
      rw [hstep n]
      by_cases hpe : piece = EMPTY
      · rw [if_neg (not_not.2 hpe)]
        have hnt : nextTurn s.player ≠ EMPTY := by
          unfold nextTurn; split <;> decide
        obtain ⟨s', hrun, hlo, hhi, herr, hf1, _, _⟩ := ih
          { s with boardCopy := board', player := nextTurn s.player, score := s.score - 1,
                   nextMoves := filterValid (topRow board'),
                   firstMove := if s.firstMove = -1 then c else s.firstMove,
                   moveCnt := s.moveCnt + 1, rng := rng' }
          ⟨hlen', rfl⟩
          (by simp only [simMeasure, hnt, if_false]; omega)
          (by simp only [simMeasure, hnt, if_false]; push_cast; omega)
          (by simp only; omega)
        have hfm : (if s.firstMove = -1 then c else s.firstMove) ≠ -1 := by
          by_cases h : s.firstMove = -1 <;> simp [h, hc0]
        have hfinal := hf1 hfm
        refine ⟨s', hrun, hlo, hhi, herr, ?_, ?_, ?_⟩
        · intro h; rw [hfinal]; simp [h]
        · intro _ h; exact absurd h hne
        · intro h _; rw [hfinal]; simpa [h] using hmem
      · rw [if_pos hpe]
        refine ⟨_, rfl, ?_, ?_, rfl, ?_, ?_, ?_⟩
        · show -42 ≤ (if piece = P1 then s.score * -1 else s.score)
          split <;> omega
        · show (if piece = P1 then s.score * -1 else s.score) ≤ 42
          split <;> omega
        · intro h; simp [h]
        · intro _ h; exact absurd h hne
        · intro h _; simpa [h] using hmem

theorem trial_spec (board : Board) (currPlayer : Piece) (rng : Rng)
    (hlen : board.length = 42) :
    ∃ s, trial board currPlayer rng = Run.ok s ∧ -42 ≤ s.score ∧ s.score ≤ 42 ∧
      s.errors = 0 ∧
      (filterValid (topRow board) = [] → s.firstMove = -1) ∧
      (filterValid (topRow board) ≠ [] → s.firstMove ∈ filterValid (topRow board)) := by
  have hle := emptyCount_le board
  obtain ⟨s, hrun, hlo, hhi, herr, _, hf2, hf3⟩ := simLoop_spec 1 (by omega) (by omega) 43
    { boardCopy := board, player := currPlayer, score := 42,
      nextMoves := filterValid (topRow board), firstMove := -1, moveCnt := 1,
      winner := EMPTY, errors := 0, rng := rng }
    ⟨hlen, rfl⟩
    (by simp only [simMeasure]; split <;> omega)
    (by simp only [simMeasure]; split <;> push_cast <;> omega)
    (by simp)
  refine ⟨s, ?_, hlo, hhi, herr, hf2 rfl, hf3 rfl⟩
  have e : (boardWidth * boardHeight).toNat + 1 = 43 := rfl
  have e2 : boardWidth * boardHeight = 42 := rfl
  simp only [trial, validMoves_topRow board (by omega : 7 ≤ board.length), Run.ok_bind, e, e2]
  exact hrun

/-! ## Maps and the log of trials -/

theorem GoMap.get_put (m : GoMap) (k v k' : Int) :
    (m.put k v).get k' = if k' = k then v else m.get k' := by
  induction m with
  | nil =>
    by_cases h : k' = k
    · subst h; simp [GoMap.put, GoMap.get]
    · have h' : ¬ k = k' := fun e => h e.symm
      simp [GoMap.put, GoMap.get, h, h']
  | cons e rest ih =>
    obtain ⟨k0, v0⟩ := e
    unfold GoMap.put
    by_cases h0 : k0 = k
    · rw [if_pos h0]
      subst h0
      by_cases h : k' = k0
      · subst h; simp [GoMap.get]
      · have h' : ¬ k0 = k' := fun e => h e.symm
        simp [GoMap.get, h, h']
    · rw [if_neg h0]
      by_cases h1 : k0 = k'
      · subst h1
        simp [GoMap.get, h0]
      · simp [GoMap.get, h1, ih]

theorem GoMap.hasKey_put (m : GoMap) (k v k' : Int) :
    (m.put k v).hasKey k' = true ↔ k' = k ∨ m.hasKey k' = true := by
  induction m with
  | nil =>
    by_cases h : k = k'
    · simp [GoMap.put, GoMap.hasKey, h]
    · have h' : ¬ k' = k := fun e => h e.symm
      simp [GoMap.put, GoMap.hasKey, h, h']
  | cons e rest ih =>
    obtain ⟨k0, v0⟩ := e
    unfold GoMap.put
    by_cases h0 : k0 = k
    · rw [if_pos h0]
      subst h0
      by_cases h : k0 = k'
      · simp [GoMap.hasKey, h]
      · have h' : ¬ k' = k0 := fun e => h e.symm
        simp [GoMap.hasKey, h, h']
    · rw [if_neg h0]
      by_cases h1 : k0 = k'
      · simp [GoMap.hasKey, h1]
      · simp [GoMap.hasKey, h1, ih]

theorem GoMap.hasKey_iff_mem_keys (m : GoMap) (k : Int) :
    m.hasKey k = true ↔ k ∈ m.map Prod.fst := by
  induction m with
  | nil => simp [GoMap.hasKey]
  | cons e rest ih =>
    obtain ⟨k0, v0⟩ := e
    by_cases h : k0 = k
    · simp [GoMap.hasKey, h]
    · have h' : ¬ k = k0 := fun e => h e.symm
      simp [GoMap.hasKey, h, h', ih]

theorem GoMap.keys_put (m : GoMap) (k v : Int) (hnd : (m.map Prod.fst).Nodup) :
    ((m.put k v).map Prod.fst).Nodup := by
  induction m with
  | nil => simp [GoMap.put]
  | cons e rest ih =>
    obtain ⟨k0, v0⟩ := e
    simp only [List.map_cons, List.nodup_cons] at hnd
    unfold GoMap.put
    by_cases h0 : k0 = k
    · rw [if_pos h0]; subst h0
      simpa using hnd
    · rw [if_neg h0]
      simp only [List.map_cons, List.nodup_cons]
      refine ⟨?_, ih hnd.2⟩
      rw [← GoMap.hasKey_iff_mem_keys, GoMap.hasKey_put]
      rintro (h | h)
      · exact h0 h
      · exact hnd.1 ((GoMap.hasKey_iff_mem_keys _ _).1 h)

theorem GoMap.mem_iff (m : GoMap) (hnd : (m.map Prod.fst).Nodup) (k v : Int) :
    (k, v) ∈ m ↔ m.hasKey k = true ∧ m.get k = v := by
  induction m with
  | nil => simp [GoMap.hasKey]
  | cons e rest ih =>
    obtain ⟨k0, v0⟩ := e
    simp only [List.map_cons, List.nodup_cons] at hnd
    by_cases h : k0 = k
    · subst h
      have hno : ∀ w, (k0, w) ∉ rest := fun w hw => hnd.1 (List.mem_map_of_mem Prod.fst hw)
      simp only [List.mem_cons, Prod.mk.injEq, true_and, hno, or_false, GoMap.hasKey, GoMap.get,
        if_true]
      exact eq_comm
    · have h' : ¬ k = k0 := fun e => h e.symm
      simp [GoMap.hasKey, GoMap.get, h, h', ih hnd.2]

theorem logTotal_append (log : List (Int × Int)) (f sc c : Int) :
    logTotal (log ++ [(f, sc)]) c = logTotal log c + (if f = c then sc else 0) := by
  unfold logTotal
  by_cases h : f = c <;> simp [List.filter_append, List.filter_cons, h]

theorem logTotal_bound (B : Int) (log : List (Int × Int))
    (h : ∀ e ∈ log, -B ≤ e.2 ∧ e.2 ≤ B) (c : Int) :
    -(B * log.length) ≤ logTotal log c ∧ logTotal log c ≤ B * log.length := by
  induction log with
  | nil => simp [logTotal]
  | cons e rest ih =>
    have hr := ih (fun e he => h e (List.mem_cons_of_mem _ he))
    have he := h e (List.mem_cons_self _ _)
    have hcons : logTotal (e :: rest) c = (if e.1 = c then e.2 else 0) + logTotal rest c := by
      unfold logTotal
      by_cases hc : e.1 = c <;> simp [List.filter_cons, hc]
    rw [hcons]
    simp only [List.length_cons]
    push_cast
    by_cases hc : e.1 = c
    · simp only [hc, if_true]; constructor <;> nlinarith [hr.1, hr.2, he.1, he.2]
    · simp only [hc, if_false]; constructor <;> nlinarith [hr.1, hr.2, he.1, he.2]

theorem wrapInt_eq (z : Int) (h0 : -(2 ^ 63) ≤ z) (h1 : z < 2 ^ 63) : wrapInt z = z := by
  unfold wrapInt
  omega

theorem bestLoop_spec (entries : List (Int × Int)) :
    ∀ best high : Int,
      (bestLoop entries best high = best ∧ ∀ e ∈ entries, e.2 ≤ high) ∨
      (∃ v, (bestLoop entries best high, v) ∈ entries ∧ high < v ∧ ∀ e ∈ entries, e.2 ≤ v) := by
  induction entries with
  | nil => intro best high; left; simp [bestLoop]
  | cons e rest ih =>
    obtain ⟨mv, sc⟩ := e
    intro best high
    unfold bestLoop
    by_cases hgt : sc > high
    · rw [if_pos hgt]
      rcases ih mv sc with ⟨hr, hall⟩ | ⟨v, hm, hv, hall⟩
      · right
        refine ⟨sc, by rw [hr]; exact List.mem_cons_self _ _, hgt, ?_⟩
        intro e he
        rcases List.mem_cons.1 he with rfl | he
        · exact le_refl _
        · exact hall e he
      · right
        refine ⟨v, List.mem_cons_of_mem _ hm, by omega, ?_⟩
        intro e he
        rcases List.mem_cons.1 he with rfl | he
        · show sc ≤ v; omega
        · exact hall e he
    · rw [if_neg hgt]
      rcases ih best high with ⟨hr, hall⟩ | ⟨v, hm, hv, hall⟩
      · left
        refine ⟨hr, ?_⟩
        intro e he
        rcases List.mem_cons.1 he with rfl | he
        · show sc ≤ high; omega
        · exact hall e he
      · right
        refine ⟨v, List.mem_cons_of_mem _ hm, hv, ?_⟩
        intro e he
        rcases List.mem_cons.1 he with rfl | he
        · show sc ≤ v; omega
        · exact hall e he
/-! ## The loop over the trials -/

theorem trialsLoop_inv (board : Board) (player : Piece) (B : Int) (hB0 : 0 ≤ B)
    (Q : Int → Prop)
    (hB : ∀ rng s, trial board player rng = Run.ok s →
      -B ≤ s.score ∧ s.score ≤ B ∧ Q s.firstMove) :
    ∀ (left : Nat) (t t' : Trials), TrialsInv B Q t →
      B * ((t.log.length : Int) + left) < 2 ^ 63 →
      trialsLoop board player left t = Run.ok t' →
      TrialsInv B Q t' ∧ t'.log.length = t.log.length + left := by
  intro left
  induction left with
  | zero =>
    intro t t' hinv _ hrun
    simp only [trialsLoop, Run.pure_def, Run.ok.injEq] at hrun
    subst hrun
    exact ⟨hinv, rfl⟩
  | succ n ih =>
    intro t t' hinv hbound hrun
    unfold trialsLoop at hrun
    cases htr : trial board player t.rng with
    | fault f => simp [htr] at hrun
    | ok s =>
      simp only [htr, Run.ok_bind] at hrun
      obtain ⟨hlo, hhi, hq⟩ := hB t.rng s htr
      obtain ⟨hnd, hkey, hget, hlog⟩ := hinv
      have hlen : ((t.log ++ [(s.firstMove, s.score)]).length : Int) = t.log.length + 1 := by
        simp
      have hlen0 : (0 : Int) ≤ t.log.length := by omega
      have hmul : B * ((t.log.length : Int) + (n + 1 : Nat)) =
          B * t.log.length + B * n + B := by push_cast; ring
      have hBn : 0 ≤ B * n := by positivity
      have hinv2 : TrialsInv B Q
          { results := if s.firstMove ≥ 0 then
              t.results.put s.firstMove (wrapInt (t.results.get s.firstMove + s.score))
              else t.results,
            log := t.log ++ [(s.firstMove, s.score)], rng := s.rng } := by
        refine ⟨?_, ?_, ?_, ?_⟩
        · show ((if s.firstMove ≥ 0 then _ else _ : GoMap).map Prod.fst).Nodup
          split
          · exact GoMap.keys_put _ _ _ hnd
          · exact hnd
        · intro c
          show (if s.firstMove ≥ 0 then _ else _ : GoMap).hasKey c = true ↔ _
          simp only [List.mem_append, List.mem_singleton]
          by_cases hf : s.firstMove ≥ 0
          · rw [if_pos hf, GoMap.hasKey_put, hkey]
            constructor
            · rintro (h | ⟨h0, e, he, hec⟩)
              · exact ⟨by omega, _, Or.inr rfl, h.symm⟩
              · exact ⟨h0, e, Or.inl he, hec⟩
            · rintro ⟨h0, e, he | he, hec⟩
              · exact Or.inr ⟨h0, e, he, hec⟩
              · left; rw [← hec, he]
          · rw [if_neg hf, hkey]
            constructor
            · rintro ⟨h0, e, he, hec⟩
              exact ⟨h0, e, Or.inl he, hec⟩
            · rintro ⟨h0, e, he | he, hec⟩
              · exact ⟨h0, e, he, hec⟩
              · rw [he] at hec; simp only at hec; omega
        · intro c hc
          show (if s.firstMove ≥ 0 then _ else _ : GoMap).get c = _
          rw [logTotal_append]
          by_cases hf : s.firstMove ≥ 0
          · rw [if_pos hf, GoMap.get_put]
            by_cases hcf : c = s.firstMove
            · subst hcf
              have hb := logTotal_bound B t.log (fun e he => ⟨(hlog e he).1, (hlog e he).2.1⟩)
                s.firstMove
              rw [if_pos rfl, if_pos rfl, hget _ hc, wrapInt_eq _ (by omega) (by omega)]
            · have hcf' : ¬ s.firstMove = c := fun e => hcf e.symm
              rw [if_neg hcf, if_neg hcf', hget c hc, add_zero]
          · have hcf' : ¬ s.firstMove = c := by omega
            rw [if_neg hf, if_neg hcf', hget c hc, add_zero]
        · intro e he
          rcases List.mem_append.1 he with he | he
          · exact hlog e he
          · rw [List.mem_singleton.1 he]; exact ⟨hlo, hhi, hq⟩
      obtain ⟨hres, hl⟩ := ih _ t' hinv2 (by rw [hlen]; rw [hmul] at hbound; linarith) hrun
      refine ⟨hres, ?_⟩
      rw [hl]; simp; omega

theorem trialsLoop_total (board : Board) (player : Piece)
    (htot : ∀ rng, ∃ s, trial board player rng = Run.ok s) :
    ∀ (left : Nat) (t : Trials), ∃ t', trialsLoop board player left t = Run.ok t' := by
  intro left
  induction left with
  | zero => intro t; exact ⟨t, rfl⟩
  | succ n ih =>
    intro t
    obtain ⟨s, hs⟩ := htot t.rng
    unfold trialsLoop
    simp only [hs, Run.ok_bind]
    exact ih _
theorem simLoop_score_any :
    ∀ (fuel : Nat) (s s' : Sim) (B : Int), simLoop fuel s = Run.ok s' →
      -B ≤ s.score → s.score ≤ B →
      -(B + fuel) ≤ s'.score ∧ s'.score ≤ B + fuel := by
  intro fuel
  induction fuel with
  | zero =>
    intro s s' B h hlo hhi
    unfold simLoop at h
    by_cases hg : (s.nextMoves.length : Int) > 0
    · simp [hg] at h
    · simp only [hg, if_false, Run.pure_def, Run.ok.injEq] at h
      subst h
      simp only [Nat.cast_zero, add_zero]
      exact ⟨hlo, hhi⟩
  | succ n ih =>
    intro s s' B h hlo hhi
    unfold simLoop at h
    by_cases hg : (s.nextMoves.length : Int) > 0
    · simp only [hg, if_true] at h
      cases h1 : s.rng.intn s.nextMoves.length with
      | fault f => simp [h1] at h
      | ok rr =>
        obtain ⟨r, rng'⟩ := rr
        simp only [h1, Run.ok_bind] at h
        cases h2 : getIdx s.nextMoves r with
        | fault f => simp [h2] at h
        | ok randMove =>
          simp only [h2, Run.ok_bind] at h
          cases h3 : move s.boardCopy randMove s.player with
          | fault f => simp [h3] at h
          | ok res =>
            obtain ⟨boardCopy, err⟩ := res
            simp only [h3, Run.ok_bind] at h
            cases h4 : gameOver boardCopy with
            | fault f => simp [h4] at h
            | ok piece =>
              simp only [h4, Run.ok_bind] at h
              by_cases hp : piece ≠ EMPTY
              · rw [if_pos hp] at h
                simp only [Run.pure_def, Run.ok.injEq] at h
                subst h
                push_cast
                show -(B + (n + 1)) ≤ (if piece = P1 then s.score * -1 else s.score) ∧
                  (if piece = P1 then s.score * -1 else s.score) ≤ B + (n + 1)
                split <;> constructor <;> omega
              · rw [if_neg hp] at h
                cases h5 : validMoves boardCopy with
                | fault f => simp [h5] at h
                | ok valid =>
                  simp only [h5, Run.ok_bind] at h
                  have := ih _ s' (B + 1) h (by simp only; omega) (by simp only; omega)
                  push_cast
                  omega
    · simp only [hg, if_false, Run.pure_def, Run.ok.injEq] at h
      subst h
      push_cast
      constructor <;> omega

theorem trial_score_any (board : Board) (player : Piece) (rng : Rng) (s : Sim)
    (h : trial board player rng = Run.ok s) : -85 ≤ s.score ∧ s.score ≤ 85 := by
  unfold trial at h
  cases hv : validMoves board with
  | fault f => simp [hv] at h
  | ok valid =>
    simp only [hv, Run.ok_bind] at h
    have e : (boardWidth * boardHeight).toNat + 1 = 43 := rfl
    have e2 : boardWidth * boardHeight = 42 := rfl
    rw [e, e2] at h
    have := simLoop_score_any 43 _ s 42 h (by simp) (by simp)
    push_cast at this
    omega
/-! ## The choice of the best column -/

theorem select_spec (results : GoMap) (hnd : (results.map Prod.fst).Nodup)
    (entries : List (Int × Int)) (hperm : entries.Perm results)
    (hmin : ∀ e ∈ results, MinInt < e.2) :
    (results = [] → bestLoop entries (-1) MinInt = -1) ∧
    (results ≠ [] →
      results.hasKey (bestLoop entries (-1) MinInt) = true ∧
      ∀ c : Int, results.hasKey c = true →
        results.get c ≤ results.get (bestLoop entries (-1) MinInt)) := by
  rcases bestLoop_spec entries (-1) MinInt with ⟨hr, hall⟩ | ⟨v, hm, _, hall⟩
  · refine ⟨fun _ => hr, fun hne => ?_⟩
    obtain ⟨e, rest, he⟩ := List.exists_cons_of_ne_nil hne
    have hmem : e ∈ results := by rw [he]; exact List.mem_cons_self _ _
    have h1 := hall e (hperm.mem_iff.2 hmem)
    have h2 := hmin e hmem
    omega
  · have hmr := hperm.mem_iff.1 hm
    have hk := (GoMap.mem_iff results hnd _ _).1 hmr
    refine ⟨fun h => ?_, fun _ => ⟨hk.1, fun c hc => ?_⟩⟩
    · rw [h] at hmr; exact absurd hmr (List.not_mem_nil _)
    · have hcm : (c, results.get c) ∈ results := (GoMap.mem_iff results hnd _ _).2 ⟨hc, rfl⟩
      have := hall _ (hperm.mem_iff.2 hcm)
      rw [hk.2]; exact this

theorem getBestNextMoveN_spec (n : Nat) (board : Board) (player : Piece) (rng : Rng)
    (order : GoMap → List (Int × Int)) (hord : IterationOrder order)
    (B : Int) (hB0 : 0 ≤ B) (Q : Int → Prop)
    (hB : ∀ rng s, trial board player rng = Run.ok s →
      -B ≤ s.score ∧ s.score ≤ B ∧ Q s.firstMove)
    (hbound : B * n < 2 ^ 63) (r : Int)
    (hr : getBestNextMoveN n board player rng order = Run.ok r) :
    ∃ t, trialsLoop board player n { results := [], log := [], rng := rng } = Run.ok t ∧
      TrialsInv B Q t ∧ t.log.length = n ∧
      (t.results = [] → r = -1) ∧
      (t.results ≠ [] → t.results.hasKey r = true ∧
        ∀ c : Int, t.results.hasKey c = true → t.results.get c ≤ t.results.get r) := by
  unfold getBestNextMoveN at hr
  cases ht : trialsLoop board player n { results := [], log := [], rng := rng } with
  | fault f => simp [ht] at hr
  | ok t =>
    simp only [ht, Run.ok_bind, Run.pure_def, Run.ok.injEq] at hr
    have hinit : TrialsInv B Q { results := [], log := [], rng := rng } :=
      ⟨by simp, by intro c; simp [GoMap.hasKey], by intro c _; simp [GoMap.get, logTotal],
        by simp⟩
    obtain ⟨hinv, hlen⟩ := trialsLoop_inv board player B hB0 Q hB n _ t hinit
      (by simpa using hbound) ht
    have hlen' : t.log.length = n := by simpa using hlen
    obtain ⟨hnd, hkey, hget, hlog⟩ := hinv
    have hmin : ∀ e ∈ t.results, MinInt < e.2 := by
      intro e he
      obtain ⟨hk, hg⟩ := (GoMap.mem_iff t.results hnd e.1 e.2).1 he
      have h0 := ((hkey e.1).1 hk).1
      have hb := logTotal_bound B t.log (fun e he => ⟨(hlog e he).1, (hlog e he).2.1⟩) e.1
      rw [hlen'] at hb
      rw [← hg, hget _ h0]
      have : MinInt = -(2 ^ 63) := by unfold MinInt MaxInt; norm_num
      rw [this]
      omega
    have hsel := select_spec t.results hnd (order t.results) (hord t.results) hmin
    rw [hr] at hsel
    exact ⟨t, rfl, ⟨hnd, hkey, hget, hlog⟩, hlen', hsel.1, hsel.2⟩
theorem getBestNextMoveN_total (n : Nat) (board : Board) (player : Piece) (rng : Rng)
    (order : GoMap → List (Int × Int)) (hlen : board.length = 42) :
    ∃ r, getBestNextMoveN n board player rng order = Run.ok r := by
  obtain ⟨t, ht⟩ := trialsLoop_total board player
    (fun rng => by
      obtain ⟨s, hs, _⟩ := trial_spec board player rng hlen
      exact ⟨s, hs⟩) n { results := [], log := [], rng := rng }
  exact ⟨bestLoop (order t.results) (-1) MinInt,
    by simp only [getBestNextMoveN, ht, Run.ok_bind, Run.pure_def]⟩

theorem GoMap.ne_nil_iff (m : GoMap) : m ≠ [] ↔ ∃ c, m.hasKey c = true := by
  cases m with
  | nil => simp [GoMap.hasKey]
  | cons e rest =>
    obtain ⟨k, v⟩ := e
    simp only [ne_eq, not_false_eq_true, true_iff, reduceCtorEq]
    exact ⟨k, by simp [GoMap.hasKey]⟩

theorem getBestNextMoveN_legal (n : Nat) (hn : 1 ≤ n) (hbound : 42 * (n : Int) < 2 ^ 63)
    (board : Board) (hlen : board.length = 42) (player : Piece) (rng : Rng)
    (order : GoMap → List (Int × Int)) (hord : IterationOrder order) :
    ∃ r, getBestNextMoveN n board player rng order = Run.ok r ∧
      (filterValid (topRow board) = [] → r = -1) ∧
      (filterValid (topRow board) ≠ [] → r ∈ filterValid (topRow board)) := by
  obtain ⟨r, hr⟩ := getBestNextMoveN_total n board player rng order hlen
  have hB : ∀ rng s, trial board player rng = Run.ok s →
      -42 ≤ s.score ∧ s.score ≤ 42 ∧
      ((filterValid (topRow board) = [] → s.firstMove = -1) ∧
       (filterValid (topRow board) ≠ [] → s.firstMove ∈ filterValid (topRow board))) := by
    intro rng s hs
    obtain ⟨s', hs', hlo, hhi, _, h1, h2⟩ := trial_spec board player rng hlen
    rw [hs] at hs'
    cases hs'
    exact ⟨hlo, hhi, h1, h2⟩
  obtain ⟨t, _, ⟨_, hkey, _, hlog⟩, hlen', hnil, hcons⟩ :=
    getBestNextMoveN_spec n board player rng order hord 42 (by omega)
      (fun f => (filterValid (topRow board) = [] → f = -1) ∧
        (filterValid (topRow board) ≠ [] → f ∈ filterValid (topRow board))) hB hbound r hr
  refine ⟨r, hr, ?_, ?_⟩
  · intro hno
    apply hnil
    by_contra hne
    obtain ⟨c, hc⟩ := (GoMap.ne_nil_iff _).1 hne
    obtain ⟨h0, e, he, hec⟩ := (hkey c).1 hc
    have := (hlog e he).2.2.1 hno
    omega
  · intro hsome
    have hne : t.results ≠ [] := by
      obtain ⟨e, rest, he⟩ : ∃ e rest, t.log = e :: rest := by
        cases hl : t.log with
        | nil => rw [hl] at hlen'; simp at hlen'; omega
        | cons e rest => exact ⟨e, rest, rfl⟩
      have hmem : e ∈ t.log := by rw [he]; exact List.mem_cons_self _ _
      have hleg := (hlog e hmem).2.2.2 hsome
      have h0 := ((mem_filterValid_topRow board e.1).1 hleg).1
      exact (GoMap.ne_nil_iff _).2 ⟨e.1, (hkey e.1).2 ⟨h0, e, hmem, rfl⟩⟩
    obtain ⟨_, e, he, hec⟩ := (hkey r).1 (hcons hne).1
    rw [← hec]
    exact (hlog e he).2.2.2 hsome
/-! ## getBestNextMove -/

theorem getIdx_topRow (board : Board) (c : Int) (h0 : 0 ≤ c) (h1 : c < 7) :
    getIdx (topRow board) c = Run.ok (decide (cellAt board c = EMPTY)) := by
  interval_cases c <;> simp [getIdx, topRow]

/-- C8: on a 42-cell board, for every current player (P1 and P2 among them),
every sequence of random choices and every iteration order of the map,
getBestNextMove returns -1 exactly when validMoves has no true entry, and
otherwise a column in [0, 7) at which validMoves is true. -/
theorem getBestNextMove_legal (board : Board) (hlen : board.length = 42)
    (currPlayer : Piece) (rng : Rng) (order : GoMap → List (Int × Int))
    (hord : IterationOrder order) :
    ∃ valid r, validMoves board = Run.ok valid ∧
      getBestNextMove board currPlayer rng order = Run.ok r ∧
      (r = -1 ↔ ∀ c : Int, 0 ≤ c → c < 7 → getIdx valid c = Run.ok false) ∧
      (r ≠ -1 → 0 ≤ r ∧ r < 7 ∧ getIdx valid r = Run.ok true) := by
  obtain ⟨r, hr, hnone, hsome⟩ := getBestNextMoveN_legal numSimulations (by decide)
    (by decide) board hlen currPlayer rng order hord
  have hin : filterValid (topRow board) ≠ [] →
      0 ≤ r ∧ r < 7 ∧ getIdx (topRow board) r = Run.ok true := by
    intro h
    obtain ⟨h0, h1, hc⟩ := (mem_filterValid_topRow board r).1 (hsome h)
    exact ⟨h0, h1, by rw [getIdx_topRow board r h0 h1]; simp [hc]⟩
  refine ⟨topRow board, r, validMoves_topRow board (by omega), hr, ?_, ?_⟩
  · constructor
    · intro hr1 c h0 h1
      rw [getIdx_topRow board c h0 h1]
      by_cases hc : cellAt board c = EMPTY
      · have hne : filterValid (topRow board) ≠ [] :=
          List.ne_nil_of_mem ((mem_filterValid_topRow board c).2 ⟨h0, h1, hc⟩)
        have := (hin hne).1
        omega
      · simp [hc]
    · intro hall
      apply hnone
      by_contra hne
      obtain ⟨h0, h1, hc⟩ := hin hne
      rw [hall r h0 h1] at hc
      exact absurd (Run.ok.inj hc) (by decide)
  · intro hr1
    apply hin
    intro hnil
    exact hr1 (hnone hnil)

/-- C8 on the all-EMPTY board with P2 to move. -/
theorem getBestNextMove_legal_witness :
    ∃ valid r, validMoves (List.replicate 42 EMPTY) = Run.ok valid ∧
      getBestNextMove (List.replicate 42 EMPTY) P2 ⟨fun _ => 0, 0⟩ id = Run.ok r ∧
      (r = -1 ↔ ∀ c : Int, 0 ≤ c → c < 7 → getIdx valid c = Run.ok false) ∧
      (r ≠ -1 → 0 ≤ r ∧ r < 7 ∧ getIdx valid r = Run.ok true) :=
  getBestNextMove_legal (List.replicate 42 EMPTY) (by decide) P2 ⟨fun _ => 0, 0⟩ id
    (fun m => List.Perm.refl m)

/-- With exactly one legal column c and a trial count n for which 42 * n
stays below 2^63, getBestNextMove with n trials returns c. -/
theorem getBestNextMoveN_single_of_bound (n : Nat) (hn1 : 1 ≤ n) (hn2 : 42 * (n : Int) < 2 ^ 63)
    (board : Board) (hlen : board.length = 42) (c : Int) (hc0 : 0 ≤ c) (hc1 : c < 7)
    (currPlayer : Piece) (rng : Rng) (order : GoMap → List (Int × Int))
    (hord : IterationOrder order)
    (hone : ∃ valid, validMoves board = Run.ok valid ∧
      ∀ k : Int, 0 ≤ k → k < 7 → (getIdx valid k = Run.ok true ↔ k = c)) :
    getBestNextMoveN n board currPlayer rng order = Run.ok c := by
  obtain ⟨valid, hv, hk⟩ := hone
  rw [validMoves_topRow board (by omega)] at hv
  cases hv
  obtain ⟨r, hr, _, hsome⟩ := getBestNextMoveN_legal n hn1 hn2 board hlen currPlayer rng order
    hord
  have hcl : c ∈ filterValid (topRow board) := by
    have := (hk c hc0 hc1).2 rfl
    rw [getIdx_topRow board c hc0 hc1] at this
    exact (mem_filterValid_topRow board c).2 ⟨hc0, hc1, by simpa using Run.ok.inj this⟩
  obtain ⟨h0, h1, hz⟩ := (mem_filterValid_topRow board r).1 (hsome (List.ne_nil_of_mem hcl))
  have hrc : r = c := (hk r h0 h1).1 (by rw [getIdx_topRow board r h0 h1]; simp [hz])
  rw [hr, hrc]

theorem trialsLoop_keys (board : Board) (player : Piece) (Q : Int → Prop)
    (hQ : ∀ rng s, trial board player rng = Run.ok s → Q s.firstMove) :
    ∀ (left : Nat) (t t' : Trials), (t.results.map Prod.fst).Nodup →
      (∀ c : Int, t.results.hasKey c = true ↔ 0 ≤ c ∧ ∃ e ∈ t.log, e.1 = c) →
      (∀ e ∈ t.log, Q e.1) →
      trialsLoop board player left t = Run.ok t' →
      (t'.results.map Prod.fst).Nodup ∧
      (∀ c : Int, t'.results.hasKey c = true ↔ 0 ≤ c ∧ ∃ e ∈ t'.log, e.1 = c) ∧
      (∀ e ∈ t'.log, Q e.1) ∧ t'.log.length = t.log.length + left := by
  intro left
  induction left with
  | zero =>
    intro t t' hnd hkey hlog hrun
    simp only [trialsLoop, Run.pure_def, Run.ok.injEq] at hrun
    subst hrun
    exact ⟨hnd, hkey, hlog, rfl⟩
  | succ n ih =>
    intro t t' hnd hkey hlog hrun
    unfold trialsLoop at hrun
    cases htr : trial board player t.rng with
    | fault f => simp [htr] at hrun
    | ok s =>
      simp only [htr, Run.ok_bind] at hrun
      have hq := hQ t.rng s htr
      obtain ⟨h1, h2, h3, h4⟩ := ih _ t'
        (by
          show ((if s.firstMove ≥ 0 then _ else _ : GoMap).map Prod.fst).Nodup
          split
          · exact GoMap.keys_put _ _ _ hnd
          · exact hnd)
        (by
          intro c
          show (if s.firstMove ≥ 0 then _ else _ : GoMap).hasKey c = true ↔ _
          simp only [List.mem_append, List.mem_singleton]
          by_cases hf : s.firstMove ≥ 0
          · rw [if_pos hf, GoMap.hasKey_put, hkey]
            constructor
            · rintro (h | ⟨h0, e, he, hec⟩)
              · exact ⟨by omega, _, Or.inr rfl, h.symm⟩
              · exact ⟨h0, e, Or.inl he, hec⟩
            · rintro ⟨h0, e, he | he, hec⟩
              · exact Or.inr ⟨h0, e, he, hec⟩
              · left; rw [← hec, he]
          · rw [if_neg hf, hkey]
            constructor
            · rintro ⟨h0, e, he, hec⟩
              exact ⟨h0, e, Or.inl he, hec⟩
            · rintro ⟨h0, e, he | he, hec⟩
              · exact ⟨h0, e, he, hec⟩
              · rw [he] at hec; simp only at hec; omega)
        (by
          intro e he
          rcases List.mem_append.1 he with he | he
          · exact hlog e he
          · rw [List.mem_singleton.1 he]; exact hq)
        hrun
      refine ⟨h1, h2, h3, ?_⟩
      rw [h4]; simp; omega

theorem GoMap.eq_singleton (m : GoMap) (c : Int) (hnd : (m.map Prod.fst).Nodup)
    (hkey : ∀ k : Int, m.hasKey k = true ↔ k = c) : m = [(c, m.get c)] := by
  cases m with
  | nil =>
    have := (hkey c).2 rfl
    simp [GoMap.hasKey] at this
  | cons e rest =>
    obtain ⟨k0, v0⟩ := e
    have hk0 : k0 = c := (hkey k0).1 (by simp [GoMap.hasKey])
    subst hk0
    cases rest with
    | nil => simp [GoMap.get]
    | cons e1 rest1 =>
      obtain ⟨k1, v1⟩ := e1
      have hk1 : k1 = k0 := (hkey k1).1 (by
        by_cases h : k0 = k1
        · simp [GoMap.hasKey, h]
        · simp [GoMap.hasKey, h])
      subst hk1
      simp at hnd

theorem trial_firstMove_single (board : Board) (hlen : board.length = 42) (c : Int)
    (hc0 : 0 ≤ c) (hc1 : c < 7)
    (hk : ∀ k : Int, 0 ≤ k → k < 7 → (getIdx (topRow board) k = Run.ok true ↔ k = c))
    (player : Piece) (rng : Rng) (s : Sim) (hs : trial board player rng = Run.ok s) :
    s.firstMove = c := by
  obtain ⟨s', hs', _, _, _, _, hsome⟩ := trial_spec board player rng hlen
  rw [hs] at hs'
  cases hs'
  have hcl : c ∈ filterValid (topRow board) := by
    have := (hk c hc0 hc1).2 rfl
    rw [getIdx_topRow board c hc0 hc1] at this
    exact (mem_filterValid_topRow board c).2 ⟨hc0, hc1, by simpa using Run.ok.inj this⟩
  obtain ⟨h0, h1, hz⟩ := (mem_filterValid_topRow board s.firstMove).1
    (hsome (List.ne_nil_of_mem hcl))
  exact (hk _ h0 h1).1 (by rw [getIdx_topRow board _ h0 h1]; simp [hz])

theorem getBestNextMoveN_single_total (n : Nat) (hn : 1 ≤ n) (board : Board)
    (hlen : board.length = 42) (c : Int) (hc0 : 0 ≤ c) (hc1 : c < 7)
    (currPlayer : Piece) (rng : Rng) (order : GoMap → List (Int × Int))
    (hord : IterationOrder order)
    (hk : ∀ k : Int, 0 ≤ k → k < 7 → (getIdx (topRow board) k = Run.ok true ↔ k = c)) :
    ∃ t, trialsLoop board currPlayer n { results := [], log := [], rng := rng } = Run.ok t ∧
      t.log.length = n ∧ (∀ e ∈ t.log, e.1 = c) ∧
      (∀ k : Int, t.results.hasKey k = true ↔ k = c) ∧
      getBestNextMoveN n board currPlayer rng order =
        Run.ok (if t.results.get c > MinInt then c else -1) := by
  obtain ⟨t, ht⟩ := trialsLoop_total board currPlayer
    (fun rng => by
      obtain ⟨s, hs, _⟩ := trial_spec board currPlayer rng hlen
      exact ⟨s, hs⟩) n { results := [], log := [], rng := rng }
  obtain ⟨hnd, hkey, hlog, hl⟩ := trialsLoop_keys board currPlayer (fun f => f = c)
    (fun rng s hs => trial_firstMove_single board hlen c hc0 hc1 hk currPlayer rng s hs)
    n _ t (by simp) (by intro c; simp [GoMap.hasKey]) (by simp) ht
  have hl' : t.log.length = n := by simpa using hl
  have hkey' : ∀ k : Int, t.results.hasKey k = true ↔ k = c := by
    intro k
    rw [hkey]
    constructor
    · rintro ⟨_, e, he, hec⟩
      rw [← hec]; exact hlog e he
    · intro h
      subst h
      obtain ⟨e, rest, he⟩ : ∃ e rest, t.log = e :: rest := by
        cases hl0 : t.log with
        | nil => rw [hl0] at hl'; simp at hl'; omega
        | cons e rest => exact ⟨e, rest, rfl⟩
      have hmem : e ∈ t.log := by rw [he]; exact List.mem_cons_self _ _
      exact ⟨hc0, e, hmem, hlog e hmem⟩
  refine ⟨t, ht, hl', hlog, hkey', ?_⟩
  have hres := GoMap.eq_singleton t.results c hnd hkey'
  have hperm : (order t.results).Perm [(c, t.results.get c)] := by
    rw [← hres]
    exact hord t.results
  have ho : order t.results = [(c, t.results.get c)] := List.perm_singleton.1 hperm
  simp only [getBestNextMoveN, ht, Run.ok_bind, Run.pure_def, ho, bestLoop]

/-- C9: on a 42-cell board on which exactly one column c is legal, for every
current player, every sequence of random choices and every iteration order of
the map, getBestNextMove (which runs numSimulations = 1000 trials) returns c.
For every trial count n >= 1 the n trials all complete, each of them has c as
its first move and c is the only key of `results`; getBestNextMove with n
trials returns c exactly when the total of c is greater than the initial
highScore, which is so whenever 42 * n is at most MaxInt. -/
theorem getBestNextMove_single (board : Board) (hlen : board.length = 42) (c : Int)
    (hc0 : 0 ≤ c) (hc1 : c < 7) (currPlayer : Piece) (rng : Rng)
    (order : GoMap → List (Int × Int)) (hord : IterationOrder order)
    (hone : ∃ valid, validMoves board = Run.ok valid ∧
      ∀ k : Int, 0 ≤ k → k < 7 → (getIdx valid k = Run.ok true ↔ k = c)) :
    getBestNextMove board currPlayer rng order = Run.ok c ∧
    ∀ n : Nat, 1 ≤ n →
      ∃ t, trialsLoop board currPlayer n { results := [], log := [], rng := rng } = Run.ok t ∧
        t.log.length = n ∧ (∀ e ∈ t.log, e.1 = c) ∧
        (∀ k : Int, t.results.hasKey k = true ↔ k = c) ∧
        (getBestNextMoveN n board currPlayer rng order = Run.ok c ↔
          MinInt < t.results.get c) ∧
        (42 * (n : Int) ≤ MaxInt →
          getBestNextMoveN n board currPlayer rng order = Run.ok c) := by
  refine ⟨getBestNextMoveN_single_of_bound numSimulations (by decide) (by decide) board hlen c
    hc0 hc1 currPlayer rng order hord hone, ?_⟩
  intro n hn
  obtain ⟨valid, hv, hk⟩ := hone
  rw [validMoves_topRow board (by omega)] at hv
  cases hv
  obtain ⟨t, ht, hl, hlog, hkey, hr⟩ := getBestNextMoveN_single_total n hn board hlen c hc0 hc1
    currPlayer rng order hord hk
  refine ⟨t, ht, hl, hlog, hkey, ?_, ?_⟩
  · rw [hr]
    by_cases hgt : t.results.get c > MinInt
    · rw [if_pos hgt]
      exact ⟨fun _ => hgt, fun _ => rfl⟩
    · rw [if_neg hgt]
      constructor
      · intro h
        have := Run.ok.inj h
        omega
      · intro h
        exact absurd h hgt
  · intro hb
    exact getBestNextMoveN_single_of_bound n hn (by unfold MaxInt at hb; omega) board hlen c
      hc0 hc1 currPlayer rng order hord
      ⟨topRow board, validMoves_topRow board (by omega), hk⟩

/-- C9 on oneColumnBoard with P2 to move. -/
theorem getBestNextMove_single_witness :
    getBestNextMove oneColumnBoard P2 ⟨fun _ => 0, 0⟩ id = Run.ok 0 ∧
    ∀ n : Nat, 1 ≤ n →
      ∃ t, trialsLoop oneColumnBoard P2 n
          { results := [], log := [], rng := ⟨fun _ => 0, 0⟩ } = Run.ok t ∧
        t.log.length = n ∧ (∀ e ∈ t.log, e.1 = 0) ∧
        (∀ k : Int, t.results.hasKey k = true ↔ k = 0) ∧
        (getBestNextMoveN n oneColumnBoard P2 ⟨fun _ => 0, 0⟩ id = Run.ok 0 ↔
          MinInt < t.results.get 0) ∧
        (42 * (n : Int) ≤ MaxInt →
          getBestNextMoveN n oneColumnBoard P2 ⟨fun _ => 0, 0⟩ id = Run.ok 0) :=
  getBestNextMove_single oneColumnBoard (by decide) 0 (by decide) (by decide) P2
    ⟨fun _ => 0, 0⟩ id (fun m => List.Perm.refl m)
    ⟨[true, false, false, false, false, false, false], by decide,
      fun k h0 h1 => by interval_cases k <;> decide⟩
/-- C10: for every board, player, sequence of random choices and iteration
order, when getBestNextMove returns (as it does on every 42-cell board) the
map `results` after the numSimulations trials has as keys the columns that
were the first move of some trial, the total of a column is the sum of the
scores of exactly the trials whose first move was that column, the returned
column is a key whose total is at least the total of every key, and a key
whose total is greater than that of every other key is the one returned. -/
theorem getBestNextMove_totals (board : Board) (currPlayer : Piece) (rng : Rng)
    (order : GoMap → List (Int × Int)) (hord : IterationOrder order) :
    (board.length = 42 → ∃ r, getBestNextMove board currPlayer rng order = Run.ok r) ∧
    ∀ r, getBestNextMove board currPlayer rng order = Run.ok r →
      ∃ t, trialsLoop board currPlayer numSimulations
          { results := [], log := [], rng := rng } = Run.ok t ∧
        t.log.length = numSimulations ∧
        (∀ c : Int, t.results.hasKey c = true ↔ 0 ≤ c ∧ ∃ e ∈ t.log, e.1 = c) ∧
        (∀ c : Int, 0 ≤ c → t.results.get c = logTotal t.log c) ∧
        (∀ c : Int, t.results.hasKey c = true →
          t.results.hasKey r = true ∧ t.results.get c ≤ t.results.get r) ∧
        (∀ c : Int, t.results.hasKey c = true →
          (∀ c' : Int, t.results.hasKey c' = true → c' ≠ c →
            t.results.get c' < t.results.get c) → r = c) := by
  refine ⟨fun hlen => getBestNextMoveN_total numSimulations board currPlayer rng order hlen,
    fun r hr => ?_⟩
  obtain ⟨t, ht, ⟨_, hkey, hget, _⟩, hlen, _, hcons⟩ :=
    getBestNextMoveN_spec numSimulations board currPlayer rng order hord 85 (by omega)
      (fun _ => True)
      (fun rng s hs => ⟨(trial_score_any board currPlayer rng s hs).1,
        (trial_score_any board currPlayer rng s hs).2, trivial⟩)
      (by decide) r hr
  have hbest : ∀ c : Int, t.results.hasKey c = true →
      t.results.hasKey r = true ∧ t.results.get c ≤ t.results.get r := by
    intro c hc
    have hne : t.results ≠ [] := (GoMap.ne_nil_iff _).2 ⟨c, hc⟩
    exact ⟨(hcons hne).1, (hcons hne).2 c hc⟩
  refine ⟨t, ht, hlen, hkey, hget, hbest, ?_⟩
  intro c hc huniq
  by_contra hrc
  have h1 := huniq r (hbest c hc).1 hrc
  have h2 := (hbest c hc).2
  omega

/-- C10 on the all-EMPTY board with P2 to move: getBestNextMove returns. -/
theorem getBestNextMove_totals_witness :
    ∃ r, getBestNextMove (List.replicate 42 EMPTY) P2 ⟨fun _ => 0, 0⟩ id = Run.ok r :=
  (getBestNextMove_totals (List.replicate 42 EMPTY) P2 ⟨fun _ => 0, 0⟩ id
    (fun m => List.Perm.refl m)).1 (by decide)

/-! ## Input layer -/

/-- C16 fails on the code at the input "8": validInput accepts it although
the prompt announces 1-7, readInput turns it into the column 7, which is not
below boardWidth, and the move that main then makes indexes the seven
entries of validMoves at 7 and stops the program with a run-time panic. -/
theorem validInput_accepts_eight :
    validInput "8".toList = true ∧ "8".toList ∉ promptRange ∧
    readInput "8".toList = 7 ∧ ¬ (7 < boardWidth) ∧
    mainMove (initBoard []) (readInput "8".toList) P1 =
      some (Run.fault Fault.indexOutOfRange) := by
  refine ⟨by decide, by decide, by decide, by decide, by decide⟩

theorem validInput_iff (input : GoString) :
    validInput input = true ↔ input ∈ promptRange ∨ input = "8".toList ∨ input = "9".toList := by
  simp [validInput, promptRange, or_assoc]
/-! ## Sequences of moves into one column -/

theorem columnFilled_init (c : Int) (f : Int → Piece) :
    ColumnFilled (initBoard []) c 0 f := by
  refine ⟨initBoard_length [], fun i h0 h1 => ?_⟩
  have hc : ¬ (i % 7 = c ∧ 6 - 0 ≤ i / 7) := by omega
  rw [initBoard_cellAt [] i h0 h1, if_neg hc]
  rfl

theorem columnFilled_move (b : Board) (c k : Int) (f : Int → Piece)
    (hb : ColumnFilled b c k f) (hc0 : 0 ≤ c) (hc1 : c < 7) (hk0 : 0 ≤ k) (hk1 : k < 6)
    (hf : ∀ r, f r ≠ EMPTY) :
    move b c (f (5 - k)) = Run.ok (b.set (c + 7 * (5 - k)).toNat (f (5 - k)), none) ∧
    ColumnFilled (b.set (c + 7 * (5 - k)).toNat (f (5 - k))) c (k + 1) f := by
  obtain ⟨hlen, hcell⟩ := hb
  have hempty : ∀ r : Int, 0 ≤ r → r < 6 →
      (cellAt b (coordToIdx c r) = EMPTY ↔ r < 6 - k) := by
    intro r hr0 hr1
    rw [coordToIdx_eq, hcell _ (by omega) (by omega)]
    have e1 : (c + 7 * r) % 7 = c := by omega
    have e2 : (c + 7 * r) / 7 = r := by omega
    rw [e1, e2]
    by_cases h : 6 - k ≤ r
    · simp only [h, and_self, if_true]
      exact ⟨fun h' => absurd h' (hf r), fun h' => by omega⟩
    · simp only [h, and_false, if_false, true_iff]
      omega
  have hex : ∃ r : Nat, r < 6 ∧ cellAt b (coordToIdx c r) = EMPTY :=
    ⟨0, by omega, (hempty 0 (by omega) (by omega)).2 (by omega)⟩
  obtain ⟨r, hr, hre, hall, hm⟩ := moveLoop_spec b c (f (5 - k)) hlen hc0 hc1 6 (by omega) hex
  have hr1 : (r : Int) < 6 - k := (hempty r (by omega) (by omega)).1 hre
  have hr2 : (r : Int) = 5 - k := by
    by_contra hne
    have hlt : (r : Int) < 5 - k := by omega
    have := hall (5 - k).toNat (by omega) (by omega)
    apply this
    have e : (((5 - k).toNat : Nat) : Int) = 5 - k := by omega
    rw [e]
    exact (hempty (5 - k) (by omega) (by omega)).2 (by omega)
  have hidx : coordToIdx c r = c + 7 * (5 - k) := by rw [coordToIdx_eq, hr2]
  have hz : cellAt b c = EMPTY := by
    have := (hempty 0 (by omega) (by omega)).2 (by omega)
    simpa [coordToIdx] using this
  rw [hidx] at hm
  refine ⟨by rw [move_eq b c _ (by omega) hc0 hc1, if_pos hz]; exact hm, by simp [hlen], ?_⟩
  intro i hi0 hi1
  rw [cellAt_set b _ i _ (by omega) (by rw [hlen]; omega) hi0, hcell i hi0 hi1]
  by_cases hi : i = c + 7 * (5 - k)
  · have e1 : i % 7 = c := by omega
    have e2 : i / 7 = 5 - k := by omega
    have hcond : i % 7 = c ∧ 6 - (k + 1) ≤ i / 7 := by omega
    rw [if_pos hi, if_pos hcond, e2]
  · rw [if_neg hi]
    by_cases hcond : i % 7 = c ∧ 6 - k ≤ i / 7
    · have hcond' : i % 7 = c ∧ 6 - (k + 1) ≤ i / 7 := by omega
      rw [if_pos hcond, if_pos hcond']
    · have hcond' : ¬ (i % 7 = c ∧ 6 - (k + 1) ≤ i / 7) := by omega
      rw [if_neg hcond, if_neg hcond']

theorem columnFilled_valid (b : Board) (c k : Int) (f : Int → Piece)
    (hb : ColumnFilled b c k f) (hk0 : 0 ≤ k) (hk1 : k ≤ 6) (hf : ∀ r, f r ≠ EMPTY)
    (j : Int) (hj0 : 0 ≤ j) (hj1 : j < 7) :
    getIdx (topRow b) j = Run.ok (decide (¬ (j = c ∧ k = 6))) := by
  rw [getIdx_topRow b j hj0 hj1, hb.2 j hj0 (by omega)]
  have e1 : j % 7 = j := by omega
  have e2 : j / 7 = 0 := by omega
  rw [e1, e2]
  by_cases h : j = c ∧ k = 6
  · have h' : j = c ∧ 6 - k ≤ 0 := by omega
    simp [h, h', hf 0]
  · have h' : ¬ (j = c ∧ 6 - k ≤ 0) := by omega
    rw [if_neg h']
    simp [h]
/-- C15: validMoves returns seven true entries on the all-EMPTY board; for
every column c in [0, 7) and every six non-EMPTY pieces, six successive
moves into c succeed, after which validMoves is false at c and true at every
other column, and a seventh move into c returns an error. -/
theorem column_fills (c : Int) (h0 : 0 ≤ c) (h1 : c < 7) (p1 p2 p3 p4 p5 p6 p7 : Piece)
    (hp1 : p1 ≠ EMPTY) (hp2 : p2 ≠ EMPTY) (hp3 : p3 ≠ EMPTY) (hp4 : p4 ≠ EMPTY)
    (hp5 : p5 ≠ EMPTY) (hp6 : p6 ≠ EMPTY) :
    validMoves (initBoard []) = Run.ok [true, true, true, true, true, true, true] ∧
    ∃ (b1 b2 b3 b4 b5 b6 : Board) (valid : List Bool),
      move (initBoard []) c p1 = Run.ok (b1, none) ∧
      move b1 c p2 = Run.ok (b2, none) ∧
      move b2 c p3 = Run.ok (b3, none) ∧
      move b3 c p4 = Run.ok (b4, none) ∧
      move b4 c p5 = Run.ok (b5, none) ∧
      move b5 c p6 = Run.ok (b6, none) ∧
      validMoves b6 = Run.ok valid ∧ valid.length = 7 ∧
      (∀ j : Int, 0 ≤ j → j < 7 → getIdx valid j = Run.ok (decide (j ≠ c))) ∧
      ∃ (b7 : Board) (err : MoveError), move b6 c p7 = Run.ok (b7, some err) := by
  have hf : ∀ r, sixPieces p1 p2 p3 p4 p5 p6 r ≠ EMPTY := by
    intro r
    unfold sixPieces
    split_ifs <;> assumption
  have e1 : sixPieces p1 p2 p3 p4 p5 p6 (5 - 0) = p1 := by simp [sixPieces]
  have e2 : sixPieces p1 p2 p3 p4 p5 p6 (5 - (0 + 1)) = p2 := by simp [sixPieces]
  have e3 : sixPieces p1 p2 p3 p4 p5 p6 (5 - (0 + 1 + 1)) = p3 := by simp [sixPieces]
  have e4 : sixPieces p1 p2 p3 p4 p5 p6 (5 - (0 + 1 + 1 + 1)) = p4 := by simp [sixPieces]
  have e5 : sixPieces p1 p2 p3 p4 p5 p6 (5 - (0 + 1 + 1 + 1 + 1)) = p5 := by simp [sixPieces]
  have e6 : sixPieces p1 p2 p3 p4 p5 p6 (5 - (0 + 1 + 1 + 1 + 1 + 1)) = p6 := by
    simp [sixPieces]
  obtain ⟨m1, c1⟩ := columnFilled_move _ c 0 _ (columnFilled_init c _) h0 h1 (by omega)
    (by omega) hf
  obtain ⟨m2, c2⟩ := columnFilled_move _ c _ _ c1 h0 h1 (by omega) (by omega) hf
  obtain ⟨m3, c3⟩ := columnFilled_move _ c _ _ c2 h0 h1 (by omega) (by omega) hf
  obtain ⟨m4, c4⟩ := columnFilled_move _ c _ _ c3 h0 h1 (by omega) (by omega) hf
  obtain ⟨m5, c5⟩ := columnFilled_move _ c _ _ c4 h0 h1 (by omega) (by omega) hf
  obtain ⟨m6, c6⟩ := columnFilled_move _ c _ _ c5 h0 h1 (by omega) (by omega) hf
  rw [e1] at m1 c1
  rw [e1] at m2 c2
  rw [e2] at m2 c2
  rw [e1, e2] at m3 c3
  rw [e3] at m3 c3
  rw [e1, e2, e3] at m4 c4
  rw [e4] at m4 c4
  rw [e1, e2, e3, e4] at m5 c5
  rw [e5] at m5 c5
  rw [e1, e2, e3, e4, e5] at m6 c6
  rw [e6] at m6 c6
  refine ⟨by decide, _, _, _, _, _, _, _, m1, m2, m3, m4, m5, m6,
    validMoves_topRow _ (by rw [c6.1]; omega), rfl, ?_, ?_⟩
  · intro j hj0 hj1
    rw [columnFilled_valid _ c _ _ c6 (by omega) (by omega) hf j hj0 hj1]
    simp
  · have hz := c6.2 c h0 (by omega)
    have hcond : c % 7 = c ∧ 6 - (0 + 1 + 1 + 1 + 1 + 1 + 1) ≤ c / 7 := by omega
    rw [if_pos hcond] at hz
    have hne := hf (c / 7)
    rw [← hz] at hne
    exact ⟨_, MoveError.invalidMove, by rw [move_eq _ c p7 (by rw [c6.1]; omega) h0 h1,
      if_neg hne]⟩

/-- C15 for column 0 and pieces that alternate between P1 and P2. -/
theorem column_fills_witness :
    validMoves (initBoard []) = Run.ok [true, true, true, true, true, true, true] ∧
    ∃ (b1 b2 b3 b4 b5 b6 : Board) (valid : List Bool),
      move (initBoard []) 0 P1 = Run.ok (b1, none) ∧
      move b1 0 P2 = Run.ok (b2, none) ∧
      move b2 0 P1 = Run.ok (b3, none) ∧
      move b3 0 P2 = Run.ok (b4, none) ∧
      move b4 0 P1 = Run.ok (b5, none) ∧
      move b5 0 P2 = Run.ok (b6, none) ∧
      validMoves b6 = Run.ok valid ∧ valid.length = 7 ∧
      (∀ j : Int, 0 ≤ j → j < 7 → getIdx valid j = Run.ok (decide (j ≠ 0))) ∧
      ∃ (b7 : Board) (err : MoveError), move b6 0 P1 = Run.ok (b7, some err) :=
  column_fills 0 (by decide) (by decide) P1 P2 P1 P2 P1 P2 P1 (by decide) (by decide)
    (by decide) (by decide) (by decide) (by decide)
theorem columnFilled_noLine (b : Board) (c k : Int) (f : Int → Piece)
    (hb : ColumnFilled b c k f) (hk : k ≤ 3) (q : Piece) (hq : q ≠ EMPTY) :
    ¬ hasLine b q := by
  rintro ⟨x, y, dx, dy, hd, hl⟩
  rw [fourInLine_iff b hb.1] at hl
  obtain ⟨⟨a1, a2, a3, a4, d1, d2, d3, d4⟩, c0, c1, c2, c3⟩ := hl
  have hin : ∀ i : Int, 0 ≤ i → i < 42 → cellAt b i = q → i % 7 = c ∧ 6 - k ≤ i / 7 := by
    intro i hi0 hi1 hi
    by_contra hcond
    rw [hb.2 i hi0 hi1, if_neg hcond] at hi
    exact hq hi.symm
  simp only [compass8, List.mem_cons, List.mem_singleton, Prod.mk.injEq, List.not_mem_nil,
    or_false] at hd
  rcases hd with ⟨rfl, rfl⟩ | ⟨rfl, rfl⟩ | ⟨rfl, rfl⟩ | ⟨rfl, rfl⟩ | ⟨rfl, rfl⟩ | ⟨rfl, rfl⟩ |
    ⟨rfl, rfl⟩ | ⟨rfl, rfl⟩ <;>
  · have i0 := hin _ (by omega) (by omega) c0
    have i1 := hin _ (by omega) (by omega) c1
    have i2 := hin _ (by omega) (by omega) c2
    have i3 := hin _ (by omega) (by omega) c3
    omega
theorem columnFilled_other_noLine (b : Board) (c k : Int) (p : Piece)
    (hb : ColumnFilled b c k (fun _ => p)) (q : Piece) (hq : q ≠ EMPTY) (hqp : q ≠ p) :
    ¬ hasLine b q := by
  rintro ⟨x, y, dx, dy, _, hl⟩
  rw [fourInLine_iff b hb.1] at hl
  obtain ⟨⟨a1, a2, a3, a4, _⟩, c0, _⟩ := hl
  rw [hb.2 _ (by omega) (by omega)] at c0
  split at c0
  · exact hqp c0.symm
  · exact hq c0.symm

theorem columnFilled_four_line (b : Board) (c : Int) (p : Piece) (hc0 : 0 ≤ c) (hc1 : c < 7)
    (hb : ColumnFilled b c 4 (fun _ => p)) : hasLine b p := by
  refine ⟨c, 2, 0, 1, by simp [compass8], ?_⟩
  rw [fourInLine_iff b hb.1]
  have hcell : ∀ i : Int, 0 ≤ i → i < 42 → i % 7 = c ∧ 6 - 4 ≤ i / 7 → cellAt b i = p := by
    intro i hi0 hi1 hcond
    rw [hb.2 i hi0 hi1, if_pos hcond]
  refine ⟨by omega, ?_, ?_, ?_, ?_⟩ <;> exact hcell _ (by omega) (by omega) (by omega)

/-- C14: for every column c in [0, 7) and every player p among P1 and P2,
the first three of four successive moves of p into column c on the
all-EMPTY board succeed and leave gameOver at EMPTY, and the fourth succeeds
and makes gameOver return p. -/
theorem four_in_column_wins (c : Int) (h0 : 0 ≤ c) (h1 : c < 7) (p : Piece)
    (hp : p = P1 ∨ p = P2) :
    ∃ b1 b2 b3 b4 : Board,
      move (initBoard []) c p = Run.ok (b1, none) ∧ gameOver b1 = Run.ok EMPTY ∧
      move b1 c p = Run.ok (b2, none) ∧ gameOver b2 = Run.ok EMPTY ∧
      move b2 c p = Run.ok (b3, none) ∧ gameOver b3 = Run.ok EMPTY ∧
      move b3 c p = Run.ok (b4, none) ∧ gameOver b4 = Run.ok p := by
  have hpe : p ≠ EMPTY := by rcases hp with rfl | rfl <;> decide
  have hf : ∀ r : Int, (fun _ : Int => p) r ≠ EMPTY := fun _ => hpe
  obtain ⟨m1, c1⟩ := columnFilled_move _ c 0 _ (columnFilled_init c (fun _ => p)) h0 h1
    (by omega) (by omega) hf
  obtain ⟨m2, c2⟩ := columnFilled_move _ c _ _ c1 h0 h1 (by omega) (by omega) hf
  obtain ⟨m3, c3⟩ := columnFilled_move _ c _ _ c2 h0 h1 (by omega) (by omega) hf
  obtain ⟨m4, c4⟩ := columnFilled_move _ c _ _ c3 h0 h1 (by omega) (by omega) hf
  have hempty : ∀ (b : Board) (k : Int), ColumnFilled b c k (fun _ => p) → k ≤ 3 →
      gameOver b = Run.ok EMPTY := by
    intro b k hb hk
    rcases gameOver_cases b hb.1 with ⟨h, _⟩ | ⟨_, hl⟩ | ⟨_, hl⟩
    · exact h
    · exact absurd hl (columnFilled_noLine b c k _ hb hk P1 (by decide))
    · exact absurd hl (columnFilled_noLine b c k _ hb hk P2 (by decide))
  have hline := columnFilled_four_line _ c p h0 h1 (by simpa using c4)
  refine ⟨_, _, _, _, m1, hempty _ _ c1 (by omega), m2, hempty _ _ c2 (by omega), m3,
    hempty _ _ c3 (by omega), m4, ?_⟩
  rcases gameOver_cases _ c4.1 with ⟨_, n1, n2⟩ | ⟨h, hl⟩ | ⟨h, hl⟩
  · rcases hp with rfl | rfl
    · exact absurd hline n1
    · exact absurd hline n2
  · rcases hp with rfl | rfl
    · exact h
    · exact absurd hl (columnFilled_other_noLine _ c _ P2 c4 P1 (by decide) (by decide))
  · rcases hp with rfl | rfl
    · exact absurd hl (columnFilled_other_noLine _ c _ P1 c4 P2 (by decide) (by decide))
    · exact h

/-- C14 for column 0 and P1, the moves of TestGameOver. -/
theorem four_in_column_wins_witness :
    ∃ b1 b2 b3 b4 : Board,
      move (initBoard []) 0 P1 = Run.ok (b1, none) ∧ gameOver b1 = Run.ok EMPTY ∧
      move b1 0 P1 = Run.ok (b2, none) ∧ gameOver b2 = Run.ok EMPTY ∧
      move b2 0 P1 = Run.ok (b3, none) ∧ gameOver b3 = Run.ok EMPTY ∧
      move b3 0 P1 = Run.ok (b4, none) ∧ gameOver b4 = Run.ok P1 :=
  four_in_column_wins 0 (by decide) (by decide) P1 (Or.inl rfl)

/-! ## Settled boards -/

theorem mem_gridRows (r : Int) : r ∈ gridRows ↔ 0 ≤ r ∧ r < 6 := by
  simp only [gridRows, List.mem_cons, List.mem_singleton, List.not_mem_nil, or_false]
  omega

theorem mem_gridCols (c : Int) : c ∈ gridCols ↔ 0 ≤ c ∧ c < 7 := by
  simp only [gridCols, List.mem_cons, List.mem_singleton, List.not_mem_nil, or_false]
  omega

theorem getIdx_ok_bounds {α : Type} (l : List α) (i : Int) (a : α)
    (h : getIdx l i = Run.ok a) : 0 ≤ i ∧ i < l.length := by
  unfold getIdx at h
  by_cases hneg : i < 0
  · simp [hneg] at h
  · simp only [hneg, if_false] at h
    by_contra hcon
    have : l[i.toNat]? = none := List.getElem?_eq_none (by omega)
    simp [this] at h

theorem move_ok_none (b : Board) (c : Int) (p : Piece) (b' : Board) (hlen : b.length = 42)
    (hm : move b c p = Run.ok (b', none)) :
    0 ≤ c ∧ c < 7 ∧ ∃ r : Nat, r < 6 ∧ cellAt b (coordToIdx c r) = EMPTY ∧
      (∀ r' : Nat, r < r' → r' < 6 → cellAt b (coordToIdx c r') ≠ EMPTY) ∧
      b' = b.set (coordToIdx c r).toNat p := by
  have hc : 0 ≤ c ∧ c < 7 := by
    unfold move at hm
    rw [validMoves_topRow b (by omega), Run.ok_bind] at hm
    cases hg : getIdx (topRow b) c with
    | fault f => simp [hg] at hm
    | ok v =>
      have := getIdx_ok_bounds _ _ _ hg
      simp only [topRow, List.length_cons, List.length_nil] at this
      omega
  refine ⟨hc.1, hc.2, ?_⟩
  rw [move_eq b c p (by omega) hc.1 hc.2] at hm
  by_cases hz : cellAt b c = EMPTY
  · rw [if_pos hz] at hm
    have hex : ∃ r : Nat, r < 6 ∧ cellAt b (coordToIdx c r) = EMPTY :=
      ⟨0, by omega, by simpa [coordToIdx] using hz⟩
    obtain ⟨r, hr, hre, hall, hml⟩ := moveLoop_spec b c p hlen hc.1 hc.2 6 (by omega) hex
    rw [hml] at hm
    simp only [Run.ok.injEq, Prod.mk.injEq, and_true] at hm
    exact ⟨r, hr, hre, hall, hm.symm⟩
  · rw [if_neg hz] at hm
    simp at hm
theorem settled_move (b : Board) (c : Int) (p : Piece) (b' : Board) (hlen : b.length = 42)
    (hs : settled b) (hp : p ≠ EMPTY) (hm : move b c p = Run.ok (b', none)) :
    settled b' ∧ b'.length = 42 := by
  obtain ⟨hc0, hc1, r, hr, _, hall, rfl⟩ := move_ok_none b c p b' hlen hm
  have hi0 : 0 ≤ coordToIdx c (r : Int) := by rw [coordToIdx_eq]; omega
  have hi1 : coordToIdx c (r : Int) < b.length := by rw [coordToIdx_eq, hlen]; omega
  refine ⟨?_, by simp [hlen]⟩
  intro c2 hc2 r1 hr1 r2 hr2 hlt hne
  rw [mem_gridCols] at hc2
  rw [mem_gridRows] at hr1 hr2
  rw [cellAt_set b _ _ p hi0 hi1 (by rw [coordToIdx_eq]; omega)] at hne ⊢
  by_cases h2 : coordToIdx c2 r2 = coordToIdx c r
  · rw [if_pos h2]; exact hp
  · rw [if_neg h2]
    by_cases h1 : coordToIdx c2 r1 = coordToIdx c r
    · have hcc : c2 = c ∧ r1 = r := by
        rw [coordToIdx_eq, coordToIdx_eq] at h1; omega
      obtain ⟨rfl, hr1r⟩ := hcc
      have e : r2 = ((r2.toNat : Nat) : Int) := by omega
      rw [e]
      exact hall r2.toNat (by omega) (by omega)
    · rw [if_neg h1] at hne
      exact hs c2 ((mem_gridCols c2).2 hc2) r1 ((mem_gridRows r1).2 hr1) r2
        ((mem_gridRows r2).2 hr2) hlt hne

theorem settled_full_iff (b : Board) (c : Int) (hlen : b.length = 42) (hs : settled b)
    (hc0 : 0 ≤ c) (hc1 : c < 7) : cellAt b c ≠ EMPTY ↔ columnFull b c := by
  have hget : ∀ r : Int, 0 ≤ r → r < 6 →
      getIdx b (coordToIdx c r) = Run.ok (cellAt b (coordToIdx c r)) := by
    intro r h0 h1
    exact getIdx_eq_cellAt b _ (by rw [coordToIdx_eq]; omega) (by rw [coordToIdx_eq, hlen]; omega)
  have htop : coordToIdx c 0 = c := by simp [coordToIdx]
  constructor
  · intro hne r hr
    have hr' := (mem_gridRows r).1 hr
    refine ⟨_, hget r hr'.1 hr'.2, ?_⟩
    by_cases h0 : r = 0
    · subst h0; rw [htop]; exact hne
    · exact hs c ((mem_gridCols c).2 ⟨hc0, hc1⟩) 0 (by decide) r hr (by omega)
        (by rw [htop]; exact hne)
  · intro hfull
    obtain ⟨cell, hcell, hne⟩ := hfull 0 (by decide)
    rw [hget 0 (by omega) (by omega), htop] at hcell
    rw [Run.ok.inj hcell]; exact hne

/-- C20: the all-EMPTY board is settled; a successful move of a non-EMPTY
piece on a settled 42-cell board gives a settled 42-cell board; and on a
settled 42-cell board validMoves is false at a column c in [0, 7) exactly
when all six cells of column c are non-EMPTY, which is also exactly when a
move into c returns an error. -/
theorem settled_invariant :
    settled (initBoard []) ∧
    (∀ (b b' : Board) (c : Int) (p : Piece), b.length = 42 → settled b → p ≠ EMPTY →
      move b c p = Run.ok (b', none) → settled b' ∧ b'.length = 42) ∧
    (∀ (b : Board) (c : Int), b.length = 42 → settled b → 0 ≤ c → c < 7 →
      ∃ valid, validMoves b = Run.ok valid ∧
        (getIdx valid c = Run.ok false ↔ columnFull b c) ∧
        ∀ p : Piece, (∃ b' err, move b c p = Run.ok (b', some err)) ↔ columnFull b c) := by
  refine ⟨by decide, fun b b' c p hlen hs hp hm => settled_move b c p b' hlen hs hp hm, ?_⟩
  intro b c hlen hs hc0 hc1
  have hfull := settled_full_iff b c hlen hs hc0 hc1
  refine ⟨topRow b, validMoves_topRow b (by omega), ?_, fun p => ?_⟩
  · rw [getIdx_topRow b c hc0 hc1, ← hfull]
    by_cases hz : cellAt b c = EMPTY <;> simp [hz]
  · rw [← hfull, move_eq b c p (by omega) hc0 hc1]
    by_cases hz : cellAt b c = EMPTY
    · rw [if_pos hz]
      have hex : ∃ r : Nat, r < 6 ∧ cellAt b (coordToIdx c r) = EMPTY :=
        ⟨0, by omega, by simpa [coordToIdx] using hz⟩
      obtain ⟨r, _, _, _, hml⟩ := moveLoop_spec b c p hlen hc0 hc1 6 (by omega) hex
      rw [hml]
      simp [hz]
    · rw [if_neg hz]
      simp [hz]

/-- C20 at the move of P1 into column 0 of the all-EMPTY board. -/
theorem settled_invariant_witness :
    settled ((initBoard []).set 35 P1) ∧ ((initBoard []).set 35 P1).length = 42 :=
  settled_invariant.2.1 (initBoard []) ((initBoard []).set 35 P1) 0 P1 (by decide) (by decide)
    (by decide) (by decide)
/-! ## The groups of collectFour -/

theorem itoa_small (z : Int) (h : z = EMPTY ∨ z = P1 ∨ z = P2) :
    itoa z = [digitChar z.toNat] := by
  rcases h with rfl | rfl | rfl <;> decide

theorem cellAt_small (board : Board)
    (hcells : ∀ cell ∈ board, cell = EMPTY ∨ cell = P1 ∨ cell = P2) (i : Int) :
    cellAt board i = EMPTY ∨ cellAt board i = P1 ∨ cellAt board i = P2 := by
  unfold cellAt
  rw [List.getD_eq_getElem?_getD]
  cases h : board[i.toNat]? with
  | none => left; rfl
  | some a =>
    have hm : a ∈ board := List.getElem?_mem h
    simpa using hcells a hm

theorem sprintf4_small (board : Board)
    (hcells : ∀ cell ∈ board, cell = EMPTY ∨ cell = P1 ∨ cell = P2) (i j k l : Int) :
    sprintf4 (cellAt board i) (cellAt board j) (cellAt board k) (cellAt board l) =
      [digitChar (cellAt board i).toNat, digitChar (cellAt board j).toNat,
       digitChar (cellAt board k).toNat, digitChar (cellAt board l).toNat] := by
  unfold sprintf4
  rw [itoa_small _ (cellAt_small board hcells i), itoa_small _ (cellAt_small board hcells j),
    itoa_small _ (cellAt_small board hcells k), itoa_small _ (cellAt_small board hcells l)]
  rfl

theorem windowInGrid_eq (idx : Int) (h0 : 0 ≤ idx) (h1 : idx < 42) (d : Direction) :
    windowInGrid idx d =
      decide (0 ≤ idx % 7 + 3 * d.dx ∧ idx % 7 + 3 * d.dx < 7 ∧
              0 ≤ idx / 7 + 3 * d.dy ∧ idx / 7 + 3 * d.dy < 6) := by
  rw [Bool.eq_iff_iff]
  simp only [windowInGrid, List.all_cons, List.all_nil, Bool.and_true, Bool.and_eq_true,
    decide_eq_true_eq]
  constructor
  · rintro ⟨_, _, _, h⟩; omega
  · intro h
    cases d <;> simp only [Direction.dx, Direction.dy] at h ⊢ <;> omega

theorem stepGroups_eq_windows (board : Board)
    (hcells : ∀ cell ∈ board, cell = EMPTY ∨ cell = P1 ∨ cell = P2) (idx : Int)
    (h0 : 0 ≤ idx) (h1 : idx < 42) :
    stepGroups board idx = (stepWindows idx).map (specGroup board) := by
  have hs := sprintf4_small board hcells
  have hx0 : 0 ≤ idx % 7 := by omega
  have hx1 : idx % 7 < 7 := by omega
  have hy0 : 0 ≤ idx / 7 := by omega
  have hy1 : idx / 7 < 6 := by omega
  have hxy : idx = idx % 7 + 7 * (idx / 7) := by omega
  simp only [stepGroups, stepWindows, idxToCoord_nonneg idx h0, coordToIdx_eq, boardWidth,
    boardHeight, hs, List.filter_cons, List.filter_nil, windowInGrid_eq idx h0 h1,
    Direction.dx, Direction.dy, specGroup, windowIdx, decide_eq_true_eq]
  generalize idx % 7 = x at *
  generalize idx / 7 = y at *
  subst hxy
  have e1 : (x + 7 * y) % 7 = x := by omega
  have e2 : (x + 7 * y) / 7 = y := by omega
  have key : ∀ i j : Int, i = j →
      digitChar (cellAt board i).toNat = digitChar (cellAt board j).toNat :=
    fun i j h => by rw [h]
  have g1 : (0 ≤ x + 3 * 1 ∧ x + 3 * 1 < 7 ∧ 0 ≤ y + 3 * 0 ∧ y + 3 * 0 < 6) ↔ x + 3 < 7 := by
    omega
  have g2 : (0 ≤ x + 3 * 0 ∧ x + 3 * 0 < 7 ∧ 0 ≤ y + 3 * 1 ∧ y + 3 * 1 < 6) ↔ y + 3 < 6 := by
    omega
  have g3 : (0 ≤ x + 3 * 1 ∧ x + 3 * 1 < 7 ∧ 0 ≤ y + 3 * 1 ∧ y + 3 * 1 < 6) ↔
      (x + 3 < 7 ∧ y + 3 < 6) := by omega
  have g4 : (0 ≤ x + 3 * 1 ∧ x + 3 * 1 < 7 ∧ 0 ≤ y + 3 * -1 ∧ y + 3 * -1 < 6) ↔
      (x + 3 < 7 ∧ y - 3 ≥ 0) := by omega
  simp only [g1, g2, g3, g4]
  by_cases hx : x + 3 < 7 <;> by_cases hy : y + 3 < 6 <;> by_cases hu : y - 3 ≥ 0
  all_goals first
    | omega
    | simp only [hx, hy, hu, if_true, if_false, and_true, and_false, true_and, false_and,
        List.map_cons, List.map_nil, List.nil_append, List.append_nil, List.cons_append,
        Direction.dx, Direction.dy, mul_one, mul_zero, zero_mul, add_zero, one_mul]
  all_goals simp only [specGroup, windowIdx, coordToIdx_eq, e1, e2, List.map_cons, List.map_nil,
    Direction.dx, Direction.dy, List.cons.injEq, and_true]
  all_goals repeat' constructor
  all_goals first
    | rfl
    | (apply key; omega)

theorem groupsFrom_eq_windows (board : Board)
    (hcells : ∀ cell ∈ board, cell = EMPTY ∨ cell = P1 ∨ cell = P2) (left : Nat) :
    ∀ idx : Nat, idx + left ≤ 42 →
      groupsFrom board left idx = (windowsFrom left idx).map (specGroup board) := by
  induction left with
  | zero => intro idx _; rfl
  | succ n ih =>
    intro idx h
    have hcast : ((idx : Int) + 1) = ((idx + 1 : Nat) : Int) := by push_cast; rfl
    unfold groupsFrom windowsFrom
    rw [List.map_append, stepGroups_eq_windows board hcells idx (by omega) (by omega), hcast,
      ih (idx + 1) (by omega)]

/-- C19: on a 42-cell board whose cells are EMPTY, P1 or P2, collectFour
returns the groups of the 69 windows of the board: 24 rightward, 21
downward, 12 down-right and 12 up-right, by ascending start index and, for
one start cell, in the order rightward, downward, down-right, up-right (the
up-right window that starts at index 23 is entry 50); each group consists of
the four decimal digits of the cells of its window from the start cell
outward. -/
theorem collectFour_windows (board : Board) (hlen : board.length = 42)
    (hcells : ∀ cell ∈ board, cell = EMPTY ∨ cell = P1 ∨ cell = P2) :
    collectFour board = Run.ok (specWindows.map (specGroup board)) ∧
    (specWindows.map (specGroup board)).length = 69 ∧
    (specWindows.filter (fun w => w.2 = Direction.right)).length = 24 ∧
    (specWindows.filter (fun w => w.2 = Direction.down)).length = 21 ∧
    (specWindows.filter (fun w => w.2 = Direction.downRight)).length = 12 ∧
    (specWindows.filter (fun w => w.2 = Direction.upRight)).length = 12 ∧
    List.Pairwise (fun a b : Int × Direction =>
      a.1 < b.1 ∨ (a.1 = b.1 ∧ a.2.rank < b.2.rank)) specWindows ∧
    (∀ w ∈ specWindows, 0 ≤ w.1 ∧ w.1 < 42 ∧ windowInGrid w.1 w.2 = true) ∧
    specWindows[50]? = some (23, Direction.upRight) ∧
    (∀ w : Int × Direction, specGroup board w =
      [digitChar (cellAt board (windowIdx w.1 w.2 0)).toNat,
       digitChar (cellAt board (windowIdx w.1 w.2 1)).toNat,
       digitChar (cellAt board (windowIdx w.1 w.2 2)).toNat,
       digitChar (cellAt board (windowIdx w.1 w.2 3)).toNat]) := by
  have h := groupsFrom_eq_windows board hcells 42 0 (by omega)
  simp only [Nat.cast_zero] at h
  refine ⟨?_, ?_, by decide, by decide, by decide, by decide, by decide, by decide, by decide,
    fun w => rfl⟩
  · rw [collectFour_eq board hlen, h]; rfl
  · rw [List.length_map]; decide

/-- C19 on the board of TestCollectFour. -/
theorem collectFour_windows_witness :
    collectFour (initBoard [(1, P1), (2, P2), (5, P1), (6, P1), (7, P2), (8, P2)]) =
      Run.ok (specWindows.map
        (specGroup (initBoard [(1, P1), (2, P2), (5, P1), (6, P1), (7, P2), (8, P2)]))) :=
  (collectFour_windows (initBoard [(1, P1), (2, P2), (5, P1), (6, P1), (7, P2), (8, P2)])
    (by decide) (by decide)).1

/-! ## The course of one trial -/

theorem simLoop_trace :
    ∀ (fuel : Nat) (s : Sim), SimInv s → simMeasure s ≤ fuel → s.winner = EMPTY →
      ∃ s', simLoop fuel s = Run.ok s' ∧
        s'.boardCopy.length = 42 ∧
        s.moveCnt ≤ s'.moveCnt ∧
        (s'.moveCnt = s.moveCnt → s'.boardCopy = s.boardCopy) ∧
        s'.errors = s.errors ∧
        (s.player ≠ EMPTY →
          (emptyCount s'.boardCopy : Int) + (s'.moveCnt - s.moveCnt) = emptyCount s.boardCopy) ∧
        (s'.winner = EMPTY →
          s'.score = s.score - (s'.moveCnt - s.moveCnt) ∧
          filterValid (topRow s'.boardCopy) = [] ∧
          (s.moveCnt < s'.moveCnt → gameOver s'.boardCopy = Run.ok EMPTY)) ∧
        (s'.winner ≠ EMPTY →
          s.moveCnt < s'.moveCnt ∧ (s'.winner = P1 ∨ s'.winner = P2) ∧
          gameOver s'.boardCopy = Run.ok s'.winner ∧
          s'.score = (if s'.winner = P1 then (s.score - (s'.moveCnt - s.moveCnt - 1)) * -1
                      else s.score - (s'.moveCnt - s.moveCnt - 1))) := by
  intro fuel
  induction fuel with
  | zero =>
    intro s hinv hfuel hw
    have hempty : s.nextMoves = [] := by
      by_contra hne
      obtain ⟨_, _, _, _, _, _, _, hpos, _⟩ := simLoop_step s hinv hne
      unfold simMeasure at hfuel
      omega
    refine ⟨s, by simp [simLoop, hempty], hinv.1, le_refl _, fun _ => rfl, rfl,
      fun _ => by omega, fun _ => ⟨by omega, by rw [← hinv.2]; exact hempty,
        fun h => absurd h (lt_irrefl _)⟩, fun h => absurd hw h⟩
  | succ n ih =>
    intro s hinv hfuel hw
    by_cases hne : s.nextMoves = []
    · refine ⟨s, by simp [simLoop, hne], hinv.1, le_refl _, fun _ => rfl, rfl,
        fun _ => by omega, fun _ => ⟨by omega, by rw [← hinv.2]; exact hne,
          fun h => absurd h (lt_irrefl _)⟩, fun h => absurd hw h⟩
    · obtain ⟨c, board', piece, rng', hmem, _, hlen', hcount, hpos, hgo, hcases, hstep⟩ :=
        simLoop_step s hinv hne
      have hcnt : s.player ≠ EMPTY → (emptyCount board' : Int) + 1 = emptyCount s.boardCopy := by
        intro hp
        simp only [hp, if_false] at hcount
        omega
      have hmeas : simMeasure s = emptyCount board' + 1 := by
        unfold simMeasure
        by_cases hp : s.player = EMPTY
        · simp [hp] at hcount ⊢; omega
        · simp [hp] at hcount ⊢; omega
      rw [hstep n]
      by_cases hpe : piece = EMPTY
      · rw [if_neg (not_not.2 hpe)]
        have hnt : nextTurn s.player ≠ EMPTY := by
          unfold nextTurn; split <;> decide
        obtain ⟨s', hrun, hl, hmc, hsame, herr, hec, hwe, hwn⟩ := ih
          { s with boardCopy := board', player := nextTurn s.player, score := s.score - 1,
                   nextMoves := filterValid (topRow board'),
                   firstMove := if s.firstMove = -1 then c else s.firstMove,
                   moveCnt := s.moveCnt + 1, rng := rng' }
          ⟨hlen', rfl⟩
          (by simp only [simMeasure, hnt, if_false]; omega)
          hw
        simp only at hmc hsame herr hec hwe hwn
        have hec' := hec hnt
        refine ⟨s', hrun, hl, by omega, fun h => by omega, herr, ?_, ?_, ?_⟩
        · intro hp
          have := hcnt hp
          omega
        · intro hws
          obtain ⟨h1, h2, h3⟩ := hwe hws
          refine ⟨by omega, h2, fun _ => ?_⟩
          by_cases hm : s.moveCnt + 1 < s'.moveCnt
          · exact h3 hm
          · have : s'.moveCnt = s.moveCnt + 1 := by omega
            rw [hsame this, hgo, hpe]
        · intro hws
          obtain ⟨h1, h2, h3, h4⟩ := hwn hws
          refine ⟨by omega, h2, h3, ?_⟩
          rw [h4]
          have e : s.score - 1 - (s'.moveCnt - (s.moveCnt + 1) - 1) =
              s.score - (s'.moveCnt - s.moveCnt - 1) := by ring
          rw [e]
      · rw [if_pos hpe]
        have hp12 : piece = P1 ∨ piece = P2 := by
          rcases hcases with h | h | h
          · exact absurd h hpe
          · exact Or.inl h
          · exact Or.inr h
        refine ⟨_, rfl, hlen', by simp, fun h => by simp at h, rfl, ?_, ?_, ?_⟩
        · intro hp
          have := hcnt hp
          simp only
          omega
        · intro hws
          exact absurd hws hpe
        · intro _
          refine ⟨by simp, hp12, hgo, ?_⟩
          simp

theorem trial_trace (board : Board) (currPlayer : Piece) (rng : Rng)
    (hlen : board.length = 42) :
    ∃ s, trial board currPlayer rng = Run.ok s ∧
      s.boardCopy.length = 42 ∧ 1 ≤ s.moveCnt ∧ s.errors = 0 ∧
      (s.moveCnt = 1 → s.boardCopy = board) ∧
      (currPlayer ≠ EMPTY →
        (emptyCount s.boardCopy : Int) + (s.moveCnt - 1) = emptyCount board) ∧
      (s.winner = EMPTY →
        s.score = 42 - (s.moveCnt - 1) ∧ filterValid (topRow s.boardCopy) = [] ∧
        (1 < s.moveCnt → gameOver s.boardCopy = Run.ok EMPTY)) ∧
      (s.winner ≠ EMPTY →
        1 < s.moveCnt ∧ (s.winner = P1 ∨ s.winner = P2) ∧
        gameOver s.boardCopy = Run.ok s.winner ∧
        s.score = (if s.winner = P1 then -(43 - (s.moveCnt - 1)) else 43 - (s.moveCnt - 1))) := by
  have hle := emptyCount_le board
  obtain ⟨s, hrun, hl, hmc, hsame, herr, hec, hwe, hwn⟩ := simLoop_trace 43
    { boardCopy := board, player := currPlayer, score := 42,
      nextMoves := filterValid (topRow board), firstMove := -1, moveCnt := 1,
      winner := EMPTY, errors := 0, rng := rng }
    ⟨hlen, rfl⟩
    (by simp only [simMeasure]; split <;> omega)
    rfl
  simp only at hmc hsame herr hec hwe hwn
  have e : (boardWidth * boardHeight).toNat + 1 = 43 := rfl
  have e2 : boardWidth * boardHeight = 42 := rfl
  refine ⟨s, ?_, hl, hmc, herr, hsame, hec, hwe, ?_⟩
  · simp only [trial, validMoves_topRow board (by omega : 7 ≤ board.length), Run.ok_bind, e, e2]
    exact hrun
  · intro hw
    obtain ⟨h1, h2, h3, h4⟩ := hwn hw
    refine ⟨h1, h2, h3, ?_⟩
    rw [h4]
    split <;> ring

/-- C12: a rollout from a 42-cell board has made `moveCnt - 1` moves when it
ends. If it ends because gameOver reports a piece after the k-th move, that
piece is P1 or P2 and the score is 43 - k for P2 and -(43 - k) for P1; if it
ends with no legal move left after m moves, gameOver never having reported a
winner, the score is 42 - m. Hence of two rollouts that P2 wins the one with
fewer moves has the strictly higher score. -/
theorem rollout_score (board : Board) (hlen : board.length = 42) (currPlayer : Piece)
    (rng : Rng) :
    ∃ s, trial board currPlayer rng = Run.ok s ∧
      (s.winner = EMPTY ∨ s.winner = P1 ∨ s.winner = P2) ∧
      (s.winner = P2 → 1 ≤ s.moveCnt - 1 ∧ gameOver s.boardCopy = Run.ok P2 ∧
        s.score = 43 - (s.moveCnt - 1)) ∧
      (s.winner = P1 → 1 ≤ s.moveCnt - 1 ∧ gameOver s.boardCopy = Run.ok P1 ∧
        s.score = -(43 - (s.moveCnt - 1))) ∧
      (s.winner = EMPTY → 0 ≤ s.moveCnt - 1 ∧ filterValid (topRow s.boardCopy) = [] ∧
        (1 ≤ s.moveCnt - 1 → gameOver s.boardCopy = Run.ok EMPTY) ∧
        s.score = 42 - (s.moveCnt - 1)) ∧
      ∀ (rng2 : Rng) (s2 : Sim), trial board currPlayer rng2 = Run.ok s2 →
        s.winner = P2 → s2.winner = P2 → s.moveCnt - 1 < s2.moveCnt - 1 →
        s2.score < s.score := by
  obtain ⟨s, hrun, _, hmc, _, _, _, hwe, hwn⟩ := trial_trace board currPlayer rng hlen
  have hP2 : ∀ (r : Rng) (t : Sim), trial board currPlayer r = Run.ok t → t.winner = P2 →
      1 ≤ t.moveCnt - 1 ∧ gameOver t.boardCopy = Run.ok P2 ∧ t.score = 43 - (t.moveCnt - 1) := by
    intro r t ht hw
    obtain ⟨t', ht', _, _, _, _, _, _, hwn'⟩ := trial_trace board currPlayer r hlen
    rw [ht] at ht'
    cases ht'
    obtain ⟨h1, _, h3, h4⟩ := hwn' (by rw [hw]; decide)
    rw [hw] at h3 h4
    exact ⟨by omega, h3, by rw [h4]; simp [P1, P2]⟩
  refine ⟨s, hrun, ?_, hP2 rng s hrun, ?_, ?_, ?_⟩
  · by_cases hw : s.winner = EMPTY
    · exact Or.inl hw
    · exact Or.inr (hwn hw).2.1
  · intro hw
    obtain ⟨h1, _, h3, h4⟩ := hwn (by rw [hw]; decide)
    rw [hw] at h3 h4
    exact ⟨by omega, h3, by rw [h4]; simp⟩
  · intro hw
    obtain ⟨h1, h2, h3⟩ := hwe hw
    exact ⟨by omega, h2, fun h => h3 (by omega), h1⟩
  · intro rng2 s2 hs2 hw hw2 hlt
    have a := (hP2 rng s hrun hw).2.2
    have b := (hP2 rng2 s2 hs2 hw2).2.2
    omega

/-- C12 on the all-EMPTY board with P2 to move. -/
theorem rollout_score_witness :
    ∃ s, trial (List.replicate 42 EMPTY) P2 ⟨fun _ => 0, 0⟩ = Run.ok s ∧
      (s.winner = EMPTY ∨ s.winner = P1 ∨ s.winner = P2) ∧
      (s.winner = P2 → 1 ≤ s.moveCnt - 1 ∧ gameOver s.boardCopy = Run.ok P2 ∧
        s.score = 43 - (s.moveCnt - 1)) ∧
      (s.winner = P1 → 1 ≤ s.moveCnt - 1 ∧ gameOver s.boardCopy = Run.ok P1 ∧
        s.score = -(43 - (s.moveCnt - 1))) ∧
      (s.winner = EMPTY → 0 ≤ s.moveCnt - 1 ∧ filterValid (topRow s.boardCopy) = [] ∧
        (1 ≤ s.moveCnt - 1 → gameOver s.boardCopy = Run.ok EMPTY) ∧
        s.score = 42 - (s.moveCnt - 1)) ∧
      ∀ (rng2 : Rng) (s2 : Sim), trial (List.replicate 42 EMPTY) P2 rng2 = Run.ok s2 →
        s.winner = P2 → s2.winner = P2 → s.moveCnt - 1 < s2.moveCnt - 1 →
        s2.score < s.score :=
  rollout_score (List.replicate 42 EMPTY) (by decide) P2 ⟨fun _ => 0, 0⟩

/-- C13: for a 42-cell board and a starting player among P1 and P2, the score
of a rollout lies in [-42, 42]; it is negative exactly when the rollout
ended with gameOver reporting P1; it is at least 1 when it ended with P2
reported, and at least 0 when it ended with no legal move and no winner. -/
theorem rollout_score_range (board : Board) (hlen : board.length = 42) (currPlayer : Piece)
    (hp : currPlayer = P1 ∨ currPlayer = P2) (rng : Rng) :
    ∃ s, trial board currPlayer rng = Run.ok s ∧
      -42 ≤ s.score ∧ s.score ≤ 42 ∧
      (s.score < 0 ↔ s.winner = P1 ∧ gameOver s.boardCopy = Run.ok P1) ∧
      (s.winner = P2 → gameOver s.boardCopy = Run.ok P2 ∧ 1 ≤ s.score) ∧
      (s.winner = EMPTY → filterValid (topRow s.boardCopy) = [] ∧ 0 ≤ s.score) := by
  have hpe : currPlayer ≠ EMPTY := by rcases hp with rfl | rfl <;> decide
  have hle := emptyCount_le board
  obtain ⟨s, hrun, _, hmc, _, _, hec, hwe, hwn⟩ := trial_trace board currPlayer rng hlen
  have hk := hec hpe
  have hk42 : s.moveCnt - 1 ≤ 42 := by omega
  by_cases hw : s.winner = EMPTY
  · obtain ⟨h1, h2, _⟩ := hwe hw
    refine ⟨s, hrun, by omega, by omega, ?_, ?_, fun _ => ⟨h2, by omega⟩⟩
    · constructor
      · intro h; omega
      · rintro ⟨h, _⟩; rw [hw] at h; exact absurd h (by decide)
    · intro h; rw [hw] at h; exact absurd h (by decide)
  · obtain ⟨h1, h2, h3, h4⟩ := hwn hw
    rcases h2 with h2 | h2
    · rw [if_pos h2] at h4
      refine ⟨s, hrun, by omega, by omega, ?_, ?_, fun h => absurd h hw⟩
      · exact ⟨fun _ => ⟨h2, h2 ▸ h3⟩, fun _ => by omega⟩
      · intro h; rw [h2] at h; exact absurd h (by decide)
    · have hne : ¬ s.winner = P1 := by rw [h2]; decide
      rw [if_neg hne] at h4
      refine ⟨s, hrun, by omega, by omega, ?_, ?_, fun h => absurd h hw⟩
      · exact ⟨fun h => by omega, fun h => absurd h.1 hne⟩
      · intro _; exact ⟨h2 ▸ h3, by omega⟩

/-- C13 on the all-EMPTY board with P2 to move. -/
theorem rollout_score_range_witness :
    ∃ s, trial (List.replicate 42 EMPTY) P2 ⟨fun _ => 0, 0⟩ = Run.ok s ∧
      -42 ≤ s.score ∧ s.score ≤ 42 ∧
      (s.score < 0 ↔ s.winner = P1 ∧ gameOver s.boardCopy = Run.ok P1) ∧
      (s.winner = P2 → gameOver s.boardCopy = Run.ok P2 ∧ 1 ≤ s.score) ∧
      (s.winner = EMPTY → filterValid (topRow s.boardCopy) = [] ∧ 0 ≤ s.score) :=
  rollout_score_range (List.replicate 42 EMPTY) (by decide) P2 (Or.inr rfl) ⟨fun _ => 0, 0⟩

/-- C17: in a trial on a 42-cell board, for every player and every sequence
of random choices, the branch `err != nil` is never taken; and in every
state of the trial loop whose board has 42 cells and whose nextMoves are the
legal columns of that board, the column drawn is legal on that board and
move returns no error. -/
theorem rollout_no_error (board : Board) (hlen : board.length = 42) (currPlayer : Piece)
    (rng : Rng) :
    (∃ s, trial board currPlayer rng = Run.ok s ∧ s.errors = 0) ∧
    ∀ st : Sim, SimInv st → st.nextMoves ≠ [] →
      ∃ (r : Int) (rng' : Rng) (c : Int) (valid : List Bool) (board' : Board),
        st.rng.intn st.nextMoves.length = Run.ok (r, rng') ∧
        getIdx st.nextMoves r = Run.ok c ∧
        validMoves st.boardCopy = Run.ok valid ∧ getIdx valid c = Run.ok true ∧
        move st.boardCopy c st.player = Run.ok (board', none) := by
  constructor
  · obtain ⟨s, hrun, _, _, herr, _⟩ := trial_trace board currPlayer rng hlen
    exact ⟨s, hrun, herr⟩
  · intro st hinv hne
    obtain ⟨hl, hnext⟩ := hinv
    have hpos : (0 : Int) < (st.nextMoves.length : Int) := by
      have : st.nextMoves.length ≠ 0 := fun h => hne (List.length_eq_zero.1 h)
      omega
    have hr0 : 0 ≤ (st.rng.seq st.rng.pos : Int) % (st.nextMoves.length : Int) :=
      Int.emod_nonneg _ (by omega)
    have hr1 : (st.rng.seq st.rng.pos : Int) % (st.nextMoves.length : Int) <
        st.nextMoves.length := Int.emod_lt_of_pos _ hpos
    obtain ⟨c, hget, hmem⟩ := getIdx_mem st.nextMoves _ hr0 hr1
    have hc : c ∈ filterValid (topRow st.boardCopy) := hnext ▸ hmem
    obtain ⟨h0, h1, hz⟩ := (mem_filterValid_topRow st.boardCopy c).1 hc
    obtain ⟨r, _, _, _, _, hmove⟩ := move_legal st.boardCopy c st.player hl hc
    have hnp : ¬ ((st.nextMoves.length : Int) ≤ 0) := by omega
    exact ⟨_, { st.rng with pos := st.rng.pos + 1 }, c, topRow st.boardCopy, _,
      by simp [Rng.intn, hnp], hget, validMoves_topRow _ (by omega),
      by rw [getIdx_topRow _ c h0 h1]; simp [hz], hmove⟩

/-- C17 on the all-EMPTY board with P2 to move. -/
theorem rollout_no_error_witness :
    ∃ s, trial (List.replicate 42 EMPTY) P2 ⟨fun _ => 0, 0⟩ = Run.ok s ∧ s.errors = 0 :=
  (rollout_no_error (List.replicate 42 EMPTY) (by decide) P2 ⟨fun _ => 0, 0⟩).1

theorem trialsLoop_log_length (board : Board) (player : Piece) :
    ∀ (left : Nat) (t t' : Trials), trialsLoop board player left t = Run.ok t' →
      t'.log.length = t.log.length + left := by
  intro left
  induction left with
  | zero =>
    intro t t' h
    simp only [trialsLoop, Run.pure_def, Run.ok.injEq] at h
    rw [← h]; rfl
  | succ n ih =>
    intro t t' h
    unfold trialsLoop at h
    cases htr : trial board player t.rng with
    | fault f => simp [htr] at h
    | ok s =>
      simp only [htr, Run.ok_bind] at h
      rw [ih _ t' h]
      simp
      omega

/-- C18: a rollout from a 42-cell board with a starting player among P1 and
P2 ends: it makes `moveCnt - 1` moves, at most as many as the board has EMPTY
cells and so at most 42, and every move takes one EMPTY cell away; at the end
gameOver has just reported a winner or no column is legal. In a state of the
loop with no legal column the loop stops, in any other state it makes a move
and goes on exactly when gameOver reports EMPTY. getBestNextMove therefore
completes its numSimulations trials and returns. -/
theorem rollout_terminates (board : Board) (hlen : board.length = 42) (currPlayer : Piece)
    (hp : currPlayer = P1 ∨ currPlayer = P2) (rng : Rng)
    (order : GoMap → List (Int × Int)) :
    (∃ s, trial board currPlayer rng = Run.ok s ∧
      0 ≤ s.moveCnt - 1 ∧ s.moveCnt - 1 ≤ emptyCount board ∧ emptyCount board ≤ 42 ∧
      (emptyCount s.boardCopy : Int) + (s.moveCnt - 1) = emptyCount board ∧
      ((s.winner ≠ EMPTY ∧ gameOver s.boardCopy = Run.ok s.winner) ∨
       (s.winner = EMPTY ∧ filterValid (topRow s.boardCopy) = []))) ∧
    (∀ (st : Sim) (fuel : Nat), SimInv st → st.player ≠ EMPTY →
      (st.nextMoves = [] → simLoop fuel st = Run.ok st) ∧
      (st.nextMoves ≠ [] →
        ∃ (c : Int) (board' : Board) (piece : Piece) (rng' : Rng),
          c ∈ st.nextMoves ∧
          move st.boardCopy c st.player = Run.ok (board', none) ∧
          emptyCount board' + 1 = emptyCount st.boardCopy ∧
          gameOver board' = Run.ok piece ∧
          simLoop (fuel + 1) st =
            if piece ≠ EMPTY then
              Run.ok { st with boardCopy := board',
                               score := if piece = P1 then st.score * -1 else st.score,
                               firstMove := if st.firstMove = -1 then c else st.firstMove,
                               moveCnt := st.moveCnt + 1, winner := piece, rng := rng' }
            else
              simLoop fuel { st with boardCopy := board', player := nextTurn st.player,
                                     score := st.score - 1,
                                     nextMoves := filterValid (topRow board'),
                                     firstMove := if st.firstMove = -1 then c else st.firstMove,
                                     moveCnt := st.moveCnt + 1, rng := rng' })) ∧
    (∃ t r, trialsLoop board currPlayer numSimulations
        { results := [], log := [], rng := rng } = Run.ok t ∧
      t.log.length = numSimulations ∧
      getBestNextMove board currPlayer rng order = Run.ok r) := by
  have hpe : currPlayer ≠ EMPTY := by rcases hp with rfl | rfl <;> decide
  have hle := emptyCount_le board
  refine ⟨?_, ?_, ?_⟩
  · obtain ⟨s, hrun, _, hmc, _, _, hec, hwe, hwn⟩ := trial_trace board currPlayer rng hlen
    have hk := hec hpe
    refine ⟨s, hrun, by omega, by omega, by omega, hk, ?_⟩
    by_cases hw : s.winner = EMPTY
    · exact Or.inr ⟨hw, (hwe hw).2.1⟩
    · exact Or.inl ⟨hw, (hwn hw).2.2.1⟩
  · intro st fuel hinv hpl
    constructor
    · intro hnil
      cases fuel <;> simp [simLoop, hnil]
    · intro hne
      obtain ⟨c, board', piece, rng', hmem, hmove, _, hcount, _, hgo, _, hstep⟩ :=
        simLoop_step st hinv hne
      simp only [hpl, if_false] at hcount
      exact ⟨c, board', piece, rng', hmem, hmove, hcount, hgo, hstep fuel⟩
  · obtain ⟨t, ht⟩ := trialsLoop_total board currPlayer
      (fun rng => by
        obtain ⟨s, hs, _⟩ := trial_spec board currPlayer rng hlen
        exact ⟨s, hs⟩) numSimulations { results := [], log := [], rng := rng }
    obtain ⟨r, hr⟩ := getBestNextMoveN_total numSimulations board currPlayer rng order hlen
    have hl := trialsLoop_log_length board currPlayer _ _ t ht
    exact ⟨t, r, ht, by simpa using hl, hr⟩

/-- C18 on the all-EMPTY board with P2 to move. -/
theorem rollout_terminates_witness :
    ∃ s, trial (List.replicate 42 EMPTY) P2 ⟨fun _ => 0, 0⟩ = Run.ok s ∧
      0 ≤ s.moveCnt - 1 ∧ s.moveCnt - 1 ≤ emptyCount (List.replicate 42 EMPTY) ∧
      emptyCount (List.replicate 42 EMPTY) ≤ 42 ∧
      (emptyCount s.boardCopy : Int) + (s.moveCnt - 1) =
        emptyCount (List.replicate 42 EMPTY) ∧
      ((s.winner ≠ EMPTY ∧ gameOver s.boardCopy = Run.ok s.winner) ∨
       (s.winner = EMPTY ∧ filterValid (topRow s.boardCopy) = [])) :=
  (rollout_terminates (List.replicate 42 EMPTY) (by decide) P2 (Or.inr rfl) ⟨fun _ => 0, 0⟩
    id).1

/-! ## getBestNextMove does not write to the board of its caller -/

theorem Heap.load_set (h : Heap) (a : BoardRef) (b : Board) (ha : a < h.length) :
    Heap.load (h.set a b) a = Run.ok b := by
  simp [Heap.load, List.getElem?_set, ha]

theorem simLoopMem_eq :
    ∀ (fuel : Nat) (h : Heap) (a : BoardRef) (s : Sim), a < h.length →
      simLoopMem fuel (SimMem.ofSim h a s) =
        (simLoop fuel s >>= fun s' => Run.ok (SimMem.ofSim h a s')) := by
  intro fuel
  induction fuel with
  | zero =>
    intro h a s ha
    unfold simLoopMem simLoop
    by_cases hg : (s.nextMoves.length : Int) > 0 <;> simp [SimMem.ofSim, hg]
  | succ n ih =>
    intro h a s ha
    conv_lhs => unfold simLoopMem
    conv_rhs => unfold simLoop
    by_cases hg : (s.nextMoves.length : Int) > 0
    · simp only [SimMem.ofSim, hg, if_true]
      cases h1 : s.rng.intn s.nextMoves.length with
      | fault f => simp
      | ok rr =>
        obtain ⟨r, rng'⟩ := rr
        simp only [Run.ok_bind]
        cases h2 : getIdx s.nextMoves r with
        | fault f => simp
        | ok randMove =>
          simp only [Run.ok_bind, moveMem, Heap.load_set h a s.boardCopy ha]
          cases h3 : move s.boardCopy randMove s.player with
          | fault f => simp
          | ok res =>
            obtain ⟨b', err⟩ := res
            simp only [Run.ok_bind, Run.pure_def, List.set_set, Heap.load_set h a b' ha]
            cases h4 : gameOver b' with
            | fault f => simp
            | ok piece =>
              simp only [Run.ok_bind]
              by_cases hp : piece ≠ EMPTY
              · rw [if_pos hp, if_pos hp]
                rfl
              · rw [if_neg hp, if_neg hp]
                cases h5 : validMoves b' with
                | fault f => simp
                | ok valid =>
                  simp only [Run.ok_bind]
                  have := ih h a
                    { s with boardCopy := b', player := nextTurn s.player, score := s.score - 1,
                             nextMoves := filterValid valid,
                             firstMove := if s.firstMove = -1 then randMove else s.firstMove,
                             moveCnt := s.moveCnt + 1,
                             errors := if err ≠ none then s.errors + 1 else s.errors,
                             rng := rng' } ha
                  simp only [SimMem.ofSim] at this
                  exact this
    · simp [SimMem.ofSim, hg]

theorem Heap.load_append (h extra : Heap) (a : BoardRef) (cells : Board)
    (hload : Heap.load h a = Run.ok cells) :
    Heap.load (h ++ extra) a = Run.ok cells ∧ a < h.length := by
  unfold Heap.load at hload
  cases hq : h[a]? with
  | none => simp [hq] at hload
  | some b =>
    simp only [hq, Run.ok.injEq] at hload
    obtain ⟨hlt, _⟩ := List.getElem?_eq_some.1 hq
    refine ⟨?_, hlt⟩
    simp [Heap.load, List.getElem?_append_left hlt, hq, hload]

theorem trialMem_eq (h : Heap) (board : BoardRef) (cells : Board)
    (hload : Heap.load h board = Run.ok cells) (currPlayer : Piece) (rng : Rng) :
    trialMem h board currPlayer rng =
      (trial cells currPlayer rng >>= fun s =>
        Run.ok { heap := h ++ [s.boardCopy], boardCopy := h.length, player := s.player,
                 score := s.score, nextMoves := s.nextMoves, firstMove := s.firstMove,
                 moveCnt := s.moveCnt, rng := s.rng }) := by
  have hnew : Heap.load (h ++ [cells]) h.length = Run.ok cells := by
    simp [Heap.load]
  have hset : ∀ b : Board, (h ++ [cells]).set h.length b = h ++ [b] := by
    intro b
    simp [List.set_append]
  unfold trialMem trial
  simp only [hload, Run.ok_bind, hnew]
  cases hv : validMoves cells with
  | fault f => simp
  | ok valid =>
    simp only [Run.ok_bind]
    have key := simLoopMem_eq ((boardWidth * boardHeight).toNat + 1) (h ++ [cells]) h.length
      { boardCopy := cells, player := currPlayer, score := boardWidth * boardHeight,
        nextMoves := filterValid valid, firstMove := -1, moveCnt := 1, winner := EMPTY,
        errors := 0, rng := rng } (by simp)
    simp only [SimMem.ofSim, hset] at key
    exact key

theorem trialsLoopMem_eq (board : BoardRef) (cells : Board) (player : Piece) :
    ∀ (left : Nat) (h : Heap) (res : GoMap) (st : List Board) (log : List (Int × Int))
      (rng : Rng), Heap.load h board = Run.ok cells →
      (∀ f, trialsLoop cells player left { results := res, log := log, rng := rng } =
          Run.fault f →
        trialsLoopMem board player left
          { heap := h, results := res, starts := st, rng := rng } = Run.fault f) ∧
      (∀ t', trialsLoop cells player left { results := res, log := log, rng := rng } =
          Run.ok t' →
        ∃ extra : Heap, trialsLoopMem board player left
          { heap := h, results := res, starts := st, rng := rng } =
            Run.ok { heap := h ++ extra, results := t'.results,
                     starts := st ++ List.replicate left cells, rng := t'.rng }) := by
  intro left
  induction left with
  | zero =>
    intro h res st log rng _
    constructor
    · intro f hf; simp [trialsLoop] at hf
    · intro t' ht
      simp only [trialsLoop, Run.pure_def, Run.ok.injEq] at ht
      subst ht
      exact ⟨[], by simp [trialsLoopMem]⟩
  | succ n ih =>
    intro h res st log rng hload
    have hstep : ∀ s : Sim,
        Heap.load (h ++ [s.boardCopy]) board = Run.ok cells :=
      fun s => (Heap.load_append h [s.boardCopy] board cells hload).1
    unfold trialsLoopMem trialsLoop
    simp only [hload, Run.ok_bind, trialMem_eq h board cells hload]
    cases htr : trial cells player rng with
    | fault f =>
      constructor
      · intro f' hf
        simp only [Run.fault_bind, Run.fault.injEq] at hf ⊢
        exact hf
      · intro t' ht
        simp at ht
    | ok s =>
      simp only [Run.ok_bind]
      obtain ⟨ihf, iho⟩ := ih (h ++ [s.boardCopy])
        (if s.firstMove ≥ 0 then res.put s.firstMove (wrapInt (res.get s.firstMove + s.score))
          else res) (st ++ [cells]) (log ++ [(s.firstMove, s.score)]) s.rng (hstep s)
      constructor
      · intro f hf
        exact ihf f hf
      · intro t' ht
        obtain ⟨extra, he⟩ := iho t' ht
        refine ⟨[s.boardCopy] ++ extra, ?_⟩
        rw [he]
        simp [List.replicate_succ]

/-- C11: getBestNextMove does not change the board of its caller. Whenever
it returns, on a memory in which the slice `board` shows the cells `cells`,
that slice still shows `cells` and no array that existed before the call has
changed; each of the numSimulations trials started its rollout from a copy
with exactly these cells, whatever earlier trials did to their copies; and
the move returned is the one computed on the cells as a value. On a board of
42 cells it does return. -/
theorem getBestNextMove_frame (h : Heap) (board : BoardRef) (cells : Board)
    (hload : Heap.load h board = Run.ok cells) (currPlayer : Piece) (rng : Rng)
    (order : GoMap → List (Int × Int)) :
    (∀ res, getBestNextMoveMem h board currPlayer rng order = Run.ok res →
      Heap.load res.heap board = Run.ok cells ∧
      (∀ a : BoardRef, a < h.length → res.heap[a]? = h[a]?) ∧
      res.starts.length = numSimulations ∧
      (∀ b ∈ res.starts, b = cells) ∧
      getBestNextMove cells currPlayer rng order = Run.ok res.bestMove) ∧
    (cells.length = 42 →
      ∃ res, getBestNextMoveMem h board currPlayer rng order = Run.ok res) := by
  obtain ⟨hf, ho⟩ := trialsLoopMem_eq board cells currPlayer numSimulations h [] [] [] rng hload
  cases ht : trialsLoop cells currPlayer numSimulations { results := [], log := [], rng := rng }
    with
  | fault f =>
    have hm := hf f ht
    constructor
    · intro res hres
      simp [getBestNextMoveMem, getBestNextMoveMemN, hm] at hres
    · intro hlen
      obtain ⟨t, ht'⟩ := trialsLoop_total cells currPlayer
        (fun rng => by
          obtain ⟨s, hs, _⟩ := trial_spec cells currPlayer rng hlen
          exact ⟨s, hs⟩) numSimulations { results := [], log := [], rng := rng }
      rw [ht] at ht'
      cases ht'
  | ok t' =>
    obtain ⟨extra, hm⟩ := ho t' ht
    have hres : getBestNextMoveMem h board currPlayer rng order =
        Run.ok { heap := h ++ extra, bestMove := bestLoop (order t'.results) (-1) MinInt,
                 starts := [] ++ List.replicate numSimulations cells } := by
      simp only [getBestNextMoveMem, getBestNextMoveMemN, hm, Run.ok_bind, Run.pure_def]
    constructor
    · intro res hr
      rw [hres] at hr
      cases hr
      refine ⟨(Heap.load_append h extra board cells hload).1, ?_, by simp, ?_, ?_⟩
      · intro a ha
        exact List.getElem?_append_left ha
      · intro b hb
        simp only [List.nil_append] at hb
        exact List.eq_of_mem_replicate hb
      · simp only [getBestNextMove, getBestNextMoveN, ht, Run.ok_bind, Run.pure_def]
    · intro _
      exact ⟨_, hres⟩

/-- C11 on a memory whose only array is the all-EMPTY board. -/
theorem getBestNextMove_frame_witness :
    ∃ res, getBestNextMoveMem [List.replicate 42 EMPTY] 0 P2 ⟨fun _ => 0, 0⟩ id = Run.ok res :=
  (getBestNextMove_frame [List.replicate 42 EMPTY] 0 (List.replicate 42 EMPTY) (by decide) P2
    ⟨fun _ => 0, 0⟩ id).2 (by decide)

end Take4
